import Mathlib

/-!
# Dijkstra shortest paths with a lazy binary heap (`dijkstra.go`)

A shallow embedding of `dijkstra.go` (package `main`): the `priorityQueue`
methods, the `container/heap` driver they are handed to, the `Dijkstra`
relaxation loop and `GetPath`.

Modelling conventions.

* A Go `map[string]T` that is only read and written by key (`distances`,
  `previous`) is a finite partial function `String → Option T`; reading a
  missing key yields the zero value of `T`.
* `Graph` is ranged over, so it is an association list: the list order is
  the iteration order of one run.  `graph[u]` is the first entry with key `u`.
* Go `int` is 64 bit: the one addition of the program, `distances[u] + weight`,
  wraps modulo `2^64`.
* Loops take a fuel argument and return `none` when the fuel is used up
  before the loop is left.
-/

set_option autoImplicit false

namespace DijkstraGo

/-! ## Machine integers -/

/-- The constant `math.MaxInt64`. -/
def MaxInt64 : Int := 9223372036854775807

/-- Two's complement wrap-around of a 64 bit signed result. -/
def wrap64 (x : Int) : Int :=
  (x + 9223372036854775808) % 18446744073709551616 - 9223372036854775808

/-! ## Go maps accessed by key -/

/-- A Go `map[string]T` used through lookups and assignments only. -/
abbrev GoMap (β : Type) := String → Option β

/-- The map `make(map[string]T)`. -/
def GoMap.empty {β : Type} : GoMap β := fun _ => none

/-- The assignment `m[k] = v`. -/
def GoMap.set {β : Type} (m : GoMap β) (k : String) (v : β) : GoMap β :=
  fun x => if x = k then some v else m x

/-- The read `distances[k]`: the zero value `0` when `k` is missing. -/
def GoMap.getInt (m : GoMap Int) (k : String) : Int := (m k).getD 0

/-- Type `Graph map[string]map[string]int`, with its iteration order. -/
abbrev Graph := List (String × List (String × Int))

/-! ## `pqItem` and `priorityQueue` -/

/-- Struct `pqItem`. -/
structure pqItem where
  node : String
  priority : Int
  index : Int
  deriving DecidableEq

instance : Inhabited pqItem := ⟨⟨"", 0, 0⟩⟩

/-- Type `priorityQueue []*pqItem`. -/
abbrev priorityQueue := List pqItem

/-- Method `Len`. -/
def priorityQueue.Len (pq : priorityQueue) : Nat := pq.length

/-- Method `Less`: `pq[i].priority < pq[j].priority`. -/
def priorityQueue.Less (pq : priorityQueue) (i j : Nat) : Bool :=
  decide ((pq.getD i default).priority < (pq.getD j default).priority)

/-- Method `Swap`: exchange the two slots, then store each slot's position in
the `index` field of the item it now holds. -/
def priorityQueue.Swap (pq : priorityQueue) (i j : Nat) : priorityQueue :=
  let a := pq.getD i default
  let b := pq.getD j default
  (pq.set i { b with index := (i : Int) }).set j { a with index := (j : Int) }

/-- Method `Push`: append the item, recording its position. -/
def priorityQueue.Push (pq : priorityQueue) (item : pqItem) : priorityQueue :=
  pq ++ [{ item with index := (pq.length : Int) }]

/-- Method `Pop`: remove and return the last slot (`index` becomes `-1`). -/
def priorityQueue.Pop (pq : priorityQueue) : pqItem × priorityQueue :=
  let n := pq.length
  let item := pq.getD (n - 1) default
  ({ item with index := -1 }, pq.take (n - 1))

/-! ## `container/heap`

`dijkstra.go` hands its `priorityQueue` to `heap.Push` and `heap.Pop` of the Go
standard library.  The four functions below transcribe `container/heap`
(`up`, `down`, `Push`, `Pop`).  Indices are naturals: `(j - 1) / 2` is `0`
at `j = 0` both in Go (division truncates towards zero) and here.  The test
`j1 < 0` of `down` guards against overflow of `2*i + 1`, which no slice length
reaches, and is left out.  `heap.Pop` is only called on a non-empty queue
(`for pq.Len() > 0`); on an empty one Go panics and the model returns a default
item. -/

/-- The loop of `heap.up`: while the item at `j` is less than its parent,
swap them. -/
def heap.upLoop : Nat → priorityQueue → Nat → priorityQueue
  | 0, h, _ => h
  | fuel + 1, h, j =>
    let i := (j - 1) / 2
    if i = j ∨ ¬ h.Less j i = true then h
    else heap.upLoop fuel (h.Swap i j) i

/-- Function `heap.up(h, j)`; `j` iterations always suffice, since `j` strictly
decreases. -/
def heap.up (h : priorityQueue) (j : Nat) : priorityQueue := heap.upLoop j h j

/-- The loop of `heap.down`: while the item at `i` is greater than its
smaller child below `n`, swap them. -/
def heap.downLoop : Nat → priorityQueue → Nat → Nat → priorityQueue
  | 0, h, _, _ => h
  | fuel + 1, h, i, n =>
    let j1 := 2 * i + 1
    if j1 ≥ n then h
    else
      let j := if j1 + 1 < n ∧ h.Less (j1 + 1) j1 = true then j1 + 1 else j1
      if ¬ h.Less j i = true then h
      else heap.downLoop fuel (h.Swap i j) j n

/-- Function `heap.down(h, i0, n)` (its boolean result is not used by `Push`
and `Pop`); `n` iterations always suffice, since `i` strictly increases. -/
def heap.down (h : priorityQueue) (i0 n : Nat) : priorityQueue :=
  heap.downLoop n h i0 n

/-- Function `heap.Push(h, x)`. -/
def heap.Push (h : priorityQueue) (x : pqItem) : priorityQueue :=
  let h := h.Push x
  heap.up h (h.Len - 1)

/-- Function `heap.Pop(h)`. -/
def heap.Pop (h : priorityQueue) : pqItem × priorityQueue :=
  let n := h.Len - 1
  let h := h.Swap 0 n
  let h := heap.down h 0 n
  h.Pop

/-! ## `Dijkstra` -/

/-- The local variables of `Dijkstra` that are read again: `distances`,
`previous` and `pq`.  The map `nodeItems` is written but never read, and is
left out. -/
structure State where
  distances : GoMap Int
  previous : GoMap String
  pq : priorityQueue

/-- Body of `for v, weight := range neighbors`. -/
def relax (u : String) (st : State) (e : String × Int) : State :=
  let altDistance := wrap64 (st.distances.getInt u + e.2)
  if altDistance < st.distances.getInt e.1 then
    { distances := st.distances.set e.1 altDistance
      previous := st.previous.set e.1 u
      pq := heap.Push st.pq { node := e.1, priority := altDistance, index := 0 } }
  else st

/-- Body of the main loop `for pq.Len() > 0`. -/
def step (graph : Graph) (st : State) : State :=
  let popped := heap.Pop st.pq
  let currentItem := popped.1
  let st : State := { st with pq := popped.2 }
  let u := currentItem.node
  if currentItem.priority > st.distances.getInt u then st
  else
    match graph.lookup u with
    | some neighbors => neighbors.foldl (relax u) st
    | none => st

/-- The main loop `for pq.Len() > 0`. -/
def mainLoop (graph : Graph) : Nat → State → Option State
  | 0, st => if st.pq.Len > 0 then none else some st
  | fuel + 1, st =>
    if st.pq.Len > 0 then mainLoop graph fuel (step graph st) else some st

/-- Body of the initialisation loop `for node := range graph`. -/
def initNode (acc : GoMap Int × GoMap String) (e : String × List (String × Int)) :
    GoMap Int × GoMap String :=
  (acc.1.set e.1 MaxInt64, acc.2.set e.1 "")

/-- The maps after the initialisation loop. -/
def initMaps (graph : Graph) : GoMap Int × GoMap String :=
  graph.foldl initNode (GoMap.empty, GoMap.empty)

/-- The state on entry to the main loop. -/
def initState (graph : Graph) (startNode : String) : State :=
  { distances := (initMaps graph).1.set startNode 0
    previous := (initMaps graph).2
    pq := heap.Push [] { node := startNode, priority := 0, index := 0 } }

/-- Function `Dijkstra(graph, startNode)`; `fuel` bounds the iterations of the
main loop. The diagnostic `fmt.Printf` of the missing-start branch is not
modelled. -/
def Dijkstra (fuel : Nat) (graph : Graph) (startNode : String) :
    Option (GoMap Int × GoMap String) :=
  match graph.lookup startNode with
  | none => some (initMaps graph)
  | some _ =>
    (mainLoop graph fuel (initState graph startNode)).map
      fun st => (st.distances, st.previous)

/-! ## `GetPath` -/

/-- The loop `for curr != ""` of `GetPath` together with the code after it.
The failure result `nil, false` is `([], false)`. -/
def GetPath.loop (previous : GoMap String) (startNode : String) :
    Nat → List String → String → Option (List String × Bool)
  | fuel, path, curr =>
    if curr ≠ "" then
      match fuel with
      | 0 => none
      | fuel + 1 =>
        let path := curr :: path
        if curr = startNode then some (path, true)
        else
          match previous curr with
          | none => some ([], false)
          | some prev => GetPath.loop previous startNode fuel path prev
    else if path.length = 0 ∨ path.head? ≠ some startNode then some ([], false)
    else some (path, true)

/-- Function `GetPath(previous, startNode, endNode)`; `fuel` bounds the
iterations of the backward walk. -/
def GetPath (fuel : Nat) (previous : GoMap String) (startNode endNode : String) :
    Option (List String × Bool) :=
  GetPath.loop previous startNode fuel [] endNode

/-! ## The example of `main` -/

/-- The graph built in `main`. -/
def exampleGraph : Graph :=
  [ ("A", [("B", 1), ("C", 4)]),
    ("B", [("A", 1), ("C", 2), ("D", 5)]),
    ("C", [("A", 4), ("B", 2), ("D", 1)]),
    ("D", [("B", 5), ("C", 1), ("E", 3)]),
    ("E", [("D", 3)]),
    ("F", []) ]

/-! ## Queue contents -/

/-- The `(node, priority)` pair an item carries; `index` is bookkeeping. -/
def pqItem.key (it : pqItem) : String × Int := (it.node, it.priority)

/-- The `(node, priority)` pairs held by a queue, slot by slot. -/
def entries (pq : priorityQueue) : List (String × Int) := pq.map pqItem.key

/-! ## Graph vocabulary -/

/-- The key set of the graph, in iteration order. -/
def Graph.keys (g : Graph) : List String := g.map Prod.fst

/-- `graph[u]` has an entry `v` with weight `w`. -/
def Edge (g : Graph) (u v : String) (w : Int) : Prop :=
  ∃ nbrs, g.lookup u = some nbrs ∧ (v, w) ∈ nbrs

/-- `Path g s l v W`: `l` lists the nodes of a path from `s` to `v` along edges
of `g`, and `W` is the sum of the weights of those edges. -/
inductive Path (g : Graph) (s : String) : List String → String → Int → Prop
  | nil : Path g s [s] s 0
  | snoc {l : List String} {u v : String} {W w : Int} :
      Path g s l u W → Edge g u v w → Path g s (l ++ [v]) v (W + w)

/-- `v` can be reached from `s` along edges of `g`. -/
def Reachable (g : Graph) (s v : String) : Prop := ∃ l W, Path g s l v W

/-- All edge weights are non-negative. -/
def NonNeg (g : Graph) : Prop := ∀ e ∈ g, ∀ x ∈ e.2, 0 ≤ x.2

instance (g : Graph) : Decidable (NonNeg g) := by
  unfold NonNeg; infer_instance

/-- The sum of all edge weights of the graph. -/
def totalWeight (g : Graph) : Int := (g.map fun e => (e.2.map Prod.snd).sum).sum

/-- The nodes that occur as a neighbour in some adjacency map. -/
def targets (g : Graph) : List String := g.flatMap fun e => e.2.map Prod.fst

/-! ## Termination of the main loop -/

/-- The termination measure: queue length plus, for every neighbour name, the
distance of its recorded value from the least `int64`. -/
def measure (g : Graph) (st : State) : Nat :=
  st.pq.length +
    ((targets g).map fun v => (st.distances.getInt v + 9223372036854775808).toNat).sum

/-! ## Weight bounds -/

/-- The sum of the weights in `graph[x]` (zero for a missing key). -/
def outWeight (g : Graph) (x : String) : Int :=
  match g.lookup x with
  | some nbrs => (nbrs.map Prod.snd).sum
  | none => 0

/-! ## Witness paths -/

/-- `Wit g s D vis v W`: there is a path from `s` to `v` of weight `W` that
visits the distinct nodes `vis` (latest first), and the recorded value `D x` of
every node `x` on it is at most the weight of the prefix ending at `x`. -/
inductive Wit (g : Graph) (s : String) (D : String → Int) : List String → String → Int → Prop
  | nil : D s ≤ 0 → Wit g s D [s] s 0
  | snoc {vis : List String} {u v : String} {W w : Int} :
      Wit g s D vis u W → Edge g u v w → v ∉ vis → D v ≤ W + w →
      Wit g s D (v :: vis) v (W + w)

/-- `SimplePath g s vis u W`: there is a path from `s` to `u` of weight `W` that
visits the distinct nodes `vis` (latest first). -/
inductive SimplePath (g : Graph) (s : String) : List String → String → Int → Prop
  | nil : SimplePath g s [s] s 0
  | snoc {vis : List String} {u v : String} {W w : Int} :
      SimplePath g s vis u W → Edge g u v w → v ∉ vis → SimplePath g s (v :: vis) v (W + w)

/-- No simple path from `s`, extended by one more edge out of its last node
(also one that leads back into the path), weighs more than `MaxInt64`. -/
def NoOverflow (g : Graph) (s : String) : Prop :=
  ∀ vis u W v w, SimplePath g s vis u W → Edge g u v w → W + w ≤ MaxInt64

/-! ## Predecessor chains -/

/-- Following `previous` from `v` leads to `s` through keys of the graph. -/
inductive Rooted (g : Graph) (p : GoMap String) (s : String) : String → Prop
  | base : Rooted g p s s
  | step {v u : String} : v ≠ s → p v = some u → u ∈ Graph.keys g → Rooted g p s u →
      Rooted g p s v

/-! ## The loop invariant (non-negative weights, no overflow) -/

/-- Every edge out of `v` has been relaxed with the current values. -/
def Relaxed (g : Graph) (st : State) (v : String) : Prop :=
  ∀ y w, Edge g v y w → st.distances.getInt y ≤ st.distances.getInt v + w

/-- The part of the invariant that also holds inside the neighbour loop. -/
structure Inv (g : Graph) (s : String) (st : State) : Prop where
  nonneg : ∀ v, 0 ≤ st.distances.getInt v
  start : st.distances.getInt s = 0
  distKeys : ∀ v, (st.distances v).isSome = true ↔ v ∈ Graph.keys g
  prevKeys : ∀ v, (st.previous v).isSome = true ↔ v ∈ Graph.keys g
  bounded : ∀ v ∈ Graph.keys g, st.distances.getInt v ≤ MaxInt64
  untouched : ∀ v ∈ Graph.keys g, st.distances.getInt v = MaxInt64 → st.previous v = some ""
  wit : ∀ v ∈ Graph.keys g, st.distances.getInt v < MaxInt64 →
    ∃ vis, Wit g s st.distances.getInt vis v (st.distances.getInt v)
  queue : ∀ x ∈ entries st.pq, x.1 ∈ Graph.keys g ∧ st.distances.getInt x.1 < MaxInt64
  lock : ∀ b ∈ Graph.keys g, b ≠ s → st.distances.getInt b < MaxInt64 →
    ∃ a w, st.previous b = some a ∧ Edge g a b w ∧
      st.distances.getInt a + w ≤ st.distances.getInt b
  rooted : ∀ v ∈ Graph.keys g, st.distances.getInt v < MaxInt64 → Rooted g st.previous s v

/-- Every touched key other than `u` is relaxed or still queued with its
current value, and the edges of `u` selected by `Q` are relaxed. -/
structure Pend (g : Graph) (st : State) (u : String) (Q : String → Int → Prop) : Prop where
  others : ∀ v ∈ Graph.keys g, st.distances.getInt v < MaxInt64 → v ≠ u →
    Relaxed g st v ∨ (v, st.distances.getInt v) ∈ entries st.pq
  done : ∀ y w, Q y w → st.distances.getInt y ≤ st.distances.getInt u + w

/-- Every touched key is relaxed or still queued with its current value. -/
def Settled (g : Graph) (st : State) : Prop :=
  ∀ v ∈ Graph.keys g, st.distances.getInt v < MaxInt64 →
    Relaxed g st v ∨ (v, st.distances.getInt v) ∈ entries st.pq

/-! ## The final state -/

/-- What holds of the maps returned by `Dijkstra` when the start node is a key,
the weights are non-negative and their sum is below `MaxInt64`. -/
structure Post (g : Graph) (s : String) (d : GoMap Int) (p : GoMap String) : Prop where
  inv : Inv g s ⟨d, p, []⟩
  relaxed : ∀ v ∈ Graph.keys g, d.getInt v < MaxInt64 → Relaxed g ⟨d, p, []⟩ v

/-! ## Unreachable nodes are never written (any weights) -/

/-- Only reachable nodes are queued, and the entries of unreachable nodes are
those of the initialisation loop. -/
structure InvR (g : Graph) (s : String) (st : State) : Prop where
  queue : ∀ x ∈ entries st.pq, Reachable g s x.1
  frame : ∀ v, ¬ Reachable g s v →
    st.distances v = (initMaps g).1 v ∧ st.previous v = (initMaps g).2 v

/-! ## The backward walk of `GetPath` -/

/-- The `k`-th node of the backward walk from `e`: `none` once a node without
an entry has been passed. -/
def walkNode (p : GoMap String) : Nat → String → Option String
  | 0, e => some e
  | k + 1, e =>
    match p e with
    | none => none
    | some u => walkNode p k u

/-- The backward walk from `e` comes to an end: some node of it is the start
node, or `""`, or has no entry. -/
def WalkEnds (p : GoMap String) (s e : String) : Prop :=
  ∃ k, walkNode p k e = none ∨ walkNode p k e = some "" ∨ walkNode p k e = some s

/-! ## Successful reconstructions -/

/-- `BackChain p s c l`: the backward walk from `c` reaches `s` without meeting
`""`, and `l` lists its nodes from `s` to `c`. -/
inductive BackChain (p : GoMap String) (s : String) : String → List String → Prop
  | base : s ≠ "" → BackChain p s s [s]
  | step {c u : String} {l : List String} : c ≠ "" → c ≠ s → p c = some u →
      BackChain p s u l → BackChain p s c (l ++ [c])

/-! ## Iteration orders -/

/-- `g'` holds the same map as `g`, ranged over in another order: the keys are
permuted, and so are the neighbours of every key. -/
def Reordering (g g' : Graph) : Prop :=
  ∃ m, List.Perm g m ∧ List.Forall₂ (fun a b => a.1 = b.1 ∧ List.Perm a.2 b.2) m g'

/-! ## Consequences for the returned maps -/

/-- The edges of the graph as `(source, target, weight)` triples. -/
def edgeList (g : Graph) : List (String × String × Int) :=
  g.flatMap fun e => e.2.map fun x => (e.1, x.1, x.2)

/-! ## Concrete inputs -/

/-- A two-node cycle whose weights add up to more than `MaxInt64`. -/
def overflowGraph : Graph :=
  [("A", [("B", 9223372036854775806)]), ("B", [("A", 2)])]

/-- A graph whose start node carries the empty name. -/
def emptyNameGraph : Graph := [("", [("B", 1)]), ("B", [])]

/-- A graph with one edge of weight `MaxInt64`. -/
def sentinelEdgeGraph : Graph := [("A", [("B", 9223372036854775807)]), ("B", [])]

/-- A predecessor map with the cycle `A → B → A`. -/
def cyclePrev : GoMap String := (GoMap.empty.set "A" "B").set "B" "A"

/-- Two shortest paths of equal weight from `A` to `D`. -/
def diamondGraph : Graph :=
  [("A", [("B", 1), ("C", 1)]), ("B", [("D", 1)]), ("C", [("D", 1)]), ("D", [])]

/-- The map of `diamondGraph` with the neighbours of `A` ranged over in the
other order. -/
def diamondGraph' : Graph :=
  [("A", [("C", 1), ("B", 1)]), ("B", [("D", 1)]), ("C", [("D", 1)]), ("D", [])]

/-- Two edges of weight `MaxInt64` behind a fork. -/
def forkGraph : Graph :=
  [("A", [("B", 1), ("C", 1)]), ("B", [("C", 9223372036854775807)]),
   ("C", [("B", 9223372036854775807)])]

/-- The map of `forkGraph` with the neighbours of `A` ranged over in the other
order. -/
def forkGraph' : Graph :=
  [("A", [("C", 1), ("B", 1)]), ("B", [("C", 9223372036854775807)]),
   ("C", [("B", 9223372036854775807)])]

/-! ## Heap order -/

/-- The priority held in slot `k` of the queue. -/
def prio (h : priorityQueue) (k : Nat) : Int := (h.getD k default).priority

/-- Heap order on the first `n` slots: no slot below `n` is less than its
parent `(k - 1) / 2`. -/
def IsHeapUpTo (n : Nat) (h : priorityQueue) : Prop :=
  ∀ k, 0 < k → k < n → prio h ((k - 1) / 2) ≤ prio h k

/-- Heap order on the whole queue. -/
def IsHeap (h : priorityQueue) : Prop := IsHeapUpTo h.length h

/-- Heap order with one exception while `heap.up` runs: slot `j` may be less
than its parent, but then the children of `j` are not less than that parent. -/
structure UpInv (h : priorityQueue) (j : Nat) : Prop where
  inRange : j < h.length
  others : ∀ k, 0 < k → k < h.length → k ≠ j → prio h ((k - 1) / 2) ≤ prio h k
  skip : ∀ k, 0 < k → k < h.length → (k - 1) / 2 = j → 0 < j →
    prio h ((j - 1) / 2) ≤ prio h k

/-- Heap order below `n` with one exception while `heap.down` runs: slot `i`
may be greater than its children, but then those children are not less than the
parent of `i`. -/
structure DownInv (h : priorityQueue) (i n : Nat) : Prop where
  inRange : n ≤ h.length
  others : ∀ k, 0 < k → k < n → (k - 1) / 2 ≠ i → prio h ((k - 1) / 2) ≤ prio h k
  skip : ∀ k, 0 < k → k < n → (k - 1) / 2 = i → 0 < i →
    prio h ((i - 1) / 2) ≤ prio h k

/-- Queues built from the empty queue by `heap.Push` and `heap.Pop`. -/
inductive Reached : priorityQueue → Prop
  | empty : Reached []
  | push (h : priorityQueue) (x : pqItem) : Reached h → Reached (heap.Push h x)
  | pop (h : priorityQueue) : Reached h → h ≠ [] → Reached (heap.Pop h).2

/-! ## Runs of the main loop -/

/-- `Steps g st0 st`: `st` is the state at the head of the main loop after some
number of iterations started in `st0`. -/
inductive Steps (g : Graph) (st0 : State) : State → Prop
  | start : Steps g st0 st0
  | next {st : State} : Steps g st0 st → st.pq ≠ [] → Steps g st0 (step g st)

/-- `Relaxing g s st u p pre e`: in the run of `Dijkstra(g, s)` the body of the
neighbour loop is entered in state `st` for the node `u`, extracted by an entry
of priority `p` that passed the staleness test, and for the neighbour entry
`e`, after the entries `pre` of `graph[u]` have been handled. -/
def Relaxing (g : Graph) (s : String) (st : State) (u : String) (p : Int)
    (pre : List (String × Int)) (e : String × Int) : Prop :=
  s ∈ Graph.keys g ∧
  ∃ st0 post, Steps g (initState g s) st0 ∧ st0.pq ≠ [] ∧
    (heap.Pop st0.pq).1.node = u ∧ (heap.Pop st0.pq).1.priority = p ∧
    ¬ p > st0.distances.getInt u ∧ g.lookup u = some (pre ++ e :: post) ∧
    st = pre.foldl (relax u) { st0 with pq := (heap.Pop st0.pq).2 }

/-- Facts about the queue that hold in every run, whatever the weights: heap
order, every entry is at least the recorded value of its node and below the
sentinel, and the recorded value of a node is queued at most once. -/
structure QInv (st : State) : Prop where
  heap : IsHeap st.pq
  leMax : ∀ v, st.distances.getInt v ≤ MaxInt64
  above : ∀ x ∈ entries st.pq, st.distances.getInt x.1 ≤ x.2 ∧ x.2 < MaxInt64
  once : ∀ v, (entries st.pq).countP (fun x => decide (x = (v, st.distances.getInt v))) ≤ 1

/-! ## Finalised nodes -/

/-- `Final g st u`: the key `u` has a recorded distance and that value is no
longer queued, so `u` has been expanded with it. -/
def Final (g : Graph) (st : State) (u : String) : Prop :=
  u ∈ Graph.keys g ∧ st.distances.getInt u < MaxInt64 ∧
    (u, st.distances.getInt u) ∉ entries st.pq

instance (g : Graph) (st : State) (u : String) : Decidable (Final g st u) := by
  unfold Final; infer_instance

/-- Monotone extraction: no queued entry is below the value of a finalised
node. -/
def FInv (g : Graph) (st : State) : Prop :=
  ∀ u, Final g st u → ∀ x ∈ entries st.pq, st.distances.getInt u ≤ x.2

/-- The invariant of the main loop for non-negative weights without overflow. -/
structure Good (g : Graph) (s : String) (st : State) : Prop where
  inv : Inv g s st
  settled : Settled g st
  qinv : QInv st
  finv : FInv g st

/-! ## Counting insertions -/

/-- The number of entries of `graph[u]` (zero for a missing key). -/
def degree (g : Graph) (u : String) : Nat :=
  match g.lookup u with
  | some nbrs => nbrs.length
  | none => 0

/-- The number of edges of the graph. -/
def edgeCount (g : Graph) : Nat := (g.map fun e => e.2.length).sum

/-- The queue length plus the degrees of the keys not yet finalised: an upper
bound of the number of iterations still to come. -/
def potential (g : Graph) (st : State) : Nat :=
  st.pq.length + ((Graph.keys g).dedup.map fun u => if Final g st u then 0 else degree g u).sum

/-- The number of `heap.Push` calls the neighbour loop makes from `st` over the
entries `nbrs`: one for each entry whose test `altDistance < distances[v]`
succeeds. -/
def pushesInFold (u : String) : State → List (String × Int) → Nat
  | _, [] => 0
  | st, e :: rest =>
    (if wrap64 (st.distances.getInt u + e.2) < st.distances.getInt e.1 then 1 else 0)
      + pushesInFold u (relax u st e) rest

/-- The number of `heap.Push` calls of one iteration of the main loop. -/
def pushesInStep (g : Graph) (st : State) : Nat :=
  let popped := heap.Pop st.pq
  let st0 : State := { st with pq := popped.2 }
  if popped.1.priority > st0.distances.getInt popped.1.node then 0
  else
    match g.lookup popped.1.node with
    | some neighbors => pushesInFold popped.1.node st0 neighbors
    | none => 0

/-- The number of `heap.Push` calls of the main loop run from `st` for at most
`fuel` iterations. -/
def pushesInRun (g : Graph) : Nat → State → Nat
  | 0, _ => 0
  | fuel + 1, st =>
    if st.pq.Len > 0 then pushesInStep g st + pushesInRun g fuel (step g st) else 0

/-! ## Predecessors along a run -/

/-- The number of iterations of the main loop, run from `st` for at most `fuel`
iterations, that extract `u` with an entry passing the staleness test. -/
def expansionsInRun (g : Graph) (u : String) : Nat → State → Nat
  | 0, _ => 0
  | fuel + 1, st =>
    if st.pq.Len > 0 then
      (if (heap.Pop st.pq).1.node = u ∧
          ¬ (heap.Pop st.pq).1.priority > st.distances.getInt (heap.Pop st.pq).1.node
        then 1 else 0) + expansionsInRun g u fuel (step g st)
    else 0

/-! ## Configurations of the backward walk -/

/-- `WalkState p s e path curr`: running `GetPath(p, s, e)`, the test of the
loop `for curr != ""` is reached with these values of `path` and `curr`. -/
inductive WalkState (p : GoMap String) (s e : String) : List String → String → Prop
  | init : WalkState p s e [] e
  | next {path : List String} {curr prev : String} :
      WalkState p s e path curr → curr ≠ "" → curr ≠ s → p curr = some prev →
      WalkState p s e (curr :: path) prev

/-! ## Further concrete inputs -/

/-- A queue built by two pushes, the smaller priority pushed last. -/
def twoItemQueue : priorityQueue :=
  heap.Push (heap.Push [] { node := "a", priority := 2, index := 0 })
    { node := "b", priority := 1, index := 0 }

/-- The state of the run on `overflowGraph` from `A` in which the edge from `B`
to `A` is relaxed: one iteration has been completed and `B` has been
extracted. -/
def overflowState : State :=
  { step overflowGraph (initState overflowGraph "A") with
    pq := (heap.Pop (step overflowGraph (initState overflowGraph "A")).pq).2 }

/-- A node `A` at distance `1` with an edge to itself of weight `MaxInt64`. -/
def selfLoopGraph : Graph :=
  [("S", [("A", 1)]), ("A", [("A", 9223372036854775807), ("B", 1)]), ("B", [])]

/-- The state of the run on `selfLoopGraph` from `S` in which the edge from `A`
to `B` is relaxed, after the edge from `A` to itself. -/
def selfLoopState : State :=
  [("A", 9223372036854775807)].foldl (relax "A")
    { step selfLoopGraph (initState selfLoopGraph "S") with
      pq := (heap.Pop (step selfLoopGraph (initState selfLoopGraph "S")).pq).2 }

/-- A start node with an edge to itself of negative weight. -/
def negLoopGraph : Graph := [("A", [("A", -1), ("B", 1)]), ("B", [])]

/-- The state of the run on `negLoopGraph` from `A` in which the edge from `A`
to `B` is relaxed, after the edge from `A` to itself. -/
def negLoopState : State :=
  [("A", -1)].foldl (relax "A")
    { initState negLoopGraph "A" with pq := (heap.Pop (initState negLoopGraph "A").pq).2 }

/-- A path of weight `MaxInt64 - 1` that ends in an edge to `Z`, which is not a
key. -/
def danglingGraph : Graph := [("A", [("B", 9223372036854775806)]), ("B", [("Z", 5)])]

/-- A predecessor map with the chain `C → B → A`. -/
def chainPrev : GoMap String := (GoMap.empty.set "B" "A").set "C" "B"

/-! # Theorems -/

/-! ## Queue contents -/

theorem Swap_length (pq : priorityQueue) (i j : Nat) :
    (pq.Swap i j).length = pq.length := by
  simp [priorityQueue.Swap]

theorem perm_set_set {α : Type} [DecidableEq α] (l : List α) (i j : Nat)
    (hi : i < l.length) (hj : j < l.length) :
    ((l.set i (l.get ⟨j, hj⟩)).set j (l.get ⟨i, hi⟩)).Perm l := by
  rw [List.perm_iff_count]
  intro a
  by_cases hij : i = j
  · subst hij
    have h1 := List.boole_getElem_le_count a l i hi
    simp only [List.get_eq_getElem, List.set_set]
    rw [List.count_set _ _ _ _ hi]
    split_ifs at h1 ⊢ <;> omega
  · rw [List.count_set _ _ _ _ (by simpa using hj), List.count_set _ _ _ _ hi]
    simp only [List.get_eq_getElem, List.getElem_set_ne hij]
    have h1 := List.boole_getElem_le_count a l i hi
    have h2 := List.boole_getElem_le_count a l j hj
    split_ifs at h1 h2 ⊢ <;> omega

theorem entries_Swap (pq : priorityQueue) (i j : Nat)
    (hi : i < pq.length) (hj : j < pq.length) :
    (entries (pq.Swap i j)).Perm (entries pq) := by
  have hi' : i < (entries pq).length := by simpa [entries] using hi
  have hj' : j < (entries pq).length := by simpa [entries] using hj
  have h := perm_set_set (entries pq) i j hi' hj'
  have e : entries (pq.Swap i j)
      = ((entries pq).set i ((entries pq).get ⟨j, hj'⟩)).set j ((entries pq).get ⟨i, hi'⟩) := by
    simp [entries, priorityQueue.Swap, List.map_set, pqItem.key, List.getD_eq_getElem _ _ hi,
      List.getD_eq_getElem _ _ hj, List.getElem?_eq_getElem hi, List.getElem?_eq_getElem hj]
  rw [e]
  exact h

theorem upLoop_length (fuel : Nat) (h : priorityQueue) (j : Nat) :
    (heap.upLoop fuel h j).length = h.length := by
  induction fuel generalizing h j with
  | zero => rfl
  | succ n ih =>
    simp only [heap.upLoop]
    split
    · rfl
    · rw [ih, Swap_length]

theorem upLoop_entries (fuel : Nat) (h : priorityQueue) (j : Nat) (hj : j < h.length) :
    (entries (heap.upLoop fuel h j)).Perm (entries h) := by
  induction fuel generalizing h j with
  | zero => exact List.Perm.refl _
  | succ n ih =>
    simp only [heap.upLoop]
    split
    · exact List.Perm.refl _
    · have hi : (j - 1) / 2 < h.length := by omega
      exact (ih _ _ (by rw [Swap_length]; exact hi)).trans (entries_Swap h _ _ hi hj)

theorem downLoop_length (fuel : Nat) (h : priorityQueue) (i n : Nat) :
    (heap.downLoop fuel h i n).length = h.length := by
  induction fuel generalizing h i with
  | zero => rfl
  | succ k ih =>
    simp only [heap.downLoop]
    split_ifs <;> simp [ih, Swap_length]

theorem downLoop_entries (fuel : Nat) (h : priorityQueue) (i n : Nat) (hn : n ≤ h.length) :
    (entries (heap.downLoop fuel h i n)).Perm (entries h) := by
  induction fuel generalizing h i with
  | zero => exact List.Perm.refl _
  | succ k ih =>
    simp only [heap.downLoop]
    split_ifs with h1 h2 h3 h3 <;>
      first
      | exact List.Perm.refl _
      | exact (ih _ _ (by rw [Swap_length]; exact hn)).trans
          (entries_Swap h _ _ (by omega) (by omega))

/-- The fuel of `heap.up` is enough: any fuel of at least `j` gives the same
queue. -/
theorem upLoop_fuel (f1 f2 : Nat) (h : priorityQueue) (j : Nat) (h1 : j ≤ f1) (h2 : j ≤ f2) :
    heap.upLoop f1 h j = heap.upLoop f2 h j := by
  induction f1 generalizing f2 h j with
  | zero =>
    have hj : j = 0 := by omega
    subst hj
    cases f2 with
    | zero => rfl
    | succ n => simp [heap.upLoop]
  | succ n ih =>
    cases f2 with
    | zero =>
      have hj : j = 0 := by omega
      subst hj
      simp [heap.upLoop]
    | succ m =>
      simp only [heap.upLoop]
      split
      · rfl
      · rename_i hc
        have hne : (j - 1) / 2 ≠ j := fun e => hc (Or.inl e)
        exact ih m _ _ (by omega) (by omega)

/-- The fuel of `heap.down` is enough: any fuel of at least `n - i` gives the
same queue. -/
theorem downLoop_fuel (f1 f2 : Nat) (h : priorityQueue) (i n : Nat) (h1 : n - i ≤ f1)
    (h2 : n - i ≤ f2) : heap.downLoop f1 h i n = heap.downLoop f2 h i n := by
  induction f1 generalizing f2 h i with
  | zero =>
    cases f2 with
    | zero => rfl
    | succ m =>
      have hge : 2 * i + 1 ≥ n := by omega
      simp [heap.downLoop, hge]
  | succ k ih =>
    cases f2 with
    | zero =>
      have hge : 2 * i + 1 ≥ n := by omega
      simp [heap.downLoop, hge]
    | succ m =>
      simp only [heap.downLoop]
      split_ifs with c1 c2 c3 c3 <;>
        first
        | rfl
        | exact ih m _ _ (by omega) (by omega)

theorem heapPush_length (h : priorityQueue) (x : pqItem) :
    (heap.Push h x).length = h.length + 1 := by
  simp [heap.Push, heap.up, upLoop_length, priorityQueue.Push]

theorem heapPush_entries (h : priorityQueue) (x : pqItem) :
    (entries (heap.Push h x)).Perm (x.key :: entries h) := by
  have h1 : (entries (heap.Push h x)).Perm (entries (h.Push x)) := by
    apply upLoop_entries
    simp [priorityQueue.Push, priorityQueue.Len]
  refine h1.trans ?_
  simp only [entries, priorityQueue.Push, List.map_append, List.map_cons, List.map_nil]
  exact List.perm_append_comm

theorem heapPop_length (h : priorityQueue) :
    (heap.Pop h).2.length = h.length - 1 := by
  simp [heap.Pop, heap.down, priorityQueue.Pop, downLoop_length, Swap_length, priorityQueue.Len]

theorem Pop_entries (h : priorityQueue) (hne : h ≠ []) :
    ((h.Pop).1.key :: entries (h.Pop).2).Perm (entries h) := by
  have hlen : 0 < h.length := List.length_pos.mpr hne
  have e : h = h.take (h.length - 1) ++ [h.getD (h.length - 1) default] := by
    rw [List.getD_eq_getElem _ _ (by omega)]
    have h1 := List.take_append_drop (h.length - 1) h
    rw [List.drop_eq_getElem_cons (by omega)] at h1
    have h2 : h.length - 1 + 1 = h.length := by omega
    rw [h2, List.drop_length] at h1
    exact h1.symm
  have e2 : entries h = entries (h.take (h.length - 1))
      ++ [(h.getD (h.length - 1) default).key] := by
    conv_lhs => rw [e]
    simp [entries]
  rw [e2]
  simp only [priorityQueue.Pop]
  exact @List.perm_append_comm _ [(h.getD (h.length - 1) default).key]
    (entries (h.take (h.length - 1)))

theorem heapPop_entries (h : priorityQueue) (hne : h ≠ []) :
    ((heap.Pop h).1.key :: entries (heap.Pop h).2).Perm (entries h) := by
  have hlen : 0 < h.length := List.length_pos.mpr hne
  simp only [heap.Pop]
  have hne2 : heap.down (h.Swap 0 (h.Len - 1)) 0 (h.Len - 1) ≠ [] := by
    intro e
    have h1 := congrArg List.length e
    rw [heap.down, downLoop_length, Swap_length] at h1
    simp only [List.length_nil] at h1
    omega
  refine (Pop_entries _ hne2).trans ?_
  refine (downLoop_entries _ _ _ _ ?_).trans (entries_Swap _ _ _ hlen ?_)
  · simp [Swap_length, priorityQueue.Len]
  · simp only [priorityQueue.Len]; omega

/-! ## Go maps -/

@[simp] theorem GoMap.set_self {β : Type} (m : GoMap β) (k : String) (v : β) :
    m.set k v k = some v := by simp [GoMap.set]

theorem GoMap.set_ne {β : Type} (m : GoMap β) (k x : String) (v : β) (h : x ≠ k) :
    m.set k v x = m x := by simp [GoMap.set, h]

@[simp] theorem GoMap.getInt_set_self (m : GoMap Int) (k : String) (v : Int) :
    (m.set k v).getInt k = v := by simp [GoMap.getInt]

theorem GoMap.getInt_set_ne (m : GoMap Int) (k x : String) (v : Int) (h : x ≠ k) :
    (m.set k v).getInt x = m.getInt x := by simp [GoMap.getInt, GoMap.set, h]

theorem wrap64_ge (x : Int) : -9223372036854775808 ≤ wrap64 x := by
  unfold wrap64; omega

theorem wrap64_eq (x : Int) (h1 : -9223372036854775808 ≤ x) (h2 : x < 9223372036854775808) :
    wrap64 x = x := by
  unfold wrap64; omega

/-! ## Keys and lookups -/

theorem lookup_isSome_iff (g : Graph) (u : String) :
    (g.lookup u).isSome = true ↔ u ∈ Graph.keys g := by
  induction g with
  | nil => simp [Graph.keys]
  | cons e g ih =>
    obtain ⟨k, n⟩ := e
    by_cases h : u = k
    · subst h; simp [Graph.keys]
    · have hb : (u == k) = false := by simpa using h
      simp only [List.lookup_cons, hb]
      simp only [Graph.keys] at ih
      simp [Graph.keys, h, ih]

theorem lookup_eq_none_iff (g : Graph) (u : String) :
    g.lookup u = none ↔ u ∉ Graph.keys g := by
  rw [← lookup_isSome_iff]
  cases g.lookup u <;> simp

theorem lookup_mem (g : Graph) (u : String) (nbrs : List (String × Int))
    (h : g.lookup u = some nbrs) : (u, nbrs) ∈ g := by
  induction g with
  | nil => simp at h
  | cons e g ih =>
    obtain ⟨k, n⟩ := e
    by_cases hk : u = k
    · subst hk
      simp at h
      simp [h]
    · have hb : (u == k) = false := by simpa using hk
      simp only [List.lookup_cons, hb] at h
      exact List.mem_cons_of_mem _ (ih h)

theorem Edge.src_key {g : Graph} {u v : String} {w : Int} (h : Edge g u v w) : u ∈ Graph.keys g := by
  obtain ⟨n, hn, _⟩ := h
  rw [← lookup_isSome_iff, hn]; rfl

theorem Edge.tgt_mem {g : Graph} {u v : String} {w : Int} (h : Edge g u v w) :
    v ∈ targets g := by
  obtain ⟨n, hn, hv⟩ := h
  simp only [targets, List.mem_flatMap, List.mem_map]
  exact ⟨(u, n), lookup_mem g u n hn, (v, w), hv, rfl⟩

theorem Edge.nonneg_weight {g : Graph} {u v : String} {w : Int} (hnn : NonNeg g) (h : Edge g u v w) :
    0 ≤ w := by
  obtain ⟨n, hn, hv⟩ := h
  exact hnn (u, n) (lookup_mem g u n hn) (v, w) hv

/-! ## The initialisation loop -/

theorem foldl_initNode (g : Graph) (acc : GoMap Int × GoMap String) (v : String) :
    ((g.foldl initNode acc).1 v = if v ∈ Graph.keys g then some MaxInt64 else acc.1 v) ∧
    ((g.foldl initNode acc).2 v = if v ∈ Graph.keys g then some "" else acc.2 v) := by
  induction g generalizing acc with
  | nil => simp [Graph.keys]
  | cons e g ih =>
    simp only [List.foldl_cons]
    rw [(ih _).1, (ih _).2]
    by_cases h1 : v ∈ Graph.keys g
    · have : v ∈ Graph.keys (e :: g) := by simp [Graph.keys] at h1 ⊢; exact Or.inr h1
      simp [h1, this]
    · by_cases h2 : v = e.1
      · subst h2
        have : e.1 ∈ Graph.keys (e :: g) := by simp [Graph.keys]
        simp [h1, this, initNode]
      · have : v ∉ Graph.keys (e :: g) := by
          simp only [Graph.keys] at h1
          simp [Graph.keys, h2, h1]
        simp [h1, this, initNode, GoMap.set, h2]

theorem initMaps_dist (g : Graph) (v : String) :
    (initMaps g).1 v = if v ∈ Graph.keys g then some MaxInt64 else none := by
  simpa [initMaps, GoMap.empty] using (foldl_initNode g (GoMap.empty, GoMap.empty) v).1

theorem initMaps_prev (g : Graph) (v : String) :
    (initMaps g).2 v = if v ∈ Graph.keys g then some "" else none := by
  simpa [initMaps, GoMap.empty] using (foldl_initNode g (GoMap.empty, GoMap.empty) v).2

/-! ## Termination of the main loop -/

theorem relax_measure (g : Graph) (u : String) (st : State) (e : String × Int)
    (he : e.1 ∈ targets g) : measure g (relax u st e) ≤ measure g st := by
  simp only [relax]
  split
  · rename_i hlt
    simp only [measure, heapPush_length]
    have hge := wrap64_ge (st.distances.getInt u + e.2)
    have hsum : ((targets g).map fun v =>
          ((st.distances.set e.1 (wrap64 (st.distances.getInt u + e.2))).getInt v
            + 9223372036854775808).toNat).sum
        < ((targets g).map fun v => (st.distances.getInt v + 9223372036854775808).toNat).sum := by
      apply List.sum_lt_sum
      · intro v _
        by_cases hv : v = e.1
        · subst hv; rw [GoMap.getInt_set_self]; omega
        · rw [GoMap.getInt_set_ne _ _ _ _ hv]
      · refine ⟨e.1, he, ?_⟩
        rw [GoMap.getInt_set_self]; omega
    omega
  · exact Nat.le_refl _

theorem foldl_relax_measure (g : Graph) (u : String) (nbrs : List (String × Int)) (st : State)
    (h : ∀ e ∈ nbrs, e.1 ∈ targets g) :
    measure g (nbrs.foldl (relax u) st) ≤ measure g st := by
  induction nbrs generalizing st with
  | nil => exact Nat.le_refl _
  | cons e nbrs ih =>
    simp only [List.foldl_cons]
    exact (ih _ fun x hx => h x (List.mem_cons_of_mem _ hx)).trans
      (relax_measure g u st e (h e (List.mem_cons_self _ _)))

theorem step_measure (g : Graph) (st : State) (hne : st.pq ≠ []) :
    measure g (step g st) + 1 ≤ measure g st := by
  have hlen : 0 < st.pq.length := List.length_pos.mpr hne
  have hpop : measure g { st with pq := (heap.Pop st.pq).2 } + 1 ≤ measure g st := by
    simp only [measure, heapPop_length]; omega
  unfold step
  simp only
  split
  · exact hpop
  · split
    · rename_i nbrs hn
      refine Nat.le_trans (Nat.add_le_add_right (foldl_relax_measure g _ nbrs _ ?_) 1) hpop
      intro e he
      exact Edge.tgt_mem (u := (heap.Pop st.pq).1.node) (w := e.2) ⟨nbrs, hn, he⟩
    · exact hpop

theorem mainLoop_terminates (g : Graph) (fuel : Nat) (st : State) (h : measure g st ≤ fuel) :
    ∃ st', mainLoop g fuel st = some st' := by
  induction fuel generalizing st with
  | zero =>
    have : st.pq.length = 0 := by unfold measure at h; omega
    exact ⟨st, by simp [mainLoop, priorityQueue.Len, this]⟩
  | succ n ih =>
    simp only [mainLoop]
    split
    · rename_i hpos
      have hne : st.pq ≠ [] := by
        intro e; simp [priorityQueue.Len, e] at hpos
      have := step_measure g st hne
      exact ih _ (by omega)
    · exact ⟨st, rfl⟩

/-- More fuel does not change a result. -/
theorem mainLoop_mono (g : Graph) (fuel : Nat) (st st' : State)
    (h : mainLoop g fuel st = some st') (k : Nat) : mainLoop g (fuel + k) st = some st' := by
  induction fuel generalizing st with
  | zero =>
    simp only [mainLoop] at h
    split at h
    · simp at h
    · rename_i hz
      cases k with
      | zero => simp [mainLoop, hz, h]
      | succ k => simp only [Nat.zero_add, mainLoop, hz, if_false]; exact h
  | succ n ih =>
    have e : n + 1 + k = (n + k) + 1 := by omega
    rw [e]
    simp only [mainLoop] at h ⊢
    split
    · rename_i hpos; rw [if_pos hpos] at h; exact ih _ h
    · rename_i hpos; rw [if_neg hpos] at h; exact h

/-- An invariant of the loop body holds of the final state, and the final
state has an empty queue. -/
theorem mainLoop_inv (g : Graph) (P : State → Prop)
    (hstep : ∀ st, P st → st.pq ≠ [] → P (step g st))
    (fuel : Nat) (st st' : State) (h0 : P st) (h : mainLoop g fuel st = some st') :
    P st' ∧ st'.pq = [] := by
  induction fuel generalizing st with
  | zero =>
    simp only [mainLoop] at h
    split at h
    · simp at h
    · rename_i hz
      simp only [Option.some.injEq] at h
      subst h
      exact ⟨h0, by simpa [priorityQueue.Len] using hz⟩
  | succ n ih =>
    simp only [mainLoop] at h
    split at h
    · rename_i hpos
      have hne : st.pq ≠ [] := by
        intro e; simp [priorityQueue.Len, e] at hpos
      exact ih _ (hstep st h0 hne) h
    · rename_i hz
      simp only [Option.some.injEq] at h
      subst h
      exact ⟨h0, by simpa [priorityQueue.Len] using hz⟩

/-! ## Weight bounds -/

theorem NonNeg.tail {e : String × List (String × Int)} {g : Graph} (h : NonNeg (e :: g)) :
    NonNeg g := fun x hx => h x (List.mem_cons_of_mem _ hx)

theorem nbrs_sum_nonneg (nbrs : List (String × Int)) (h : ∀ x ∈ nbrs, 0 ≤ x.2) :
    0 ≤ (nbrs.map Prod.snd).sum := by
  apply List.sum_nonneg
  intro y hy
  obtain ⟨x, hx, rfl⟩ := List.mem_map.mp hy
  exact h x hx

theorem nbrs_le_sum (nbrs : List (String × Int)) (h : ∀ x ∈ nbrs, 0 ≤ x.2)
    (x : String × Int) (hx : x ∈ nbrs) : x.2 ≤ (nbrs.map Prod.snd).sum := by
  apply List.single_le_sum
  · intro y hy
    obtain ⟨z, hz, rfl⟩ := List.mem_map.mp hy
    exact h z hz
  · exact List.mem_map.mpr ⟨x, hx, rfl⟩

theorem Edge.le_outWeight {g : Graph} {u v : String} {w : Int} (hnn : NonNeg g)
    (h : Edge g u v w) : w ≤ outWeight g u := by
  obtain ⟨n, hn, hv⟩ := h
  simp only [outWeight, hn]
  exact nbrs_le_sum n (hnn (u, n) (lookup_mem g u n hn)) (v, w) hv

theorem outWeight_cons_ne (k : String) (n : List (String × Int)) (g : Graph) (x : String)
    (h : x ≠ k) : outWeight ((k, n) :: g) x = outWeight g x := by
  have hb : (x == k) = false := by simpa using h
  simp [outWeight, List.lookup_cons, hb]

theorem outWeight_cons_self (k : String) (n : List (String × Int)) (g : Graph) :
    outWeight ((k, n) :: g) k = (n.map Prod.snd).sum := by
  simp [outWeight]

theorem totalWeight_nonneg (g : Graph) (hnn : NonNeg g) : 0 ≤ totalWeight g := by
  apply List.sum_nonneg
  intro y hy
  obtain ⟨e, he, rfl⟩ := List.mem_map.mp hy
  exact nbrs_sum_nonneg e.2 (hnn e he)

/-- Distinct source nodes contribute disjoint parts of the total weight. -/
theorem sum_outWeight_le (g : Graph) (hnn : NonNeg g) (vis : List String) (hnd : vis.Nodup) :
    (vis.map (outWeight g)).sum ≤ totalWeight g := by
  induction g generalizing vis with
  | nil =>
    have : vis.map (outWeight []) = vis.map fun _ => (0 : Int) := by
      apply List.map_congr_left; intro x _; rfl
    rw [this]
    simp [totalWeight]
  | cons e g ih =>
    obtain ⟨k, n⟩ := e
    have hn0 : 0 ≤ (n.map Prod.snd).sum :=
      nbrs_sum_nonneg n (hnn (k, n) (List.mem_cons_self _ _))
    have htot : totalWeight ((k, n) :: g) = (n.map Prod.snd).sum + totalWeight g := by
      simp [totalWeight]
    rw [htot]
    by_cases hk : k ∈ vis
    · have hp := List.perm_cons_erase hk
      have hs : (vis.map (outWeight ((k, n) :: g))).sum
          = ((k :: vis.erase k).map (outWeight ((k, n) :: g))).sum :=
        (hp.map _).sum_eq
      rw [hs, List.map_cons, List.sum_cons, outWeight_cons_self]
      have hc : (vis.erase k).map (outWeight ((k, n) :: g)) = (vis.erase k).map (outWeight g) := by
        apply List.map_congr_left
        intro x hx
        exact outWeight_cons_ne k n g x ((hnd.mem_erase_iff.mp hx).1)
      rw [hc]
      have := ih hnn.tail (vis.erase k) (hnd.erase k)
      omega
    · have hc : vis.map (outWeight ((k, n) :: g)) = vis.map (outWeight g) := by
        apply List.map_congr_left
        intro x hx
        exact outWeight_cons_ne k n g x (fun e => hk (e ▸ hx))
      rw [hc]
      have := ih hnn.tail vis hnd
      omega

/-! ## Witness paths -/

theorem Wit.to_path {g : Graph} {s : String} {D : String → Int} {vis : List String} {v : String}
    {W : Int} (h : Wit g s D vis v W) : ∃ l, Path g s l v W := by
  induction h with
  | nil _ => exact ⟨[s], Path.nil⟩
  | snoc _ he _ _ ih =>
    obtain ⟨l, hl⟩ := ih
    exact ⟨_, Path.snoc hl he⟩

theorem Wit.mono {g : Graph} {s : String} {D D' : String → Int} (hle : ∀ x, D' x ≤ D x)
    {vis : List String} {v : String} {W : Int} (h : Wit g s D vis v W) : Wit g s D' vis v W := by
  induction h with
  | nil h0 => exact Wit.nil (le_trans (hle s) h0)
  | snoc _ he hv hd ih => exact Wit.snoc ih he hv (le_trans (hle _) hd)

theorem Wit.dominated {g : Graph} {s : String} {D : String → Int} (hnn : NonNeg g)
    {vis : List String} {v : String} {W : Int} (h : Wit g s D vis v W) :
    ∀ x ∈ vis, D x ≤ W := by
  induction h with
  | nil h0 =>
    intro x hx
    simp only [List.mem_singleton] at hx
    subst hx; exact h0
  | snoc _ he _ hd ih =>
    intro x hx
    rcases List.mem_cons.mp hx with rfl | hx
    · exact hd
    · have := ih x hx
      have := he.nonneg_weight hnn
      omega

theorem Wit.shape {g : Graph} {s : String} {D : String → Int} (hnn : NonNeg g)
    {vis : List String} {v : String} {W : Int} (h : Wit g s D vis v W) :
    vis.Nodup ∧ (∃ t, vis = v :: t ∧ W ≤ (t.map (outWeight g)).sum) := by
  induction h with
  | nil _ => exact ⟨List.nodup_singleton _, [], rfl, by simp⟩
  | snoc _ he hv _ ih =>
    obtain ⟨hnd, t, ht, hW⟩ := ih
    refine ⟨List.nodup_cons.mpr ⟨hv, hnd⟩, _, rfl, ?_⟩
    subst ht
    rw [List.map_cons, List.sum_cons]
    have := he.le_outWeight hnn
    omega

/-- Extending a witness path by one more edge stays within the total weight. -/
theorem Wit.step_bound {g : Graph} {s : String} {D : String → Int} (hnn : NonNeg g)
    {vis : List String} {u v : String} {W w : Int} (h : Wit g s D vis u W) (he : Edge g u v w) :
    W + w ≤ totalWeight g := by
  obtain ⟨hnd, t, ht, hW⟩ := h.shape hnn
  have h1 := sum_outWeight_le g hnn vis hnd
  subst ht
  rw [List.map_cons, List.sum_cons] at h1
  have := he.le_outWeight hnn
  omega

theorem Wit.simple {g : Graph} {s : String} {D : String → Int} {vis : List String} {v : String}
    {W : Int} (h : Wit g s D vis v W) : SimplePath g s vis v W := by
  induction h with
  | nil _ => exact SimplePath.nil
  | snoc _ he hv _ ih => exact SimplePath.snoc ih he hv

theorem SimplePath.to_wit {g : Graph} {s : String} (hnn : NonNeg g) {vis : List String}
    {v : String} {W : Int} (h : SimplePath g s vis v W) :
    Wit g s (fun _ => 0) vis v W ∧ 0 ≤ W := by
  induction h with
  | nil => exact ⟨Wit.nil (le_refl _), le_refl _⟩
  | snoc _ he hv ih =>
    have hw := he.nonneg_weight hnn
    exact ⟨Wit.snoc ih.1 he hv (by have := ih.2; omega), by have := ih.2; omega⟩

/-- A total weight below `MaxInt64` rules out every overflow. -/
theorem noOverflow_of_total {g : Graph} (s : String) (hnn : NonNeg g)
    (hsum : totalWeight g < MaxInt64) : NoOverflow g s := by
  intro vis u W v w hp he
  have := (hp.to_wit hnn).1.step_bound hnn he
  omega

/-! ## The loop invariant (non-negative weights, no overflow) -/

theorem getInt_of_not_key {g : Graph} {s : String} {st : State} (hI : Inv g s st) (v : String)
    (hv : v ∉ Graph.keys g) : st.distances.getInt v = 0 := by
  have h := (hI.distKeys v).not.mpr hv
  simp only [GoMap.getInt]
  cases hd : st.distances v with
  | none => rfl
  | some x => simp [hd] at h

theorem mem_entries_heapPush (pq : priorityQueue) (it : pqItem) (x : String × Int) :
    x ∈ entries (heap.Push pq it) ↔ x = it.key ∨ x ∈ entries pq := by
  rw [(heapPush_entries pq it).mem_iff, List.mem_cons]

theorem mem_entries_heapPop (pq : priorityQueue) (hne : pq ≠ []) (x : String × Int) :
    x ∈ entries pq ↔ x = (heap.Pop pq).1.key ∨ x ∈ entries (heap.Pop pq).2 := by
  rw [← (heapPop_entries pq hne).mem_iff, List.mem_cons]

/-- Chains that stay strictly below the value of `v` survive a change of
`previous[v]`. -/
theorem Rooted.set_of_lt {g : Graph} {s : String} {st : State} (hnn : NonNeg g)
    (hI : Inv g s st) (v u : String) (hv : v ∈ Graph.keys g) {y : String}
    (hy : Rooted g st.previous s y) (hlt : st.distances.getInt y < st.distances.getInt v) :
    Rooted g (st.previous.set v u) s y := by
  induction hy with
  | base => exact Rooted.base
  | @step y z hne hp hk _ ih =>
    have hyk : y ∈ Graph.keys g := by
      rw [← hI.prevKeys, hp]; rfl
    have hyv : y ≠ v := by
      intro e; subst e; exact lt_irrefl _ hlt
    have hvb := hI.bounded v hv
    obtain ⟨a, w, hpa, hedge, hle⟩ := hI.lock y hyk hne (by omega)
    have haz : a = z := by rw [hp] at hpa; exact (Option.some.inj hpa).symm
    subst haz
    have hw := hedge.nonneg_weight hnn
    exact Rooted.step hne (by rw [GoMap.set_ne _ _ _ _ hyv]; exact hp) hk (ih (by omega))

theorem Rooted.set {g : Graph} {s : String} {st : State} (hnn : NonNeg g)
    (hI : Inv g s st) (v u : String) (hv : v ∈ Graph.keys g) (hu : u ∈ Graph.keys g)
    (hur : Rooted g st.previous s u)
    (hlt : st.distances.getInt u < st.distances.getInt v) {x : String}
    (hx : Rooted g st.previous s x) : Rooted g (st.previous.set v u) s x := by
  induction hx with
  | base => exact Rooted.base
  | @step x y hne hp hk _ ih =>
    by_cases hxv : x = v
    · subst hxv
      exact Rooted.step hne (GoMap.set_self _ _ _) hu (Rooted.set_of_lt hnn hI x u hv hur hlt)
    · exact Rooted.step hne (by rw [GoMap.set_ne _ _ _ _ hxv]; exact hp) hk ih

/-- One iteration of the neighbour loop keeps the invariant, provided its sum
does not overflow. -/
theorem relax_inv_of {g : Graph} {s : String} (hnn : NonNeg g)
    (st : State) (u v : String) (w : Int) (Q : String → Int → Prop)
    (hI : Inv g s st) (hP : Pend g st u Q) (hu : u ∈ Graph.keys g)
    (huD : st.distances.getInt u < MaxInt64) (he : Edge g u v w)
    (hb : st.distances.getInt u + w ≤ MaxInt64) :
    Inv g s (relax u st (v, w)) ∧
    Pend g (relax u st (v, w)) u (fun y w' => Q y w' ∨ (y = v ∧ w' = w)) ∧
    (relax u st (v, w)).distances.getInt u = st.distances.getInt u := by
  obtain ⟨vis, hw⟩ := hI.wit u hu huD
  have hw0 : 0 ≤ w := he.nonneg_weight hnn
  have hD0 := hI.nonneg u
  have halt : wrap64 (st.distances.getInt u + w) = st.distances.getInt u + w :=
    wrap64_eq _ (by omega) (by unfold MaxInt64 at hb; omega)
  simp only [relax, halt]
  split
  · rename_i hlt
    have hvk : v ∈ Graph.keys g := by
      by_contra hvk
      rw [getInt_of_not_key hI v hvk] at hlt
      omega
    have hvb : st.distances.getInt v ≤ MaxInt64 := hI.bounded v hvk
    have hvu : v ≠ u := by
      intro e; subst e; omega
    have hvs : v ≠ s := by
      intro e; subst e
      have := hI.start; omega
    have hle : ∀ x, (st.distances.set v (st.distances.getInt u + w)).getInt x
        ≤ st.distances.getInt x := by
      intro x
      by_cases hx : x = v
      · subst hx; rw [GoMap.getInt_set_self]; omega
      · rw [GoMap.getInt_set_ne _ _ _ _ hx]
    have hne : ∀ x, x ≠ v → (st.distances.set v (st.distances.getInt u + w)).getInt x
        = st.distances.getInt x := fun x hx => GoMap.getInt_set_ne _ _ _ _ hx
    have hu' := hne u (Ne.symm hvu)
    refine ⟨?_, ?_, hu'⟩
    · constructor
      · intro x
        by_cases hx : x = v
        · subst hx; rw [GoMap.getInt_set_self]; omega
        · rw [hne x hx]; exact hI.nonneg x
      · show (st.distances.set v _).getInt s = 0
        rw [hne s (Ne.symm hvs)]; exact hI.start
      · intro x
        show ((st.distances.set v _) x).isSome = true ↔ _
        by_cases hx : x = v
        · subst hx; simp [hvk]
        · rw [GoMap.set_ne _ _ _ _ hx]; exact hI.distKeys x
      · intro x
        show ((st.previous.set v _) x).isSome = true ↔ _
        by_cases hx : x = v
        · subst hx; simp [hvk]
        · rw [GoMap.set_ne _ _ _ _ hx]; exact hI.prevKeys x
      · intro x hx
        exact le_trans (hle x) (hI.bounded x hx)
      · intro x hx hmax
        show (st.previous.set v _) x = _
        change (st.distances.set v _).getInt x = _ at hmax
        by_cases hxv : x = v
        · subst hxv; rw [GoMap.getInt_set_self] at hmax; omega
        · rw [hne x hxv] at hmax
          rw [GoMap.set_ne _ _ _ _ hxv]; exact hI.untouched x hx hmax
      · intro x hx hxD
        change (st.distances.set v _).getInt x < _ at hxD
        show ∃ vis, Wit g s (st.distances.set v _).getInt vis x ((st.distances.set v _).getInt x)
        by_cases hxv : x = v
        · subst hxv
          rw [GoMap.getInt_set_self]
          refine ⟨x :: vis, Wit.snoc (hw.mono hle) he ?_ (by rw [GoMap.getInt_set_self])⟩
          intro hmem
          have := hw.dominated hnn x hmem
          omega
        · rw [hne x hxv] at hxD ⊢
          obtain ⟨vis', hw'⟩ := hI.wit x hx hxD
          exact ⟨vis', hw'.mono hle⟩
      · intro x hx
        change x ∈ entries (heap.Push st.pq _) at hx
        show _ ∧ (st.distances.set v _).getInt x.1 < _
        rw [mem_entries_heapPush] at hx
        rcases hx with rfl | hx
        · refine ⟨hvk, ?_⟩
          simp only [pqItem.key]
          rw [GoMap.getInt_set_self]; omega
        · exact ⟨(hI.queue x hx).1, lt_of_le_of_lt (hle _) (hI.queue x hx).2⟩
      · intro b hb hbs hbD
        change (st.distances.set v _).getInt b < _ at hbD
        show ∃ a w', (st.previous.set v u) b = some a ∧ Edge g a b w' ∧
          (st.distances.set v _).getInt a + w' ≤ (st.distances.set v _).getInt b
        by_cases hbv : b = v
        · subst hbv
          refine ⟨u, w, GoMap.set_self _ _ _, he, ?_⟩
          rw [hu', GoMap.getInt_set_self]
        · rw [hne b hbv] at hbD ⊢
          obtain ⟨a, w', hpa, hedge, hle'⟩ := hI.lock b hb hbs hbD
          refine ⟨a, w', by rw [GoMap.set_ne _ _ _ _ hbv]; exact hpa, hedge, ?_⟩
          have := hle a
          omega
      · intro x hx hxD
        change (st.distances.set v _).getInt x < _ at hxD
        show Rooted g (st.previous.set v u) s x
        have hur := hI.rooted u hu huD
        have hltuv : st.distances.getInt u < st.distances.getInt v := by omega
        by_cases hxv : x = v
        · subst hxv
          exact Rooted.step hvs (GoMap.set_self _ _ _) hu
            (Rooted.set_of_lt hnn hI x u hvk hur hltuv)
        · rw [hne x hxv] at hxD
          exact Rooted.set hnn hI v u hvk hu hur hltuv (hI.rooted x hx hxD)
    · constructor
      · intro x hx hxD hxu
        change (st.distances.set v _).getInt x < _ at hxD
        show Relaxed g _ x ∨ (x, (st.distances.set v _).getInt x) ∈ entries (heap.Push st.pq _)
        by_cases hxv : x = v
        · subst hxv
          right
          rw [mem_entries_heapPush, GoMap.getInt_set_self]
          left; rfl
        · rw [hne x hxv] at hxD ⊢
          rcases hP.others x hx hxD hxu with hr | hq
          · left
            intro y w' hedge
            show (st.distances.set v _).getInt y ≤ (st.distances.set v _).getInt x + w'
            rw [hne x hxv]
            exact le_trans (hle y) (hr y w' hedge)
          · right
            rw [mem_entries_heapPush]; exact Or.inr hq
      · intro y w' hq
        show (st.distances.set v _).getInt y ≤ (st.distances.set v _).getInt u + w'
        rw [hu']
        rcases hq with hq | ⟨rfl, rfl⟩
        · exact le_trans (hle y) (hP.done y w' hq)
        · rw [GoMap.getInt_set_self]
  · rename_i hlt
    refine ⟨hI, ⟨hP.others, ?_⟩, rfl⟩
    intro y w' hq
    rcases hq with hq | ⟨rfl, rfl⟩
    · exact hP.done y w' hq
    · omega

/-- One iteration of the neighbour loop keeps the invariant. -/
theorem relax_inv {g : Graph} {s : String} (hnn : NonNeg g) (hsum : totalWeight g < MaxInt64)
    (st : State) (u v : String) (w : Int) (Q : String → Int → Prop)
    (hI : Inv g s st) (hP : Pend g st u Q) (hu : u ∈ Graph.keys g)
    (huD : st.distances.getInt u < MaxInt64) (he : Edge g u v w) :
    Inv g s (relax u st (v, w)) ∧
    Pend g (relax u st (v, w)) u (fun y w' => Q y w' ∨ (y = v ∧ w' = w)) ∧
    (relax u st (v, w)).distances.getInt u = st.distances.getInt u := by
  obtain ⟨vis, hw⟩ := hI.wit u hu huD
  have hb := hw.step_bound hnn he
  exact relax_inv_of hnn st u v w Q hI hP hu huD he (by omega)

/-- The whole neighbour loop keeps the invariant and relaxes every edge it
ranges over, provided no sum overflows. -/
theorem foldl_relax_inv_of {g : Graph} {s : String} (hnn : NonNeg g)
    (hH : NoOverflow g s) (u : String) (hu : u ∈ Graph.keys g)
    (nbrs : List (String × Int)) (hn : ∀ e ∈ nbrs, Edge g u e.1 e.2)
    (st : State) (Q : String → Int → Prop)
    (hI : Inv g s st) (hP : Pend g st u Q) (huD : st.distances.getInt u < MaxInt64) :
    Inv g s (nbrs.foldl (relax u) st) ∧
    Pend g (nbrs.foldl (relax u) st) u (fun y w => Q y w ∨ (y, w) ∈ nbrs) ∧
    (nbrs.foldl (relax u) st).distances.getInt u = st.distances.getInt u := by
  induction nbrs generalizing st Q with
  | nil =>
    refine ⟨hI, ⟨hP.others, ?_⟩, rfl⟩
    intro y w hq
    rcases hq with hq | hq
    · exact hP.done y w hq
    · simp at hq
  | cons e nbrs ih =>
    obtain ⟨v, w⟩ := e
    simp only [List.foldl_cons]
    obtain ⟨vis, hw⟩ := hI.wit u hu huD
    obtain ⟨hI1, hP1, hD1⟩ := relax_inv_of hnn st u v w Q hI hP hu huD
      (hn (v, w) (List.mem_cons_self _ _))
      (hH _ _ _ _ _ hw.simple (hn (v, w) (List.mem_cons_self _ _)))
    obtain ⟨hI2, hP2, hD2⟩ := ih (fun e he => hn e (List.mem_cons_of_mem _ he)) _ _ hI1 hP1
      (by rw [hD1]; exact huD)
    refine ⟨hI2, ⟨hP2.others, ?_⟩, by rw [hD2, hD1]⟩
    intro y w' hq
    apply hP2.done
    rcases hq with hq | hq
    · exact Or.inl (Or.inl hq)
    · rcases List.mem_cons.mp hq with heq | hq
      · have h1 : y = v := congrArg Prod.fst heq
        have h2 : w' = w := congrArg Prod.snd heq
        exact Or.inl (Or.inr ⟨h1, h2⟩)
      · exact Or.inr hq

/-- The whole neighbour loop keeps the invariant and relaxes every edge it
ranges over. -/
theorem foldl_relax_inv {g : Graph} {s : String} (hnn : NonNeg g)
    (hsum : totalWeight g < MaxInt64) (u : String) (hu : u ∈ Graph.keys g)
    (nbrs : List (String × Int)) (hn : ∀ e ∈ nbrs, Edge g u e.1 e.2)
    (st : State) (Q : String → Int → Prop)
    (hI : Inv g s st) (hP : Pend g st u Q) (huD : st.distances.getInt u < MaxInt64) :
    Inv g s (nbrs.foldl (relax u) st) ∧
    Pend g (nbrs.foldl (relax u) st) u (fun y w => Q y w ∨ (y, w) ∈ nbrs) ∧
    (nbrs.foldl (relax u) st).distances.getInt u = st.distances.getInt u :=
  foldl_relax_inv_of hnn (noOverflow_of_total s hnn hsum) u hu nbrs hn st Q hI hP huD

theorem Inv.pop {g : Graph} {s : String} {st : State} (hI : Inv g s st) (hne : st.pq ≠ []) :
    Inv g s { st with pq := (heap.Pop st.pq).2 } :=
  { nonneg := hI.nonneg
    start := hI.start
    distKeys := hI.distKeys
    prevKeys := hI.prevKeys
    bounded := hI.bounded
    untouched := hI.untouched
    wit := hI.wit
    queue := fun x hx => hI.queue x ((mem_entries_heapPop st.pq hne x).mpr (Or.inr hx))
    lock := hI.lock
    rooted := hI.rooted }

/-- One iteration of the main loop keeps the invariant, provided no sum
overflows. -/
theorem step_inv_of {g : Graph} {s : String} (hnn : NonNeg g) (hH : NoOverflow g s)
    (st : State) (h : Inv g s st ∧ Settled g st) (hne : st.pq ≠ []) :
    Inv g s (step g st) ∧ Settled g (step g st) := by
  obtain ⟨hI, hS⟩ := h
  have hI0 := hI.pop hne
  have hit : (heap.Pop st.pq).1.key ∈ entries st.pq :=
    (mem_entries_heapPop st.pq hne _).mpr (Or.inl rfl)
  obtain ⟨huk, huD⟩ := hI.queue _ hit
  simp only [pqItem.key] at huk huD
  simp only [step]
  split
  · rename_i hstale
    refine ⟨hI0, ?_⟩
    intro v hv hvD
    rcases hS v hv hvD with hr | hq
    · exact Or.inl hr
    · rcases (mem_entries_heapPop st.pq hne _).mp hq with heq | hq
      · exfalso
        have h1 : v = (heap.Pop st.pq).1.node := congrArg Prod.fst heq
        have h2 : st.distances.getInt v = (heap.Pop st.pq).1.priority := congrArg Prod.snd heq
        subst h1
        omega
      · exact Or.inr hq
  · split
    · rename_i nbrs hn
      have hP0 : Pend g { st with pq := (heap.Pop st.pq).2 } (heap.Pop st.pq).1.node
          (fun _ _ => False) := by
        constructor
        · intro v hv hvD hvu
          rcases hS v hv hvD with hr | hq
          · exact Or.inl hr
          · rcases (mem_entries_heapPop st.pq hne _).mp hq with heq | hq
            · exact absurd (congrArg Prod.fst heq) hvu
            · exact Or.inr hq
        · intro y w hq; exact hq.elim
      obtain ⟨hI1, hP1, hD1⟩ := foldl_relax_inv_of hnn hH (heap.Pop st.pq).1.node huk nbrs
        (fun e he => ⟨nbrs, hn, he⟩) _ _ hI0 hP0 huD
      refine ⟨hI1, ?_⟩
      intro v hv hvD
      by_cases hvu : v = (heap.Pop st.pq).1.node
      · left
        rw [hvu]
        intro y w hedge
        obtain ⟨n', hn', hmem⟩ := hedge
        rw [hn] at hn'
        cases hn'
        exact hP1.done y w (Or.inr hmem)
      · exact hP1.others v hv hvD hvu
    · rename_i hn
      exact absurd huk ((lookup_eq_none_iff g _).mp hn)

/-- One iteration of the main loop keeps the invariant. -/
theorem step_inv {g : Graph} {s : String} (hnn : NonNeg g) (hsum : totalWeight g < MaxInt64)
    (st : State) (h : Inv g s st ∧ Settled g st) (hne : st.pq ≠ []) :
    Inv g s (step g st) ∧ Settled g (step g st) :=
  step_inv_of hnn (noOverflow_of_total s hnn hsum) st h hne

theorem initState_getInt (g : Graph) (s v : String) :
    (initState g s).distances.getInt v =
      if v = s then 0 else if v ∈ Graph.keys g then MaxInt64 else 0 := by
  simp only [initState, GoMap.getInt, GoMap.set]
  by_cases h : v = s
  · simp [h]
  · simp only [h, if_false, initMaps_dist]
    split <;> rfl

theorem initState_entries (g : Graph) (s : String) (x : String × Int) :
    x ∈ entries (initState g s).pq ↔ x = (s, 0) := by
  simp only [initState, mem_entries_heapPush]
  simp [entries, pqItem.key]

/-- The invariant holds on entry to the main loop. -/
theorem initState_inv (g : Graph) (s : String) (hs : s ∈ Graph.keys g) :
    Inv g s (initState g s) ∧ Settled g (initState g s) := by
  have hD := initState_getInt g s
  have hmax : (0 : Int) < MaxInt64 := by decide
  have hlt : ∀ v, v ∈ Graph.keys g → (initState g s).distances.getInt v < MaxInt64 → v = s := by
    intro v hv h
    rw [hD] at h
    by_contra hvs
    simp [hvs, hv] at h
  constructor
  · constructor
    · intro v
      rw [hD]
      split
      · exact le_refl _
      · split
        · exact le_of_lt hmax
        · exact le_refl _
    · rw [hD]; simp
    · intro v
      show (((initMaps g).1.set s 0) v).isSome = true ↔ _
      by_cases hv : v = s
      · subst hv; simp [hs]
      · rw [GoMap.set_ne _ _ _ _ hv, initMaps_dist]
        split <;> simp [*]
    · intro v
      show ((initMaps g).2 v).isSome = true ↔ _
      rw [initMaps_prev]
      split <;> simp [*]
    · intro v hv
      rw [hD]
      split
      · exact le_of_lt hmax
      · simp [hv]
    · intro v hv _
      show (initMaps g).2 v = some ""
      rw [initMaps_prev, if_pos hv]
    · intro v hv h
      have := hlt v hv h
      subst this
      refine ⟨[v], ?_⟩
      have e : (initState g v).distances.getInt v = 0 := by rw [hD]; simp
      rw [e]
      exact Wit.nil (le_of_eq e)
    · intro x hx
      rw [initState_entries] at hx
      subst hx
      refine ⟨hs, ?_⟩
      rw [hD]; simp only [if_true]; exact hmax
    · intro b hb hbs h
      exact absurd (hlt b hb h) hbs
    · intro v hv h
      rw [hlt v hv h]
      exact Rooted.base
  · intro v hv h
    right
    have := hlt v hv h
    subst this
    rw [initState_entries, hD]
    simp

/-! ## The final state -/

theorem Dijkstra_post (g : Graph) (s : String) (hnn : NonNeg g)
    (hsum : totalWeight g < MaxInt64) (hs : s ∈ Graph.keys g) :
    ∃ fuel d p, Dijkstra fuel g s = some (d, p) ∧ Post g s d p := by
  obtain ⟨st', hst'⟩ := mainLoop_terminates g (measure g (initState g s)) (initState g s)
    (Nat.le_refl _)
  obtain ⟨⟨hI, hS⟩, hpq⟩ := mainLoop_inv g (fun st => Inv g s st ∧ Settled g st)
    (fun st h hne => step_inv hnn hsum st h hne) _ _ _ (initState_inv g s hs) hst'
  refine ⟨measure g (initState g s), st'.distances, st'.previous, ?_, ?_⟩
  · have hl : ∃ n, g.lookup s = some n := by
      have := (lookup_isSome_iff g s).mpr hs
      cases h : g.lookup s with
      | none => simp [h] at this
      | some n => exact ⟨n, rfl⟩
    obtain ⟨n, hn⟩ := hl
    simp only [Dijkstra, hn, hst', Option.map_some']
  · have e : st' = ⟨st'.distances, st'.previous, []⟩ := by
      cases st'; simp only at hpq; subst hpq; rfl
    rw [e] at hI hS
    refine ⟨hI, ?_⟩
    intro v hv hvD
    rcases hS v hv hvD with hr | hq
    · exact hr
    · simp [entries] at hq

theorem Post.path_le {g : Graph} {s : String} {d : GoMap Int} {p : GoMap String}
    (hnn : NonNeg g) (hsum : totalWeight g < MaxInt64) (h : Post g s d p)
    {l : List String} {v : String} {W : Int} (hp : Path g s l v W) :
    d.getInt v < MaxInt64 ∧ d.getInt v ≤ W := by
  induction hp with
  | nil =>
    have := h.inv.start
    simp only at this
    rw [this]
    exact ⟨by decide, le_refl _⟩
  | @snoc l u v W w _ he ih =>
    obtain ⟨h1, h2⟩ := ih
    have huk := he.src_key
    have hr := h.relaxed u huk h1 v w he
    simp only at hr
    obtain ⟨vis, hw⟩ := h.inv.wit u huk h1
    have hb := hw.step_bound hnn he
    simp only at hb
    constructor <;> omega

theorem Post.reach_iff {g : Graph} {s : String} {d : GoMap Int} {p : GoMap String}
    (hnn : NonNeg g) (hsum : totalWeight g < MaxInt64) (h : Post g s d p)
    (v : String) (hv : v ∈ Graph.keys g) : d.getInt v < MaxInt64 ↔ Reachable g s v := by
  constructor
  · intro hlt
    obtain ⟨vis, hw⟩ := h.inv.wit v hv hlt
    obtain ⟨l, hl⟩ := hw.to_path
    exact ⟨l, _, hl⟩
  · rintro ⟨l, W, hp⟩
    exact (h.path_le hnn hsum hp).1

theorem Post.dist_eq {g : Graph} {s : String} {d : GoMap Int} {p : GoMap String}
    (h : Post g s d p) (v : String) (hv : v ∈ Graph.keys g) : d v = some (d.getInt v) := by
  have := (h.inv.distKeys v).mpr hv
  simp only at this
  simp only [GoMap.getInt]
  cases hd : d v with
  | none => simp [hd] at this
  | some x => rfl

/-- In the final state the predecessor edge is tight. -/
theorem Post.lock_eq {g : Graph} {s : String} {d : GoMap Int} {p : GoMap String}
    (h : Post g s d p) (b : String) (hb : b ∈ Graph.keys g) (hbs : b ≠ s)
    (hbD : d.getInt b < MaxInt64) (hnn : NonNeg g) :
    ∃ a w, p b = some a ∧ Edge g a b w ∧ d.getInt a < MaxInt64 ∧
      d.getInt b = d.getInt a + w := by
  obtain ⟨a, w, hpa, he, hle⟩ := h.inv.lock b hb hbs hbD
  simp only at hpa hle
  have hw := he.nonneg_weight hnn
  have haD : d.getInt a < MaxInt64 := by omega
  have hr := h.relaxed a he.src_key haD b w he
  simp only at hr
  exact ⟨a, w, hpa, he, haD, by omega⟩

/-! ## Unreachable nodes are never written (any weights) -/

theorem Reachable.refl (g : Graph) (s : String) : Reachable g s s := ⟨[s], 0, Path.nil⟩

theorem Reachable.step {g : Graph} {s u v : String} {w : Int} (h : Reachable g s u)
    (he : Edge g u v w) : Reachable g s v := by
  obtain ⟨l, W, hp⟩ := h
  exact ⟨_, _, Path.snoc hp he⟩

theorem Reachable.start_or_target {g : Graph} {s v : String} (h : Reachable g s v) :
    v = s ∨ v ∈ targets g := by
  obtain ⟨l, W, hp⟩ := h
  cases hp with
  | nil => exact Or.inl rfl
  | snoc _ he => exact Or.inr he.tgt_mem

theorem relax_invR {g : Graph} {s : String} (st : State) (u v : String) (w : Int)
    (hI : InvR g s st) (hu : Reachable g s u) (he : Edge g u v w) :
    InvR g s (relax u st (v, w)) := by
  simp only [relax]
  split
  · have hv : Reachable g s v := hu.step he
    constructor
    · intro x hx
      change x ∈ entries (heap.Push st.pq _) at hx
      rw [mem_entries_heapPush] at hx
      rcases hx with rfl | hx
      · exact hv
      · exact hI.queue x hx
    · intro x hx
      have hxv : x ≠ v := fun e => hx (e ▸ hv)
      show (st.distances.set v _) x = _ ∧ (st.previous.set v _) x = _
      rw [GoMap.set_ne _ _ _ _ hxv, GoMap.set_ne _ _ _ _ hxv]
      exact hI.frame x hx
  · exact hI

theorem foldl_relax_invR {g : Graph} {s : String} (u : String) (hu : Reachable g s u)
    (nbrs : List (String × Int)) (hn : ∀ e ∈ nbrs, Edge g u e.1 e.2) (st : State)
    (hI : InvR g s st) : InvR g s (nbrs.foldl (relax u) st) := by
  induction nbrs generalizing st with
  | nil => exact hI
  | cons e nbrs ih =>
    simp only [List.foldl_cons]
    exact ih (fun x hx => hn x (List.mem_cons_of_mem _ hx)) _
      (relax_invR st u e.1 e.2 hI hu (hn e (List.mem_cons_self _ _)))

theorem step_invR {g : Graph} {s : String} (st : State) (hI : InvR g s st) (hne : st.pq ≠ []) :
    InvR g s (step g st) := by
  have hI0 : InvR g s { st with pq := (heap.Pop st.pq).2 } :=
    ⟨fun x hx => hI.queue x ((mem_entries_heapPop st.pq hne x).mpr (Or.inr hx)), hI.frame⟩
  have hu : Reachable g s (heap.Pop st.pq).1.node :=
    hI.queue _ ((mem_entries_heapPop st.pq hne _).mpr (Or.inl rfl))
  simp only [step]
  split
  · exact hI0
  · split
    · rename_i nbrs hn
      exact foldl_relax_invR _ hu nbrs (fun e he => ⟨nbrs, hn, he⟩) _ hI0
    · exact hI0

theorem initState_invR (g : Graph) (s : String) : InvR g s (initState g s) := by
  constructor
  · intro x hx
    rw [initState_entries] at hx
    subst hx
    exact Reachable.refl g s
  · intro v hv
    have hvs : v ≠ s := fun e => hv (e ▸ Reachable.refl g s)
    exact ⟨GoMap.set_ne _ _ _ _ hvs, rfl⟩

/-- For every graph and start key, `Dijkstra` returns, and the entries of the
nodes that cannot be reached are those of the initialisation loop. -/
theorem Dijkstra_frame (g : Graph) (s : String) (hs : s ∈ Graph.keys g) :
    ∃ fuel d p, Dijkstra fuel g s = some (d, p) ∧
      ∀ v, ¬ Reachable g s v → d v = (initMaps g).1 v ∧ p v = (initMaps g).2 v := by
  obtain ⟨st', hst'⟩ := mainLoop_terminates g (measure g (initState g s)) (initState g s)
    (Nat.le_refl _)
  obtain ⟨hI, _⟩ := mainLoop_inv g (InvR g s) (fun st h hne => step_invR st h hne) _ _ _
    (initState_invR g s) hst'
  refine ⟨measure g (initState g s), st'.distances, st'.previous, ?_, hI.frame⟩
  have hl : ∃ n, g.lookup s = some n := by
    have := (lookup_isSome_iff g s).mpr hs
    cases h : g.lookup s with
    | none => simp [h] at this
    | some n => exact ⟨n, rfl⟩
  obtain ⟨n, hn⟩ := hl
  simp only [Dijkstra, hn, hst', Option.map_some']

/-- More fuel does not change the result of `Dijkstra`. -/
theorem Dijkstra_mono (g : Graph) (s : String) (fuel k : Nat) (r : GoMap Int × GoMap String)
    (h : Dijkstra fuel g s = some r) : Dijkstra (fuel + k) g s = some r := by
  simp only [Dijkstra] at h ⊢
  split
  · rename_i hn; simp only [hn] at h; exact h
  · rename_i n hn
    simp only [hn] at h
    cases hm : mainLoop g fuel (initState g s) with
    | none => simp [hm] at h
    | some st' =>
      rw [mainLoop_mono g fuel _ st' hm k]
      rw [hm] at h
      exact h

/-- The result of `Dijkstra` does not depend on the fuel. -/
theorem Dijkstra_unique (g : Graph) (s : String) (f1 f2 : Nat) (r1 r2 : GoMap Int × GoMap String)
    (h1 : Dijkstra f1 g s = some r1) (h2 : Dijkstra f2 g s = some r2) : r1 = r2 := by
  have e1 := Dijkstra_mono g s f1 f2 r1 h1
  have e2 := Dijkstra_mono g s f2 f1 r2 h2
  rw [Nat.add_comm] at e2
  rw [e1] at e2
  exact Option.some.inj e2

/-! ## The backward walk of `GetPath` -/

theorem GetPath.loop_zero (p : GoMap String) (s : String) (path : List String) (curr : String) :
    GetPath.loop p s 0 path curr =
      if curr ≠ "" then none
      else if path.length = 0 ∨ path.head? ≠ some s then some ([], false)
      else some (path, true) := by
  rw [GetPath.loop]

theorem GetPath.loop_succ (p : GoMap String) (s : String) (fuel : Nat) (path : List String)
    (curr : String) :
    GetPath.loop p s (fuel + 1) path curr =
      if curr ≠ "" then
        if curr = s then some (curr :: path, true)
        else
          match p curr with
          | none => some ([], false)
          | some prev => GetPath.loop p s fuel (curr :: path) prev
      else if path.length = 0 ∨ path.head? ≠ some s then some ([], false)
      else some (path, true) := by
  rw [GetPath.loop]
  try rfl

theorem GetPath.loop_empty (p : GoMap String) (s : String) (fuel : Nat) (path : List String) :
    GetPath.loop p s fuel path "" =
      if path.length = 0 ∨ path.head? ≠ some s then some ([], false)
      else some (path, true) := by
  cases fuel with
  | zero => rw [GetPath.loop_zero]; simp
  | succ n => rw [GetPath.loop_succ]; simp

theorem GetPath.loop_empty_returns (p : GoMap String) (s : String) (fuel : Nat)
    (path : List String) : ∃ r, GetPath.loop p s fuel path "" = some r := by
  rw [GetPath.loop_empty]
  split
  · exact ⟨_, rfl⟩
  · exact ⟨_, rfl⟩

theorem GetPath.loop_start (p : GoMap String) (s : String) (fuel : Nat) (path : List String)
    (hs : s ≠ "") : GetPath.loop p s (fuel + 1) path s = some (s :: path, true) := by
  rw [GetPath.loop_succ]; simp [hs]

theorem GetPath.loop_none (p : GoMap String) (s : String) (fuel : Nat) (path : List String)
    (e : String) (hc : e ≠ "") (hs : e ≠ s) (hp : p e = none) :
    GetPath.loop p s (fuel + 1) path e = some ([], false) := by
  rw [GetPath.loop_succ]; simp [hc, hs, hp]

theorem GetPath.loop_some (p : GoMap String) (s : String) (fuel : Nat) (path : List String)
    (e u : String) (hc : e ≠ "") (hs : e ≠ s) (hp : p e = some u) :
    GetPath.loop p s (fuel + 1) path e = GetPath.loop p s fuel (e :: path) u := by
  rw [GetPath.loop_succ]; simp [hc, hs, hp]

/-- More fuel does not change a result of the backward walk. -/
theorem GetPath.loop_mono (p : GoMap String) (s : String) (fuel : Nat) (path : List String)
    (curr : String) (r : List String × Bool) (h : GetPath.loop p s fuel path curr = some r)
    (k : Nat) : GetPath.loop p s (fuel + k) path curr = some r := by
  induction fuel generalizing path curr with
  | zero =>
    rw [GetPath.loop_zero] at h
    by_cases hc : curr = ""
    · subst hc
      rw [GetPath.loop_empty]
      simpa using h
    · simp [hc] at h
  | succ n ih =>
    have e : n + 1 + k = (n + k) + 1 := by omega
    rw [e]
    rw [GetPath.loop_succ] at h ⊢
    by_cases hc : curr = ""
    · simpa [hc] using h
    · simp only [ne_eq, hc, not_false_eq_true, if_true] at h ⊢
      by_cases hs : curr = s
      · simpa [hs] using h
      · simp only [hs, if_false] at h ⊢
        cases hp : p curr with
        | none => simpa [hp] using h
        | some u =>
          simp only [hp] at h ⊢
          exact ih _ _ h

theorem GetPath.loop_of_ends (p : GoMap String) (s : String) (k : Nat) (e : String)
    (h : walkNode p k e = none ∨ walkNode p k e = some "" ∨ walkNode p k e = some s)
    (path : List String) : ∃ fuel r, GetPath.loop p s fuel path e = some r := by
  induction k generalizing e path with
  | zero =>
    simp only [walkNode, Option.some.injEq] at h
    rcases h with h | h | h
    · exact absurd h (by simp)
    · subst h
      exact ⟨0, GetPath.loop_empty_returns p s 0 path⟩
    · subst h
      by_cases hc : e = ""
      · subst hc
        exact ⟨0, GetPath.loop_empty_returns p "" 0 path⟩
      · exact ⟨1, _, GetPath.loop_start p e 0 path hc⟩
  | succ k ih =>
    by_cases hc : e = ""
    · subst hc
      exact ⟨0, GetPath.loop_empty_returns p s 0 path⟩
    · by_cases hs : e = s
      · subst hs
        exact ⟨1, _, GetPath.loop_start p e 0 path hc⟩
      · cases hp : p e with
        | none => exact ⟨1, _, GetPath.loop_none p s 0 path e hc hs hp⟩
        | some u =>
          simp only [walkNode, hp] at h
          obtain ⟨fuel, r, hr⟩ := ih u h (e :: path)
          exact ⟨fuel + 1, r, by rw [GetPath.loop_some p s fuel path e u hc hs hp]; exact hr⟩

theorem GetPath.ends_of_loop (p : GoMap String) (s : String) (fuel : Nat) (path : List String)
    (e : String) (r : List String × Bool) (h : GetPath.loop p s fuel path e = some r) :
    WalkEnds p s e := by
  induction fuel generalizing path e with
  | zero =>
    rw [GetPath.loop_zero] at h
    by_cases hc : e = ""
    · exact ⟨0, Or.inr (Or.inl (by simp [walkNode, hc]))⟩
    · simp [hc] at h
  | succ n ih =>
    by_cases hc : e = ""
    · exact ⟨0, Or.inr (Or.inl (by simp [walkNode, hc]))⟩
    · by_cases hs : e = s
      · exact ⟨0, Or.inr (Or.inr (by simp [walkNode, hs]))⟩
      · cases hp : p e with
        | none => exact ⟨1, Or.inl (by simp [walkNode, hp])⟩
        | some u =>
          rw [GetPath.loop_succ] at h
          simp only [ne_eq, hc, not_false_eq_true, if_true, hs, if_false, hp] at h
          obtain ⟨k, hk⟩ := ih _ _ h
          exact ⟨k + 1, by simpa [walkNode, hp] using hk⟩

/-! ## Successful reconstructions -/

theorem BackChain.ne_empty {p : GoMap String} {s c : String} {l : List String}
    (h : BackChain p s c l) : c ≠ "" := by
  cases h with
  | base h0 => exact h0
  | step h0 _ _ _ => exact h0

/-- A `true` result of the backward walk comes from a chain that reaches the
start node. -/
theorem GetPath.loop_true (p : GoMap String) (s : String) (fuel : Nat) (path : List String)
    (curr : String) (res : List String) (hh : path.head? ≠ some s)
    (h : GetPath.loop p s fuel path curr = some (res, true)) :
    ∃ l, BackChain p s curr l ∧ res = l ++ path := by
  induction fuel generalizing path curr with
  | zero =>
    rw [GetPath.loop_zero] at h
    by_cases hc : curr = ""
    · simp [hc, hh] at h
    · simp [hc] at h
  | succ n ih =>
    by_cases hc : curr = ""
    · subst hc
      rw [GetPath.loop_empty] at h
      simp [hh] at h
    · by_cases hs : curr = s
      · subst hs
        rw [GetPath.loop_start p curr n path hc] at h
        simp only [Option.some.injEq, Prod.mk.injEq, and_true] at h
        exact ⟨[curr], BackChain.base hc, by simp [← h]⟩
      · cases hp : p curr with
        | none =>
          rw [GetPath.loop_none p s n path curr hc hs hp] at h
          simp at h
        | some u =>
          rw [GetPath.loop_some p s n path curr u hc hs hp] at h
          obtain ⟨l, hl, hres⟩ := ih (curr :: path) u (by simpa using hs) h
          exact ⟨l ++ [curr], BackChain.step hc hs hp hl, by simp [hres]⟩

/-- Along a chain found in the final maps the edge weights add up to the
recorded distance. -/
theorem BackChain.to_weighted_path {g : Graph} {s : String} {d : GoMap Int} {p : GoMap String}
    (hnn : NonNeg g) (hP : Post g s d p) {c : String} {l : List String}
    (h : BackChain p s c l) : Path g s l c (d.getInt c) := by
  induction h with
  | base _ =>
    have h0 : d.getInt s = 0 := hP.inv.start
    rw [h0]
    exact Path.nil
  | @step c u l hc hs hp hu ih =>
    have hck : c ∈ Graph.keys g := by
      have := hP.inv.prevKeys c
      simp only at this
      rw [← this, hp]; rfl
    have hb : d.getInt c ≤ MaxInt64 := hP.inv.bounded c hck
    have hne : d.getInt c ≠ MaxInt64 := by
      intro e
      have h1 : p c = some "" := hP.inv.untouched c hck e
      rw [hp] at h1
      exact hu.ne_empty (Option.some.inj h1)
    obtain ⟨a, w, hpa, he, _, heq⟩ := hP.lock_eq c hck hs (lt_of_le_of_ne hb hne) hnn
    have hau : a = u := by rw [hp] at hpa; exact (Option.some.inj hpa).symm
    subst hau
    rw [heq]
    exact Path.snoc ih he

/-- In the final maps the chain of a touched key is reconstructed, provided the
empty name is not a reachable key. -/
theorem Post.getPath_found {g : Graph} {s : String} {d : GoMap Int} {p : GoMap String}
    (hnn : NonNeg g) (hsum : totalWeight g < MaxInt64) (hP : Post g s d p)
    (hk : ¬ ("" ∈ Graph.keys g ∧ Reachable g s "")) {e : String}
    (hr : Rooted g p s e) (he : e ∈ Graph.keys g) (hlt : d.getInt e < MaxInt64)
    (path : List String) :
    ∃ fuel l, GetPath.loop p s fuel path e = some (l ++ path, true) ∧
      l.head? = some s ∧ l.getLast? = some e := by
  induction hr generalizing path with
  | base =>
    have hs0 : s ≠ "" := fun h => hk (h ▸ ⟨he, Reachable.refl g s⟩)
    exact ⟨1, [s], GetPath.loop_start p s 0 path hs0, rfl, rfl⟩
  | @step v u hvs hp huk _ ih =>
    have hv0 : v ≠ "" := fun h => hk (h ▸ ⟨he, (hP.reach_iff hnn hsum v he).mp hlt⟩)
    obtain ⟨a, w, hpa, _, haD, _⟩ := hP.lock_eq v he hvs hlt hnn
    have hau : a = u := by rw [hp] at hpa; exact (Option.some.inj hpa).symm
    subst hau
    obtain ⟨fuel, l, hl, hhead, _⟩ := ih huk haD (v :: path)
    refine ⟨fuel + 1, l ++ [v], ?_, ?_, by simp⟩
    · rw [GetPath.loop_some p s fuel path v a hv0 hvs hp, hl]
      simp
    · cases l with
      | nil => simp at hhead
      | cons b t => simpa using hhead

theorem Rooted.walk_ends {g : Graph} {p : GoMap String} {s e : String} (h : Rooted g p s e) :
    WalkEnds p s e := by
  induction h with
  | base => exact ⟨0, Or.inr (Or.inr rfl)⟩
  | @step v u _ hp _ _ ih =>
    obtain ⟨k, hk⟩ := ih
    exact ⟨k + 1, by simpa [walkNode, hp] using hk⟩

/-! ## Iteration orders -/

theorem lookup_of_mem_nodup (g : Graph) (hnd : (Graph.keys g).Nodup) (u : String)
    (n : List (String × Int)) (h : (u, n) ∈ g) : g.lookup u = some n := by
  induction g with
  | nil => simp at h
  | cons e g ih =>
    obtain ⟨k, n0⟩ := e
    simp only [Graph.keys, List.map_cons, List.nodup_cons] at hnd
    rcases List.mem_cons.mp h with heq | hmem
    · cases heq
      simp
    · have hne : u ≠ k := by
        intro e
        subst e
        exact hnd.1 (List.mem_map.mpr ⟨(u, n), hmem, rfl⟩)
      have hb : (u == k) = false := by simpa using hne
      simp only [List.lookup_cons, hb]
      exact ih hnd.2 hmem

theorem forall₂_keys {m g' : Graph}
    (h : List.Forall₂ (fun a b => a.1 = b.1 ∧ List.Perm a.2 b.2) m g') :
    Graph.keys m = Graph.keys g' := by
  induction h with
  | nil => rfl
  | cons hab _ ih =>
    simp only [Graph.keys, List.map_cons] at ih ⊢
    rw [hab.1, ih]

theorem forall₂_total {m g' : Graph}
    (h : List.Forall₂ (fun a b => a.1 = b.1 ∧ List.Perm a.2 b.2) m g') :
    totalWeight m = totalWeight g' := by
  induction h with
  | nil => rfl
  | cons hab _ ih =>
    simp only [totalWeight, List.map_cons, List.sum_cons] at ih ⊢
    rw [(hab.2.map Prod.snd).sum_eq, ih]

theorem forall₂_mem_left {m g' : Graph}
    (h : List.Forall₂ (fun a b => a.1 = b.1 ∧ List.Perm a.2 b.2) m g')
    (u : String) (n : List (String × Int)) (hm : (u, n) ∈ m) :
    ∃ n', (u, n') ∈ g' ∧ n.Perm n' := by
  induction h with
  | nil => simp at hm
  | @cons a b l1 l2 hab _ ih =>
    rcases List.mem_cons.mp hm with heq | hmem
    · subst heq
      refine ⟨b.2, ?_, hab.2⟩
      have : b = (b.1, b.2) := rfl
      rw [List.mem_cons]; left
      rw [this]; simp only [Prod.mk.injEq, and_true]; exact hab.1
    · obtain ⟨n', hn', hp⟩ := ih hmem
      exact ⟨n', List.mem_cons_of_mem _ hn', hp⟩

theorem forall₂_mem_right {m g' : Graph}
    (h : List.Forall₂ (fun a b => a.1 = b.1 ∧ List.Perm a.2 b.2) m g')
    (u : String) (n' : List (String × Int)) (hm : (u, n') ∈ g') :
    ∃ n, (u, n) ∈ m ∧ n.Perm n' := by
  induction h with
  | nil => simp at hm
  | @cons a b l1 l2 hab _ ih =>
    rcases List.mem_cons.mp hm with heq | hmem
    · subst heq
      refine ⟨a.2, ?_, hab.2⟩
      rw [List.mem_cons]; left
      have : a = (a.1, a.2) := rfl
      rw [this]; simp only [Prod.mk.injEq, and_true]; exact hab.1.symm
    · obtain ⟨n, hn, hp⟩ := ih hmem
      exact ⟨n, List.mem_cons_of_mem _ hn, hp⟩

theorem Reordering.keys_perm {g g' : Graph} (h : Reordering g g') :
    (Graph.keys g).Perm (Graph.keys g') := by
  obtain ⟨m, hp, hf⟩ := h
  rw [← forall₂_keys hf]
  exact hp.map _

theorem Reordering.total {g g' : Graph} (h : Reordering g g') :
    totalWeight g' = totalWeight g := by
  obtain ⟨m, hp, hf⟩ := h
  rw [← forall₂_total hf]
  exact ((hp.map _).sum_eq).symm

theorem Reordering.edge {g g' : Graph} (h : Reordering g g') (hnd : (Graph.keys g).Nodup)
    (u v : String) (w : Int) : Edge g u v w ↔ Edge g' u v w := by
  have hnd' : (Graph.keys g').Nodup := h.keys_perm.nodup_iff.mp hnd
  obtain ⟨m, hp, hf⟩ := h
  constructor
  · rintro ⟨n, hn, hv⟩
    obtain ⟨n', hn', hnp⟩ := forall₂_mem_left hf u n (hp.mem_iff.mp (lookup_mem g u n hn))
    exact ⟨n', lookup_of_mem_nodup g' hnd' u n' hn', hnp.mem_iff.mp hv⟩
  · rintro ⟨n', hn', hv⟩
    obtain ⟨n, hn, hnp⟩ := forall₂_mem_right hf u n' (lookup_mem g' u n' hn')
    exact ⟨n, lookup_of_mem_nodup g hnd u n (hp.mem_iff.mpr hn), hnp.mem_iff.mpr hv⟩

theorem Reordering.preserves_nonneg {g g' : Graph} (h : Reordering g g') (hnn : NonNeg g) : NonNeg g' := by
  obtain ⟨m, hp, hf⟩ := h
  intro e he x hx
  obtain ⟨n, hn, hnp⟩ := forall₂_mem_right hf e.1 e.2 he
  exact hnn (e.1, n) (hp.mem_iff.mpr hn) x (hnp.mem_iff.mpr hx)

theorem Reordering.path_iff {g g' : Graph} (h : Reordering g g') (hnd : (Graph.keys g).Nodup)
    (s : String) (l : List String) (v : String) (W : Int) :
    Path g s l v W ↔ Path g' s l v W := by
  constructor
  · intro hp
    induction hp with
    | nil => exact Path.nil
    | snoc _ he ih => exact Path.snoc ih ((h.edge hnd _ _ _).mp he)
  · intro hp
    induction hp with
    | nil => exact Path.nil
    | snoc _ he ih => exact Path.snoc ih ((h.edge hnd _ _ _).mpr he)

theorem Path.weight_nonneg {g : Graph} (hnn : NonNeg g) {s : String} {l : List String}
    {v : String} {W : Int} (h : Path g s l v W) : 0 ≤ W := by
  induction h with
  | nil => exact le_refl _
  | snoc _ he ih => have := he.nonneg_weight hnn; omega

/-! ## Consequences for the returned maps -/

theorem Dijkstra_of_not_key (g : Graph) (s : String) (hs : s ∉ Graph.keys g) (fuel : Nat) :
    Dijkstra fuel g s = some (initMaps g) := by
  have hn := (lookup_eq_none_iff g s).mpr hs
  simp only [Dijkstra, hn]

theorem Post.getPath_walk_ends {g : Graph} {s : String} {d : GoMap Int} {p : GoMap String}
    (h : Post g s d p) (e : String) : WalkEnds p s e := by
  by_cases he : e ∈ Graph.keys g
  · by_cases hlt : d.getInt e < MaxInt64
    · exact (h.inv.rooted e he hlt).walk_ends
    · have hb : d.getInt e ≤ MaxInt64 := h.inv.bounded e he
      have hp : p e = some "" := h.inv.untouched e he (le_antisymm hb (not_lt.mp hlt))
      exact ⟨1, Or.inr (Or.inl (by simp [walkNode, hp]))⟩
  · have hk := (h.inv.prevKeys e).not.mpr he
    simp only at hk
    have hp : p e = none := by
      cases hpe : p e with
      | none => rfl
      | some x => simp [hpe] at hk
    exact ⟨1, Or.inl (by simp [walkNode, hp])⟩

theorem Post.getInt_eq_of_reordering {g g' : Graph} {s : String} {d d' : GoMap Int}
    {p p' : GoMap String} (hnn : NonNeg g) (hsum : totalWeight g < MaxInt64)
    (hnn' : NonNeg g') (hsum' : totalWeight g' < MaxInt64)
    (hpath : ∀ l v W, Path g s l v W ↔ Path g' s l v W)
    (hkeys : ∀ v, v ∈ Graph.keys g ↔ v ∈ Graph.keys g')
    (h : Post g s d p) (h' : Post g' s d' p') (v : String) (hv : v ∈ Graph.keys g) :
    d.getInt v = d'.getInt v := by
  have hv' := (hkeys v).mp hv
  have hb : d.getInt v ≤ MaxInt64 := h.inv.bounded v hv
  have hb' : d'.getInt v ≤ MaxInt64 := h'.inv.bounded v hv'
  by_cases hlt : d.getInt v < MaxInt64
  · obtain ⟨vis, hw⟩ := h.inv.wit v hv hlt
    obtain ⟨l, hl⟩ := hw.to_path
    simp only at hl
    have h1 := h'.path_le hnn' hsum' ((hpath _ _ _).mp hl)
    obtain ⟨vis', hw'⟩ := h'.inv.wit v hv' h1.1
    obtain ⟨l', hl'⟩ := hw'.to_path
    simp only at hl'
    have h2 := h.path_le hnn hsum ((hpath _ _ _).mpr hl')
    omega
  · by_cases hlt' : d'.getInt v < MaxInt64
    · obtain ⟨vis', hw'⟩ := h'.inv.wit v hv' hlt'
      obtain ⟨l', hl'⟩ := hw'.to_path
      simp only at hl'
      have h2 := h.path_le hnn hsum ((hpath _ _ _).mpr hl')
      omega
    · omega

theorem Edge.mem_edgeList {g : Graph} {u v : String} {w : Int} (h : Edge g u v w) :
    (u, v, w) ∈ edgeList g := by
  obtain ⟨n, hn, hv⟩ := h
  simp only [edgeList, List.mem_flatMap, List.mem_map]
  exact ⟨(u, n), lookup_mem g u n hn, (v, w), hv, rfl⟩

theorem exampleGraph_values :
    (Dijkstra 100 exampleGraph "A").map
      (fun r => ["A", "B", "C", "D", "E", "F"].map r.1.getInt)
      = some [0, 1, 3, 4, 7, MaxInt64] := by decide

/-- The maps `Dijkstra` returns on the graph of `main`, in every iteration
order. -/
theorem exampleGraph_any_order (g : Graph) (hre : Reordering exampleGraph g) :
    ∃ fuel d p, Dijkstra fuel g "A" = some (d, p) ∧
      (d "A" = some 0 ∧ d "B" = some 1 ∧ d "C" = some 3 ∧ d "D" = some 4 ∧ d "E" = some 7 ∧
        d "F" = some MaxInt64) ∧
      (p "B" = some "A" ∧ p "C" = some "B" ∧ p "D" = some "C" ∧ p "E" = some "D" ∧
        p "F" = some "") := by
  have hnd : (Graph.keys exampleGraph).Nodup := by decide
  have hnn : NonNeg exampleGraph := by decide
  have hsum : totalWeight exampleGraph < MaxInt64 := by decide
  have hnn' := hre.preserves_nonneg hnn
  have hsum' : totalWeight g < MaxInt64 := by rw [hre.total]; exact hsum
  have hkeys : ∀ v, v ∈ Graph.keys exampleGraph ↔ v ∈ Graph.keys g :=
    fun v => hre.keys_perm.mem_iff
  obtain ⟨f0, d0, p0, hD0, hP0⟩ := Dijkstra_post exampleGraph "A" hnn hsum (by decide)
  obtain ⟨fuel, d, p, hD, hP⟩ := Dijkstra_post g "A" hnn' hsum' ((hkeys "A").mp (by decide))
  -- the values of the run in the order of the literal
  have hv := exampleGraph_values
  cases hr : Dijkstra 100 exampleGraph "A" with
  | none => rw [hr] at hv; cases hv
  | some r =>
    rw [hr] at hv
    have hr0 : r = (d0, p0) := Dijkstra_unique exampleGraph "A" 100 f0 r (d0, p0) hr hD0
    subst hr0
    simp only [Option.map_some', Option.some.injEq, List.map_cons, List.map_nil,
      List.cons.injEq, and_true] at hv
    obtain ⟨hA, hB, hC, hDd, hE, hF⟩ := hv
    have heq : ∀ v, v ∈ Graph.keys exampleGraph → d.getInt v = d0.getInt v := fun v hvk =>
      (hP0.getInt_eq_of_reordering hnn hsum hnn' hsum' (hre.path_iff hnd "A") hkeys hP v hvk).symm
    have eA := heq "A" (by decide)
    have eB := heq "B" (by decide)
    have eC := heq "C" (by decide)
    have eD := heq "D" (by decide)
    have eE := heq "E" (by decide)
    have eF := heq "F" (by decide)
    rw [hA] at eA; rw [hB] at eB; rw [hC] at eC; rw [hDd] at eD; rw [hE] at eE; rw [hF] at eF
    have hmax : MaxInt64 = 9223372036854775807 := rfl
    have key : ∀ v, v ∈ Graph.keys exampleGraph → d v = some (d.getInt v) :=
      fun v hvk => hP.dist_eq v ((hkeys v).mp hvk)
    -- the predecessor of a touched key is fixed by the tight edge into it
    have pred : ∀ b, b ∈ Graph.keys exampleGraph → b ≠ "A" → d.getInt b < MaxInt64 →
        ∃ a w, p b = some a ∧ (a, b, w) ∈ edgeList exampleGraph ∧
          d.getInt b = d.getInt a + w := by
      intro b hb hbs hlt
      obtain ⟨a, w, hpa, he, _, hdist⟩ := hP.lock_eq b ((hkeys b).mp hb) hbs hlt hnn'
      exact ⟨a, w, hpa, ((hre.edge hnd a b w).mpr he).mem_edgeList, hdist⟩
    refine ⟨fuel, d, p, hD, ?_, ?_⟩
    · refine ⟨?_, ?_, ?_, ?_, ?_, ?_⟩
      · rw [key "A" (by decide), eA]
      · rw [key "B" (by decide), eB]
      · rw [key "C" (by decide), eC]
      · rw [key "D" (by decide), eD]
      · rw [key "E" (by decide), eE]
      · rw [key "F" (by decide), eF]
    · refine ⟨?_, ?_, ?_, ?_, ?_⟩
      · obtain ⟨a, w, hpa, hm, hdist⟩ := pred "B" (by decide) (by decide) (by rw [eB, hmax]; decide)
        simp [edgeList, exampleGraph] at hm
        rcases hm with ⟨rfl, rfl⟩ | ⟨rfl, rfl⟩ | ⟨rfl, rfl⟩
        · exact hpa
        · omega
        · omega
      · obtain ⟨a, w, hpa, hm, hdist⟩ := pred "C" (by decide) (by decide) (by rw [eC, hmax]; decide)
        simp [edgeList, exampleGraph] at hm
        rcases hm with ⟨rfl, rfl⟩ | ⟨rfl, rfl⟩ | ⟨rfl, rfl⟩
        · omega
        · exact hpa
        · omega
      · obtain ⟨a, w, hpa, hm, hdist⟩ := pred "D" (by decide) (by decide) (by rw [eD, hmax]; decide)
        simp [edgeList, exampleGraph] at hm
        rcases hm with ⟨rfl, rfl⟩ | ⟨rfl, rfl⟩ | ⟨rfl, rfl⟩
        · omega
        · exact hpa
        · omega
      · obtain ⟨a, w, hpa, hm, hdist⟩ := pred "E" (by decide) (by decide) (by rw [eE, hmax]; decide)
        simp [edgeList, exampleGraph] at hm
        obtain ⟨rfl, rfl⟩ := hm
        exact hpa
      · exact hP.inv.untouched "F" ((hkeys "F").mp (by decide)) eF

/-! ## The claims -/

/-- C1: for a graph with non-negative weights whose sum is below `MaxInt64`, a
start key `s` and a key `v` reachable from `s`, `Dijkstra` returns, and the
distance it records for `v` is the weight of a path from `s` to `v` and is at
most the weight of every path from `s` to `v`. -/
theorem Dijkstra_shortest (g : Graph) (s v : String) (hnn : NonNeg g)
    (hsum : totalWeight g < MaxInt64) (hs : s ∈ Graph.keys g) (hv : v ∈ Graph.keys g)
    (hr : Reachable g s v) :
    ∃ fuel d p, Dijkstra fuel g s = some (d, p) ∧
      ∃ x, d v = some x ∧ (∃ l, Path g s l v x) ∧ ∀ l W, Path g s l v W → x ≤ W := by
  obtain ⟨fuel, d, p, hD, hP⟩ := Dijkstra_post g s hnn hsum hs
  refine ⟨fuel, d, p, hD, d.getInt v, hP.dist_eq v hv, ?_, ?_⟩
  · obtain ⟨vis, hw⟩ := hP.inv.wit v hv ((hP.reach_iff hnn hsum v hv).mpr hr)
    exact hw.to_path
  · intro l W hp
    exact (hP.path_le hnn hsum hp).2

/-- Witness of C1: the graph of `main`, from `A` to `B`. -/
theorem Dijkstra_shortest_witness :
    ∃ fuel d p, Dijkstra fuel exampleGraph "A" = some (d, p) ∧
      ∃ x, d "B" = some x ∧ (∃ l, Path exampleGraph "A" l "B" x) ∧
        ∀ l W, Path exampleGraph "A" l "B" W → x ≤ W :=
  Dijkstra_shortest exampleGraph "A" "B" (by decide) (by decide) (by decide) (by decide)
    ⟨["A"] ++ ["B"], 0 + 1, Path.snoc Path.nil ⟨[("B", 1), ("C", 4)], rfl, by decide⟩⟩

/-- C2: for every graph and start key, `Dijkstra` returns, and a key that is not
reachable from the start node keeps distance `MaxInt64` and predecessor `""`. -/
theorem Dijkstra_unreachable (g : Graph) (s v : String) (hs : s ∈ Graph.keys g)
    (hv : v ∈ Graph.keys g) (hr : ¬ Reachable g s v) :
    ∃ fuel d p, Dijkstra fuel g s = some (d, p) ∧ d v = some MaxInt64 ∧ p v = some "" := by
  obtain ⟨fuel, d, p, hD, hF⟩ := Dijkstra_frame g s hs
  refine ⟨fuel, d, p, hD, ?_, ?_⟩
  · rw [(hF v hr).1, initMaps_dist, if_pos hv]
  · rw [(hF v hr).2, initMaps_prev, if_pos hv]

/-- Witness of C2: the graph of `main`, where `F` cannot be reached from `A`. -/
theorem Dijkstra_unreachable_witness :
    ∃ fuel d p, Dijkstra fuel exampleGraph "A" = some (d, p) ∧
      d "F" = some MaxInt64 ∧ p "F" = some "" :=
  Dijkstra_unreachable exampleGraph "A" "F" (by decide) (by decide)
    (fun h => absurd h.start_or_target (by decide))

/-- C3, failing as stated: on a cycle whose weights overflow, `GetPath` returns
`[A, B]` with `true`; the one edge of that path weighs `MaxInt64 - 1`, while the
recorded distance of `B` is `-2`, which is the weight of no path. -/
theorem GetPath_valid_fails_on_overflow :
    NonNeg overflowGraph ∧ "A" ∈ Graph.keys overflowGraph ∧
    (Dijkstra 10 overflowGraph "A").map (fun r => (GetPath 10 r.2 "A" "B", r.1.getInt "B"))
      = some (some (["A", "B"], true), -2) ∧
    Path overflowGraph "A" ["A", "B"] "B" 9223372036854775806 ∧
    ¬ Path overflowGraph "A" ["A", "B"] "B" (-2) := by
  refine ⟨by decide, by decide, by decide, ?_, ?_⟩
  · show Path overflowGraph "A" (["A"] ++ ["B"]) "B" (0 + 9223372036854775806)
    exact Path.snoc Path.nil ⟨[("B", 9223372036854775806)], rfl, by decide⟩
  · intro h
    have := h.weight_nonneg (by decide)
    omega

/-- C3, amended: when the weights are non-negative and their sum is below
`MaxInt64`, `Dijkstra` and `GetPath` return, and every sequence `GetPath`
returns with `true` is a path of the graph from `s` to `e` whose edge weights
add up to the recorded distance of `e`. -/
theorem GetPath_valid (g : Graph) (s e : String) (hnn : NonNeg g)
    (hsum : totalWeight g < MaxInt64) (hs : s ∈ Graph.keys g) :
    ∃ fuel d p, Dijkstra fuel g s = some (d, p) ∧
      (∃ fuel' r, GetPath fuel' p s e = some r) ∧
      ∀ fuel' path, GetPath fuel' p s e = some (path, true) → Path g s path e (d.getInt e) := by
  obtain ⟨fuel, d, p, hD, hP⟩ := Dijkstra_post g s hnn hsum hs
  refine ⟨fuel, d, p, hD, ?_, ?_⟩
  · obtain ⟨k, hk⟩ := hP.getPath_walk_ends e
    exact GetPath.loop_of_ends p s k e hk []
  · intro fuel' path h
    obtain ⟨l, hl, hres⟩ := GetPath.loop_true p s fuel' [] e path (by simp) h
    rw [List.append_nil] at hres
    subst hres
    exact hl.to_weighted_path hnn hP

/-- Witness of the amended C3: the graph of `main`, from `A` to `E`. -/
theorem GetPath_valid_witness :
    ∃ fuel d p, Dijkstra fuel exampleGraph "A" = some (d, p) ∧
      (∃ fuel' r, GetPath fuel' p "A" "E" = some r) ∧
      ∀ fuel' path, GetPath fuel' p "A" "E" = some (path, true) →
        Path exampleGraph "A" path "E" (d.getInt "E") :=
  GetPath_valid exampleGraph "A" "E" (by decide) (by decide) (by decide)

/-- C4, failing as stated: a start node named `""` is never found again by the
backward walk, and a node whose only path has weight `MaxInt64` is reachable
but keeps the sentinel; in both graphs `B` is reachable and `GetPath` reports
`false`. -/
theorem GetPath_found_fails :
    (NonNeg emptyNameGraph ∧ "" ∈ Graph.keys emptyNameGraph ∧
      "B" ∈ Graph.keys emptyNameGraph ∧ Reachable emptyNameGraph "" "B" ∧
      (Dijkstra 10 emptyNameGraph "").map (fun r => GetPath 10 r.2 "" "B")
        = some (some ([], false))) ∧
    (NonNeg sentinelEdgeGraph ∧ "A" ∈ Graph.keys sentinelEdgeGraph ∧
      "B" ∈ Graph.keys sentinelEdgeGraph ∧ Reachable sentinelEdgeGraph "A" "B" ∧
      (Dijkstra 10 sentinelEdgeGraph "A").map (fun r => GetPath 10 r.2 "A" "B")
        = some (some ([], false))) :=
  ⟨⟨by decide, by decide, by decide,
      ⟨[""] ++ ["B"], 0 + 1, Path.snoc Path.nil ⟨[("B", 1)], rfl, by decide⟩⟩, by decide⟩,
   ⟨by decide, by decide, by decide,
      ⟨["A"] ++ ["B"], 0 + 9223372036854775807,
        Path.snoc Path.nil ⟨[("B", 9223372036854775807)], rfl, by decide⟩⟩,
      by decide⟩⟩

/-- C4, amended: when the weights are non-negative with sum below `MaxInt64`
and `""` is not a key reachable from `s`, then for a start key `s` and a key
`e` both functions return, `GetPath` reports `true` exactly when `e` is
reachable from `s`, and the sequence it then returns starts with `s` and ends
with `e`. -/
theorem GetPath_found_iff (g : Graph) (s e : String) (hnn : NonNeg g)
    (hsum : totalWeight g < MaxInt64) (hk : ¬ ("" ∈ Graph.keys g ∧ Reachable g s ""))
    (hs : s ∈ Graph.keys g) (he : e ∈ Graph.keys g) :
    ∃ fuel d p, Dijkstra fuel g s = some (d, p) ∧
      ∃ fuel' path found, GetPath fuel' p s e = some (path, found) ∧
        (found = true ↔ Reachable g s e) ∧
        (found = true → path.head? = some s ∧ path.getLast? = some e) := by
  obtain ⟨fuel, d, p, hD, hP⟩ := Dijkstra_post g s hnn hsum hs
  refine ⟨fuel, d, p, hD, ?_⟩
  by_cases hr : Reachable g s e
  · have hlt := (hP.reach_iff hnn hsum e he).mpr hr
    obtain ⟨fuel', l, hl, hhead, hlast⟩ :=
      hP.getPath_found hnn hsum hk (hP.inv.rooted e he hlt) he hlt []
    rw [List.append_nil] at hl
    exact ⟨fuel', l, true, hl, ⟨fun _ => hr, fun _ => rfl⟩, fun _ => ⟨hhead, hlast⟩⟩
  · refine ⟨1, [], false, ?_, ⟨fun h => (by cases h), fun h => absurd h hr⟩,
      fun h => (by cases h)⟩
    show GetPath.loop p s 1 [] e = _
    by_cases he0 : e = ""
    · subst he0
      rw [GetPath.loop_empty]
      simp
    · have hlt := (hP.reach_iff hnn hsum e he).not.mpr hr
      have hb : d.getInt e ≤ MaxInt64 := hP.inv.bounded e he
      have hp : p e = some "" := hP.inv.untouched e he (le_antisymm hb (not_lt.mp hlt))
      have hes : e ≠ s := fun h => hr (h ▸ Reachable.refl g s)
      rw [GetPath.loop_some p s 0 [] e "" he0 hes hp, GetPath.loop_empty]
      simp [hes]

/-- Witness of the amended C4: the graph of `main`, from `A` to `E`. -/
theorem GetPath_found_iff_witness :
    ∃ fuel d p, Dijkstra fuel exampleGraph "A" = some (d, p) ∧
      ∃ fuel' path found, GetPath fuel' p "A" "E" = some (path, found) ∧
        (found = true ↔ Reachable exampleGraph "A" "E") ∧
        (found = true → path.head? = some "A" ∧ path.getLast? = some "E") :=
  GetPath_found_iff exampleGraph "A" "E" (by decide) (by decide) (fun h => absurd h.1 (by decide))
    (by decide) (by decide)

/-- C5: on the graph of `main` with start `A` the distances are
`A=0, B=1, C=3, D=4, E=7, F=MaxInt64`, `GetPath` returns `[A, B, C, D, E]` for
`E`, reports no path for `F` and returns `[A]` for `A`: first evaluated in the
order of the literal, then for every iteration order of the map. -/
theorem example_run :
    ((Dijkstra 100 exampleGraph "A").map (fun r => ["A", "B", "C", "D", "E", "F"].map r.1)
        = some [some 0, some 1, some 3, some 4, some 7, some MaxInt64] ∧
      (Dijkstra 100 exampleGraph "A").map (fun r => GetPath 10 r.2 "A" "E")
        = some (some (["A", "B", "C", "D", "E"], true)) ∧
      (Dijkstra 100 exampleGraph "A").map (fun r => GetPath 10 r.2 "A" "F")
        = some (some ([], false)) ∧
      (Dijkstra 100 exampleGraph "A").map (fun r => GetPath 10 r.2 "A" "A")
        = some (some (["A"], true))) ∧
    ∀ g, Reordering exampleGraph g →
      ∃ fuel d p, Dijkstra fuel g "A" = some (d, p) ∧
        (d "A" = some 0 ∧ d "B" = some 1 ∧ d "C" = some 3 ∧ d "D" = some 4 ∧
          d "E" = some 7 ∧ d "F" = some MaxInt64) ∧
        GetPath 5 p "A" "E" = some (["A", "B", "C", "D", "E"], true) ∧
        GetPath 2 p "A" "F" = some ([], false) ∧
        GetPath 1 p "A" "A" = some (["A"], true) := by
  refine ⟨by decide, ?_⟩
  intro g hre
  obtain ⟨fuel, d, p, hD, hd, hB, hC, hDd, hE, hF⟩ := exampleGraph_any_order g hre
  refine ⟨fuel, d, p, hD, hd, ?_, ?_, ?_⟩
  · show GetPath.loop p "A" 5 [] "E" = _
    rw [GetPath.loop_some p "A" 4 [] "E" "D" (by decide) (by decide) hE,
      GetPath.loop_some p "A" 3 ["E"] "D" "C" (by decide) (by decide) hDd,
      GetPath.loop_some p "A" 2 ["D", "E"] "C" "B" (by decide) (by decide) hC,
      GetPath.loop_some p "A" 1 ["C", "D", "E"] "B" "A" (by decide) (by decide) hB,
      GetPath.loop_start p "A" 0 ["B", "C", "D", "E"] (by decide)]
  · show GetPath.loop p "A" 2 [] "F" = _
    rw [GetPath.loop_some p "A" 1 [] "F" "" (by decide) (by decide) hF, GetPath.loop_empty]
    decide
  · exact GetPath.loop_start p "A" 0 [] (by decide)

/-- C6, failing as stated: for the empty name the loop of `GetPath` is not
entered and the result is the failure `nil, false`, never `[""]` with `true`. -/
theorem GetPath_self_fails_on_empty_name :
    GetPath 0 GoMap.empty "" "" = some ([], false) ∧
    ¬ ∃ fuel, GetPath fuel GoMap.empty "" "" = some ([""], true) := by
  refine ⟨by decide, ?_⟩
  rintro ⟨fuel, h⟩
  simp only [GetPath] at h
  rw [GetPath.loop_empty] at h
  simp at h

/-- C6, amended: for every predecessor map and every node name `s` other than
`""`, `GetPath(previous, s, s)` returns `[s]` with `true` after one iteration. -/
theorem GetPath_self (previous : GoMap String) (s : String) (hs : s ≠ "") (fuel : Nat) :
    GetPath (fuel + 1) previous s s = some ([s], true) :=
  GetPath.loop_start previous s fuel [] hs

/-- Witness of the amended C6: the node `A` and the empty map. -/
theorem GetPath_self_witness : GetPath (0 + 1) GoMap.empty "A" "A" = some (["A"], true) :=
  GetPath_self GoMap.empty "A" (by decide) 0

/-- On the cycle `A → B → A` the backward walk uses up any fuel, for every start
node other than `A` and `B`. -/
theorem cyclePrev_loop (s : String) (hA : s ≠ "A") (hB : s ≠ "B") (fuel : Nat) :
    ∀ path, GetPath.loop cyclePrev s fuel path "A" = none ∧
      GetPath.loop cyclePrev s fuel path "B" = none := by
  induction fuel with
  | zero =>
    intro path
    constructor <;> rw [GetPath.loop_zero] <;> simp
  | succ n ih =>
    intro path
    constructor
    · rw [GetPath.loop_some cyclePrev s n path "A" "B" (by decide) (Ne.symm hA) (by decide)]
      exact (ih _).2
    · rw [GetPath.loop_some cyclePrev s n path "B" "A" (by decide) (Ne.symm hB) (by decide)]
      exact (ih _).1

/-- C7, failing as stated: on the two-node cycle `A → B → A` with start `C`,
`GetPath` returns for no amount of fuel: the backward walk never ends. -/
theorem GetPath_diverges_on_cycle :
    ¬ ∃ fuel r, GetPath fuel cyclePrev "C" "A" = some r := by
  rintro ⟨fuel, r, h⟩
  rw [GetPath, (cyclePrev_loop "C" (by decide) (by decide) fuel []).1] at h
  cases h

/-- C7, amended: `GetPath` returns exactly when the backward walk from the end
node meets the start node, the name `""`, or a node without an entry. -/
theorem GetPath_returns_iff (previous : GoMap String) (s e : String) :
    (∃ fuel r, GetPath fuel previous s e = some r) ↔ WalkEnds previous s e := by
  constructor
  · rintro ⟨fuel, r, h⟩
    exact GetPath.ends_of_loop previous s fuel [] e r h
  · rintro ⟨k, hk⟩
    exact GetPath.loop_of_ends previous s k e hk []

/-- C8: when the start node is not a key, `Dijkstra` returns without entering
the main loop (for every fuel, also zero); the distance map has exactly the
keys of the graph, each at `MaxInt64`, and the predecessor map has exactly the
keys of the graph, each at `""`. -/
theorem Dijkstra_missing_start (g : Graph) (s : String) (hs : s ∉ Graph.keys g) (fuel : Nat) :
    ∃ d p, Dijkstra fuel g s = some (d, p) ∧
      (∀ v, d v = if v ∈ Graph.keys g then some MaxInt64 else none) ∧
      (∀ v, p v = if v ∈ Graph.keys g then some "" else none) :=
  ⟨_, _, Dijkstra_of_not_key g s hs fuel, initMaps_dist g, initMaps_prev g⟩

/-- Witness of C8: the graph of `main` and the start node `Z`. -/
theorem Dijkstra_missing_start_witness :
    ∃ d p, Dijkstra 0 exampleGraph "Z" = some (d, p) ∧
      (∀ v, d v = if v ∈ Graph.keys exampleGraph then some MaxInt64 else none) ∧
      (∀ v, p v = if v ∈ Graph.keys exampleGraph then some "" else none) :=
  Dijkstra_missing_start exampleGraph "Z" (by decide) 0

/-- C9, failing as stated: for the start node `Z`, not a key of the graph of
`main`, the returned map has no entry for `Z`, and reading `distances["Z"]`
yields `0`, not `MaxInt64`. -/
theorem missing_start_not_sentinel :
    "Z" ∉ Graph.keys exampleGraph ∧
    (Dijkstra 0 exampleGraph "Z").map (fun r => (r.1 "Z", r.1.getInt "Z")) = some (none, 0) ∧
    (0 : Int) ≠ MaxInt64 := by
  decide

/-- C9, amended: when the start node is not a key, the returned distance map
has no entry for the start node (reading it yields the zero value `0`), and
every key of the graph is at `MaxInt64`. -/
theorem Dijkstra_missing_start_entry (g : Graph) (s : String) (hs : s ∉ Graph.keys g)
    (fuel : Nat) :
    ∃ d p, Dijkstra fuel g s = some (d, p) ∧ d s = none ∧ d.getInt s = 0 ∧
      ∀ v ∈ Graph.keys g, d v = some MaxInt64 := by
  refine ⟨(initMaps g).1, (initMaps g).2, Dijkstra_of_not_key g s hs fuel, ?_, ?_, ?_⟩
  · rw [initMaps_dist, if_neg hs]
  · simp only [GoMap.getInt]
    rw [initMaps_dist, if_neg hs]
    rfl
  · intro v hv
    rw [initMaps_dist, if_pos hv]

/-- Witness of the amended C9: the graph of `main` and the start node `Z`. -/
theorem Dijkstra_missing_start_entry_witness :
    ∃ d p, Dijkstra 0 exampleGraph "Z" = some (d, p) ∧ d "Z" = none ∧ d.getInt "Z" = 0 ∧
      ∀ v ∈ Graph.keys exampleGraph, d v = some MaxInt64 :=
  Dijkstra_missing_start_entry exampleGraph "Z" (by decide) 0

/-- The two diamond graphs hold the same map. -/
theorem diamond_reordering : Reordering diamondGraph diamondGraph' :=
  ⟨diamondGraph, List.Perm.refl _,
    List.Forall₂.cons ⟨rfl, List.Perm.swap _ _ _⟩
      (List.Forall₂.cons ⟨rfl, List.Perm.refl _⟩
        (List.Forall₂.cons ⟨rfl, List.Perm.refl _⟩
          (List.Forall₂.cons ⟨rfl, List.Perm.refl _⟩ List.Forall₂.nil)))⟩

/-- The two fork graphs hold the same map. -/
theorem fork_reordering : Reordering forkGraph forkGraph' :=
  ⟨forkGraph, List.Perm.refl _,
    List.Forall₂.cons ⟨rfl, List.Perm.swap _ _ _⟩
      (List.Forall₂.cons ⟨rfl, List.Perm.refl _⟩
        (List.Forall₂.cons ⟨rfl, List.Perm.refl _⟩ List.Forall₂.nil))⟩

/-- C10, failing as stated: ranging over the neighbours of `A` in the other
order changes the predecessor of `D` in a graph with two shortest paths of
equal weight, and changes the distances themselves in a graph whose weights
overflow. -/
theorem Dijkstra_depends_on_order :
    (Reordering diamondGraph diamondGraph' ∧ NonNeg diamondGraph ∧
      (Dijkstra 10 diamondGraph "A").map (fun r => r.2 "D") = some (some "B") ∧
      (Dijkstra 10 diamondGraph' "A").map (fun r => r.2 "D") = some (some "C")) ∧
    (Reordering forkGraph forkGraph' ∧ NonNeg forkGraph ∧
      (Dijkstra 20 forkGraph "A").map (fun r => (r.1 "B", r.1 "C"))
        = some (some (-1), some (-9223372036854775808)) ∧
      (Dijkstra 20 forkGraph' "A").map (fun r => (r.1 "B", r.1 "C"))
        = some (some (-9223372036854775808), some (-1))) :=
  ⟨⟨diamond_reordering, by decide, by decide, by decide⟩,
   ⟨fork_reordering, by decide, by decide, by decide⟩⟩

/-- C10, amended: when the weights are non-negative with sum below `MaxInt64`,
`Dijkstra` returns the same distance map for every iteration order of the
graph and of its adjacency maps. -/
theorem Dijkstra_distances_order_independent (g g' : Graph) (s : String)
    (hnd : (Graph.keys g).Nodup) (hre : Reordering g g') (hnn : NonNeg g)
    (hsum : totalWeight g < MaxInt64) :
    ∃ fuel fuel' d p d' p', Dijkstra fuel g s = some (d, p) ∧
      Dijkstra fuel' g' s = some (d', p') ∧ d = d' := by
  have hkeys : ∀ v, v ∈ Graph.keys g ↔ v ∈ Graph.keys g' := fun v => hre.keys_perm.mem_iff
  by_cases hs : s ∈ Graph.keys g
  · have hnn' := hre.preserves_nonneg hnn
    have hsum' : totalWeight g' < MaxInt64 := by rw [hre.total]; exact hsum
    obtain ⟨fuel, d, p, hD, hP⟩ := Dijkstra_post g s hnn hsum hs
    obtain ⟨fuel', d', p', hD', hP'⟩ := Dijkstra_post g' s hnn' hsum' ((hkeys s).mp hs)
    refine ⟨fuel, fuel', d, p, d', p', hD, hD', ?_⟩
    funext v
    by_cases hv : v ∈ Graph.keys g
    · rw [hP.dist_eq v hv, hP'.dist_eq v ((hkeys v).mp hv),
        hP.getInt_eq_of_reordering hnn hsum hnn' hsum' (hre.path_iff hnd s) hkeys hP' v hv]
    · have h1 := (hP.inv.distKeys v).not.mpr hv
      have h2 := (hP'.inv.distKeys v).not.mpr (fun h => hv ((hkeys v).mpr h))
      simp only at h1 h2
      cases hd : d v with
      | some x => simp [hd] at h1
      | none =>
        cases hd' : d' v with
        | some x => simp [hd'] at h2
        | none => rfl
  · have hs' : s ∉ Graph.keys g' := fun h => hs ((hkeys s).mpr h)
    refine ⟨0, 0, (initMaps g).1, (initMaps g).2, (initMaps g').1, (initMaps g').2,
      Dijkstra_of_not_key g s hs 0, Dijkstra_of_not_key g' s hs' 0, ?_⟩
    funext v
    rw [initMaps_dist, initMaps_dist]
    by_cases hv : v ∈ Graph.keys g
    · rw [if_pos hv, if_pos ((hkeys v).mp hv)]
    · rw [if_neg hv, if_neg (fun h => hv ((hkeys v).mpr h))]

/-- Witness of the amended C10: the two orders of the diamond graph. -/
theorem Dijkstra_distances_order_independent_witness :
    ∃ fuel fuel' d p d' p', Dijkstra fuel diamondGraph "A" = some (d, p) ∧
      Dijkstra fuel' diamondGraph' "A" = some (d', p') ∧ d = d' :=
  Dijkstra_distances_order_independent diamondGraph diamondGraph' "A" (by decide)
    diamond_reordering (by decide) (by decide)

/-! ## Heap order -/

theorem prio_Swap (h : priorityQueue) (i j k : Nat) (hi : i < h.length) (hj : j < h.length) :
    prio (h.Swap i j) k = if k = j then prio h i else if k = i then prio h j else prio h k := by
  simp only [prio, priorityQueue.Swap, List.getD_eq_getElem?_getD, List.getElem?_set,
    List.length_set]
  by_cases hkj : k = j
  · subst hkj
    simp [hj]
  · have hjk : ¬ j = k := fun e => hkj e.symm
    simp only [hjk, hkj, if_false]
    by_cases hki : k = i
    · subst hki
      simp [hi]
    · have hik : ¬ i = k := fun e => hki e.symm
      simp [hik, hki]

theorem Less_iff (h : priorityQueue) (i j : Nat) : h.Less i j = true ↔ prio h i < prio h j := by
  simp [priorityQueue.Less, prio]

theorem upLoop_heap (fuel : Nat) (h : priorityQueue) (j : Nat) (hf : j ≤ fuel)
    (hI : UpInv h j) : IsHeap (heap.upLoop fuel h j) := by
  induction fuel generalizing h j with
  | zero =>
    have hj : j = 0 := by omega
    subst hj
    intro k hk hlt
    exact hI.others k hk hlt (by omega)
  | succ n ih =>
    simp only [heap.upLoop]
    split
    · rename_i hc
      intro k hk hlt
      by_cases hkj : k = j
      · subst hkj
        rcases hc with hc | hc
        · omega
        · rw [Less_iff] at hc
          omega
      · exact hI.others k hk hlt hkj
    · rename_i hc
      have hij : (j - 1) / 2 ≠ j := fun e => hc (Or.inl e)
      have hless : prio h j < prio h ((j - 1) / 2) := by
        by_contra hn
        exact hc (Or.inr (by rw [Less_iff]; exact hn))
      have hj := hI.inRange
      have hi : (j - 1) / 2 < h.length := by omega
      have hj0 : 0 < j := by omega
      apply ih _ _ (by omega)
      have hP := fun k => prio_Swap h ((j - 1) / 2) j k hi hj
      constructor
      · rw [Swap_length]; exact hi
      · intro k hk hlt hki
        rw [Swap_length] at hlt
        rw [hP k, hP ((k - 1) / 2)]
        by_cases hkj : k = j
        · subst hkj
          simp only [if_true, hij, if_false]
          omega
        · have hpj : (k - 1) / 2 = j ∨ (k - 1) / 2 ≠ j := by omega
          simp only [hkj, hki, if_false]
          rcases hpj with hpj | hpj
          · simp only [hpj, if_true]
            exact hI.skip k hk hlt hpj hj0
          · simp only [hpj, if_false]
            have hold := hI.others k hk hlt hkj
            split
            · rename_i hpi
              rw [hpi] at hold
              omega
            · exact hold
      · intro k hk hlt hpi hi0
        rw [Swap_length] at hlt
        rw [hP k, hP (((j - 1) / 2 - 1) / 2)]
        have h1 : ¬ ((j - 1) / 2 - 1) / 2 = j := by omega
        have h2 : ¬ ((j - 1) / 2 - 1) / 2 = (j - 1) / 2 := by omega
        simp only [h1, h2, if_false]
        have hpar := hI.others ((j - 1) / 2) hi0 hi hij
        have hki : ¬ k = (j - 1) / 2 := by omega
        by_cases hkj : k = j
        · simp only [hkj, if_true]
          exact hpar
        · simp only [hkj, hki, if_false]
          have hold := hI.others k hk hlt hkj
          rw [hpi] at hold
          omega

theorem downLoop_heap (fuel : Nat) (h : priorityQueue) (i n : Nat) (hf : n - i ≤ fuel)
    (hI : DownInv h i n) : IsHeapUpTo n (heap.downLoop fuel h i n) := by
  induction fuel generalizing h i with
  | zero =>
    intro k hk hlt
    exact hI.others k hk hlt (by omega)
  | succ m ih =>
    simp only [heap.downLoop]
    by_cases h1 : 2 * i + 1 ≥ n
    · rw [if_pos h1]
      intro k hk hlt
      exact hI.others k hk hlt (by omega)
    · rw [if_neg h1]
      have hn := hI.inRange
      -- the smaller child
      obtain ⟨j, hj, hjdef, hjmin⟩ : ∃ j,
          (if 2 * i + 1 + 1 < n ∧ h.Less (2 * i + 1 + 1) (2 * i + 1) = true
            then 2 * i + 1 + 1 else 2 * i + 1) = j ∧
          (j = 2 * i + 1 ∨ j = 2 * i + 2) ∧ j < n ∧
          ∀ k, 0 < k → k < n → (k - 1) / 2 = i → prio h j ≤ prio h k := by
        by_cases hc : 2 * i + 1 + 1 < n ∧ h.Less (2 * i + 1 + 1) (2 * i + 1) = true
        · refine ⟨2 * i + 2, by rw [if_pos hc], Or.inr rfl, by omega, ?_⟩
          intro k hk hlt hp
          have hl := (Less_iff _ _ _).mp hc.2
          have hk2 : k = 2 * i + 1 ∨ k = 2 * i + 2 := by omega
          rcases hk2 with rfl | rfl
          · exact le_of_lt hl
          · exact le_refl _
        · refine ⟨2 * i + 1, by rw [if_neg hc], Or.inl rfl, by omega, ?_⟩
          intro k hk hlt hp
          have hk2 : k = 2 * i + 1 ∨ k = 2 * i + 2 := by omega
          rcases hk2 with rfl | rfl
          · exact le_refl _
          · have hl : ¬ prio h (2 * i + 1 + 1) < prio h (2 * i + 1) := by
              intro hl
              exact hc ⟨by omega, (Less_iff _ _ _).mpr hl⟩
            exact not_lt.mp hl
      simp only [hj]
      obtain ⟨hjn, hmin⟩ := hjmin
      by_cases hless : h.Less j i = true
      · have hnn : ¬ ¬ h.Less j i = true := fun e => e hless
        rw [if_neg hnn]
        rw [Less_iff] at hless
        have hi : i < h.length := by omega
        have hjl : j < h.length := by omega
        have hij : i ≠ j := by omega
        have hpj : (j - 1) / 2 = i := by omega
        apply ih _ _ (by omega)
        have hP := fun k => prio_Swap h i j k hi hjl
        constructor
        · rw [Swap_length]; exact hn
        · intro k hk hlt hpk
          rw [hP k, hP ((k - 1) / 2)]
          simp only [hpk, if_false]
          by_cases hpi : (k - 1) / 2 = i
          · simp only [hpi, if_true]
            have hki : ¬ k = i := by omega
            by_cases hkj : k = j
            · simp only [hkj, if_true]; omega
            · simp only [hkj, hki, if_false]
              exact hmin k hk hlt hpi
          · simp only [hpi, if_false]
            have hkj : ¬ k = j := by omega
            simp only [hkj, if_false]
            by_cases hki : k = i
            · subst hki
              simp only [if_true]
              exact hI.skip j (by omega) hjn hpj hk
            · simp only [hki, if_false]
              exact hI.others k hk hlt hpi
        · intro k hk hlt hpk hj0
          rw [hP k, hP ((j - 1) / 2)]
          have h1 : ¬ (j - 1) / 2 = j := by omega
          have hki : ¬ k = i := by omega
          have hkj : ¬ k = j := by omega
          simp only [h1, hpj, hki, hkj, if_false, if_true, if_neg hij]
          have := hI.others k hk hlt (by omega)
          rw [hpk] at this
          exact this
      · rw [if_pos hless]
        rw [Less_iff] at hless
        intro k hk hlt
        by_cases hp : (k - 1) / 2 = i
        · rw [hp]
          have := hmin k hk hlt hp
          omega
        · exact hI.others k hk hlt hp

theorem downLoop_prio (fuel : Nat) (h : priorityQueue) (i n : Nat) (hn : n ≤ h.length)
    (k : Nat) (hk : n ≤ k) : prio (heap.downLoop fuel h i n) k = prio h k := by
  induction fuel generalizing h i with
  | zero => rfl
  | succ m ih =>
    simp only [heap.downLoop]
    split_ifs with c1 c2 c3 c3 <;>
      first
      | rfl
      | (rw [ih _ _ (by rw [Swap_length]; exact hn), prio_Swap _ _ _ _ (by omega) (by omega)]
         rw [if_neg (by omega), if_neg (by omega)])

theorem prio_append_left (h l : priorityQueue) (k : Nat) (hk : k < h.length) :
    prio (h ++ l) k = prio h k := by
  simp [prio, List.getElem?_append_left hk]

theorem prio_take (h : priorityQueue) (n k : Nat) (hk : k < n) :
    prio (h.take n) k = prio h k := by
  simp [prio, List.getElem?_take, hk]

theorem IsHeap.root_le {h : priorityQueue} (hh : IsHeap h) (k : Nat) (hk : k < h.length) :
    prio h 0 ≤ prio h k := by
  induction k using Nat.strong_induction_on with
  | _ k ih =>
    by_cases h0 : k = 0
    · subst h0; exact le_refl _
    · have h1 := ih ((k - 1) / 2) (by omega) (by omega)
      have h2 := hh k (by omega) hk
      omega

theorem heapPush_isHeap (h : priorityQueue) (x : pqItem) (hh : IsHeap h) :
    IsHeap (heap.Push h x) := by
  have hlen : (h.Push x).Len - 1 = h.length := by
    simp [priorityQueue.Push, priorityQueue.Len]
  simp only [heap.Push, heap.up, hlen]
  apply upLoop_heap _ _ _ (Nat.le_refl _)
  constructor
  · simp [priorityQueue.Push]
  · intro k hk hlt hne
    have hlt' : k < h.length := by
      simp only [priorityQueue.Push, List.length_append, List.length_singleton] at hlt
      omega
    simp only [priorityQueue.Push]
    rw [prio_append_left _ _ _ hlt', prio_append_left _ _ _ (by omega)]
    exact hh k hk hlt'
  · intro k hk hlt hp _
    simp only [priorityQueue.Push, List.length_append, List.length_singleton] at hlt
    omega

theorem heapPop_isHeap (h : priorityQueue) (hh : IsHeap h) : IsHeap (heap.Pop h).2 := by
  by_cases hne : h = []
  · subst hne
    intro k hk hlt
    rw [heapPop_length] at hlt
    simp at hlt
  · have hpos : 0 < h.length := List.length_pos.mpr hne
    have hd : IsHeapUpTo (h.length - 1)
        (heap.downLoop (h.length - 1) (h.Swap 0 (h.length - 1)) 0 (h.length - 1)) := by
      apply downLoop_heap _ _ _ _ (by omega)
      constructor
      · rw [Swap_length]; omega
      · intro k hk hlt hp
        rw [prio_Swap _ _ _ _ hpos (by omega), prio_Swap _ _ _ _ hpos (by omega)]
        rw [if_neg (by omega), if_neg (by omega), if_neg (by omega), if_neg (by omega)]
        exact hh k hk (by omega)
      · intro k hk hlt hp h0
        omega
    intro k hk hlt
    rw [heapPop_length] at hlt
    simp only [heap.Pop, heap.down, priorityQueue.Pop, priorityQueue.Len, downLoop_length,
      Swap_length]
    rw [prio_take _ _ _ hlt, prio_take _ _ _ (by omega)]
    exact hd k hk hlt

theorem heapPop_priority (h : priorityQueue) (hne : h ≠ []) :
    (heap.Pop h).1.priority = prio h 0 := by
  have hpos : 0 < h.length := List.length_pos.mpr hne
  have e : (heap.Pop h).1.priority
      = prio (heap.downLoop (h.length - 1) (h.Swap 0 (h.length - 1)) 0 (h.length - 1))
          (h.length - 1) := by
    simp [heap.Pop, heap.down, priorityQueue.Pop, priorityQueue.Len, downLoop_length,
      Swap_length, prio]
  rw [e, downLoop_prio _ _ _ _ (by rw [Swap_length]; omega) _ (Nat.le_refl _),
    prio_Swap _ _ _ _ hpos (by omega), if_pos rfl]

/-- The item `heap.Pop` returns is least among the items of the queue. -/
theorem heapPop_min (h : priorityQueue) (hh : IsHeap h) (hne : h ≠ []) :
    ∀ x ∈ entries h, (heap.Pop h).1.priority ≤ x.2 := by
  intro x hx
  simp only [entries, List.mem_map] at hx
  obtain ⟨it, hit, rfl⟩ := hx
  obtain ⟨k, hk, rfl⟩ := List.getElem_of_mem hit
  rw [heapPop_priority h hne]
  have := hh.root_le k hk
  simpa [prio, pqItem.key, List.getElem?_eq_getElem hk] using this

theorem Reached.isHeap {h : priorityQueue} (hr : Reached h) : IsHeap h := by
  induction hr with
  | empty => intro k _ hlt; simp at hlt
  | push h x _ ih => exact heapPush_isHeap h x ih
  | pop h _ _ ih => exact heapPop_isHeap h ih

/-! ## Runs of the main loop -/

theorem Steps.trans {g : Graph} {a b c : State} (h1 : Steps g a b) (h2 : Steps g b c) :
    Steps g a c := by
  induction h2 with
  | start => exact h1
  | next _ hne ih => exact Steps.next ih hne

theorem mainLoop_steps (g : Graph) (fuel : Nat) (st st' : State)
    (h : mainLoop g fuel st = some st') : Steps g st st' := by
  induction fuel generalizing st with
  | zero =>
    simp only [mainLoop] at h
    split at h
    · simp at h
    · simp only [Option.some.injEq] at h
      subst h
      exact Steps.start
  | succ n ih =>
    simp only [mainLoop] at h
    split at h
    · rename_i hpos
      have hne : st.pq ≠ [] := by
        intro e; simp [priorityQueue.Len, e] at hpos
      exact (Steps.next Steps.start hne).trans (ih _ h)
    · simp only [Option.some.injEq] at h
      subst h
      exact Steps.start

/-- An invariant of the loop body holds at every loop head of a run. -/
theorem Steps.inv {g : Graph} (P : State → Prop)
    (hstep : ∀ st, P st → st.pq ≠ [] → P (step g st)) {st0 st : State} (h0 : P st0)
    (h : Steps g st0 st) : P st := by
  induction h with
  | start => exact h0
  | next _ hne ih => exact hstep _ ih hne

/-- Relaxing never raises a recorded value. -/
theorem relax_le (u : String) (st : State) (e : String × Int) (x : String) :
    (relax u st e).distances.getInt x ≤ st.distances.getInt x := by
  simp only [relax]
  split
  · rename_i hlt
    show (st.distances.set e.1 _).getInt x ≤ _
    by_cases hx : x = e.1
    · subst hx; rw [GoMap.getInt_set_self]; exact le_of_lt hlt
    · rw [GoMap.getInt_set_ne _ _ _ _ hx]
  · exact le_refl _

theorem foldl_relax_le (u : String) (nbrs : List (String × Int)) (st : State) (x : String) :
    (nbrs.foldl (relax u) st).distances.getInt x ≤ st.distances.getInt x := by
  induction nbrs generalizing st with
  | nil => exact le_refl _
  | cons e nbrs ih =>
    simp only [List.foldl_cons]
    exact le_trans (ih _) (relax_le u st e x)

/-- One loop step never raises a recorded value. -/
theorem step_le (g : Graph) (st : State) (x : String) :
    (step g st).distances.getInt x ≤ st.distances.getInt x := by
  simp only [step]
  split
  · exact le_refl _
  · split
    · exact foldl_relax_le _ _ _ x
    · exact le_refl _

theorem relax_QInv (u : String) (st : State) (e : String × Int) (hQ : QInv st) :
    QInv (relax u st e) := by
  simp only [relax]
  split
  · rename_i hlt
    have hle : ∀ x, (st.distances.set e.1 (wrap64 (st.distances.getInt u + e.2))).getInt x
        ≤ st.distances.getInt x := by
      intro x
      by_cases hx : x = e.1
      · subst hx; rw [GoMap.getInt_set_self]; exact le_of_lt hlt
      · rw [GoMap.getInt_set_ne _ _ _ _ hx]
    have hmax := hQ.leMax e.1
    constructor
    · exact heapPush_isHeap _ _ hQ.heap
    · intro x
      exact le_trans (hle x) (hQ.leMax x)
    · intro x hx
      change x ∈ entries (heap.Push st.pq _) at hx
      show (st.distances.set e.1 _).getInt x.1 ≤ _ ∧ _
      rw [mem_entries_heapPush] at hx
      rcases hx with rfl | hx
      · simp only [pqItem.key]
        rw [GoMap.getInt_set_self]
        exact ⟨le_refl _, by omega⟩
      · exact ⟨le_trans (hle _) (hQ.above x hx).1, (hQ.above x hx).2⟩
    · intro v
      show (entries (heap.Push st.pq _)).countP
        (fun x => decide (x = (v, (st.distances.set e.1 _).getInt v))) ≤ 1
      rw [(heapPush_entries _ _).countP_eq]
      simp only [pqItem.key]
      by_cases hv : v = e.1
      · subst hv
        rw [GoMap.getInt_set_self, List.countP_cons_of_pos _ _ (by simp)]
        have h0 : (entries st.pq).countP
            (fun x => decide (x = (e.1, wrap64 (st.distances.getInt u + e.2)))) = 0 := by
          rw [List.countP_eq_zero]
          intro x hmem hx
          have hx' : x = (e.1, wrap64 (st.distances.getInt u + e.2)) := by simpa using hx
          subst hx'
          have := (hQ.above _ hmem).1
          simp only at this
          omega
        omega
      · rw [GoMap.getInt_set_ne _ _ _ _ hv, List.countP_cons_of_neg]
        · exact hQ.once v
        · simp only [decide_eq_true_eq]
          intro heq
          exact hv (congrArg Prod.fst heq).symm
  · exact hQ

theorem foldl_relax_QInv (u : String) (nbrs : List (String × Int)) (st : State)
    (hQ : QInv st) : QInv (nbrs.foldl (relax u) st) := by
  induction nbrs generalizing st with
  | nil => exact hQ
  | cons e nbrs ih =>
    simp only [List.foldl_cons]
    exact ih _ (relax_QInv u st e hQ)

theorem count_le_of_heapPop (pq : priorityQueue) (hne : pq ≠ []) (a : String × Int) :
    (entries (heap.Pop pq).2).countP (fun x => decide (x = a))
      ≤ (entries pq).countP (fun x => decide (x = a)) := by
  rw [← (heapPop_entries pq hne).countP_eq, List.countP_cons]
  omega

theorem QInv.pop_qinv {st : State} (hQ : QInv st) (hne : st.pq ≠ []) :
    QInv { st with pq := (heap.Pop st.pq).2 } :=
  { heap := heapPop_isHeap _ hQ.heap
    leMax := hQ.leMax
    above := fun x hx => hQ.above x ((mem_entries_heapPop st.pq hne x).mpr (Or.inr hx))
    once := fun v => le_trans (count_le_of_heapPop st.pq hne _) (hQ.once v) }

theorem step_QInv (g : Graph) (st : State) (hQ : QInv st) (hne : st.pq ≠ []) :
    QInv (step g st) := by
  simp only [step]
  split
  · exact hQ.pop_qinv hne
  · split
    · exact foldl_relax_QInv _ _ _ (hQ.pop_qinv hne)
    · exact hQ.pop_qinv hne

theorem initState_QInv (g : Graph) (s : String) : QInv (initState g s) := by
  constructor
  · exact heapPush_isHeap _ _ (fun k _ hlt => by simp at hlt)
  · intro v
    rw [initState_getInt]
    split
    · decide
    · split
      · exact le_refl _
      · decide
  · intro x hx
    rw [initState_entries] at hx
    subst hx
    rw [initState_getInt]
    simp only [if_true]
    exact ⟨le_refl _, by decide⟩
  · intro v
    have hlen : (entries (initState g s).pq).length = 1 := by
      simp [entries, initState, heapPush_length]
    exact le_trans (List.countP_le_length _) (le_of_eq hlen)

theorem Steps.qinv {g : Graph} {s : String} {st : State}
    (h : Steps g (initState g s) st) : QInv st :=
  Steps.inv QInv (fun st hQ hne => step_QInv g st hQ hne) (initState_QInv g s) h

/-- The invariant of the non-overflowing case holds at every loop head. -/
theorem Steps.inv_of {g : Graph} {s : String} (hnn : NonNeg g) (hH : NoOverflow g s)
    (hs : s ∈ Graph.keys g) {st : State} (h : Steps g (initState g s) st) :
    Inv g s st ∧ Settled g st :=
  Steps.inv (fun st => Inv g s st ∧ Settled g st) (fun st hI hne => step_inv_of hnn hH st hI hne)
    (initState_inv g s hs) h

/-- An entry that passes the staleness test carries the recorded value of its
node. -/
theorem QInv.popped_eq {st : State} (hQ : QInv st) (hne : st.pq ≠ [])
    (hfresh : ¬ (heap.Pop st.pq).1.priority > st.distances.getInt (heap.Pop st.pq).1.node) :
    (heap.Pop st.pq).1.priority = st.distances.getInt (heap.Pop st.pq).1.node ∧
    (heap.Pop st.pq).1.priority < MaxInt64 := by
  have hmem : (heap.Pop st.pq).1.key ∈ entries st.pq :=
    (mem_entries_heapPop st.pq hne _).mpr (Or.inl rfl)
  have := hQ.above _ hmem
  simp only [pqItem.key] at this
  exact ⟨by omega, this.2⟩

/-! ## Finalised nodes -/

/-- Relaxing an edge out of a node that is not below any finalised node leaves
the finalised nodes as they are. -/
theorem relax_fin {g : Graph} (hnn : NonNeg g) (st : State) (u0 v : String) (w : Int)
    (he : Edge g u0 v w) (h0 : 0 ≤ st.distances.getInt u0)
    (hb : st.distances.getInt u0 + w ≤ MaxInt64)
    (hF : FInv g st) (hK : ∀ u, Final g st u → st.distances.getInt u ≤ st.distances.getInt u0) :
    FInv g (relax u0 st (v, w)) ∧
    (∀ u, Final g (relax u0 st (v, w)) u →
      (relax u0 st (v, w)).distances.getInt u ≤ (relax u0 st (v, w)).distances.getInt u0) ∧
    (∀ u, Final g st u → Final g (relax u0 st (v, w)) u ∧
      (relax u0 st (v, w)).distances.getInt u = st.distances.getInt u ∧
      (relax u0 st (v, w)).previous u = st.previous u) := by
  have hw0 : 0 ≤ w := he.nonneg_weight hnn
  have halt : wrap64 (st.distances.getInt u0 + w) = st.distances.getInt u0 + w :=
    wrap64_eq _ (by omega) (by unfold MaxInt64 at hb; omega)
  simp only [relax, halt]
  split
  · rename_i hlt
    have hvu0 : v ≠ u0 := by
      intro e; subst e; omega
    have hD0 : (st.distances.set v (st.distances.getInt u0 + w)).getInt u0
        = st.distances.getInt u0 := GoMap.getInt_set_ne _ _ _ _ (Ne.symm hvu0)
    -- a node finalised afterwards was finalised before, and is not `v`
    have hback : ∀ u, Final g (State.mk (st.distances.set v (st.distances.getInt u0 + w))
          (st.previous.set v u0)
          (heap.Push st.pq (pqItem.mk v (st.distances.getInt u0 + w) 0)))
          u → u ≠ v ∧ Final g st u := by
      intro u hu
      obtain ⟨hk, hlt', hnot⟩ := hu
      change (st.distances.set v _).getInt u < _ at hlt'
      change (u, (st.distances.set v _).getInt u) ∉ entries (heap.Push st.pq _) at hnot
      rw [mem_entries_heapPush] at hnot
      have huv : u ≠ v := by
        intro e
        subst e
        rw [GoMap.getInt_set_self] at hnot
        exact hnot (Or.inl rfl)
      rw [GoMap.getInt_set_ne _ _ _ _ huv] at hlt' hnot
      exact ⟨huv, hk, hlt', fun hm => hnot (Or.inr hm)⟩
    have hfwd : ∀ u, Final g st u → u ≠ v := by
      intro u hu e
      subst e
      have := hK u hu
      omega
    refine ⟨?_, ?_, ?_⟩
    · intro u hu x hx
      obtain ⟨huv, hu'⟩ := hback u hu
      show (st.distances.set v _).getInt u ≤ x.2
      rw [GoMap.getInt_set_ne _ _ _ _ huv]
      change x ∈ entries (heap.Push st.pq _) at hx
      rw [mem_entries_heapPush] at hx
      rcases hx with rfl | hx
      · have := hK u hu'
        simp only [pqItem.key]
        omega
      · exact hF u hu' x hx
    · intro u hu
      obtain ⟨huv, hu'⟩ := hback u hu
      show (st.distances.set v _).getInt u ≤ (st.distances.set v _).getInt u0
      rw [GoMap.getInt_set_ne _ _ _ _ huv, hD0]
      exact hK u hu'
    · intro u hu
      have huv := hfwd u hu
      refine ⟨⟨hu.1, ?_, ?_⟩, GoMap.getInt_set_ne _ _ _ _ huv, GoMap.set_ne _ _ _ _ huv⟩
      · show (st.distances.set v _).getInt u < _
        rw [GoMap.getInt_set_ne _ _ _ _ huv]; exact hu.2.1
      · show (u, (st.distances.set v _).getInt u) ∉ entries (heap.Push st.pq _)
        rw [GoMap.getInt_set_ne _ _ _ _ huv, mem_entries_heapPush]
        rintro (heq | hm)
        · exact huv (congrArg Prod.fst heq)
        · exact hu.2.2 hm
  · exact ⟨hF, hK, fun u hu => ⟨hu, rfl, rfl⟩⟩

/-- The neighbour loop of a node that is not below any finalised node leaves the
finalised nodes as they are. -/
theorem foldl_relax_fin {g : Graph} {s : String} (hnn : NonNeg g) (hH : NoOverflow g s)
    (u0 : String) (hu0 : u0 ∈ Graph.keys g) (nbrs : List (String × Int))
    (hn : ∀ e ∈ nbrs, Edge g u0 e.1 e.2) (st : State) (Q : String → Int → Prop)
    (hI : Inv g s st) (hP : Pend g st u0 Q) (huD : st.distances.getInt u0 < MaxInt64)
    (hF : FInv g st) (hK : ∀ u, Final g st u → st.distances.getInt u ≤ st.distances.getInt u0) :
    FInv g (nbrs.foldl (relax u0) st) ∧
    (∀ u, Final g st u → Final g (nbrs.foldl (relax u0) st) u ∧
      (nbrs.foldl (relax u0) st).distances.getInt u = st.distances.getInt u ∧
      (nbrs.foldl (relax u0) st).previous u = st.previous u) := by
  induction nbrs generalizing st Q with
  | nil => exact ⟨hF, fun u hu => ⟨hu, rfl, rfl⟩⟩
  | cons e nbrs ih =>
    obtain ⟨v, w⟩ := e
    simp only [List.foldl_cons]
    have hedge := hn (v, w) (List.mem_cons_self _ _)
    obtain ⟨vis, hw⟩ := hI.wit u0 hu0 huD
    have hb := hH _ _ _ _ _ hw.simple hedge
    obtain ⟨hI1, hP1, hD1⟩ := relax_inv_of hnn st u0 v w Q hI hP hu0 huD hedge hb
    obtain ⟨hF1, hK1, hfix1⟩ := relax_fin hnn st u0 v w hedge (hI.nonneg u0) hb hF hK
    obtain ⟨hF2, hfix2⟩ := ih (fun e he => hn e (List.mem_cons_of_mem _ he)) _ _ hI1 hP1
      (by rw [hD1]; exact huD) hF1 hK1
    refine ⟨hF2, ?_⟩
    intro u hu
    obtain ⟨hu1, hd1, hp1⟩ := hfix1 u hu
    obtain ⟨hu2, hd2, hp2⟩ := hfix2 u hu1
    exact ⟨hu2, by rw [hd2, hd1], by rw [hp2, hp1]⟩

/-- Popping keeps the finalised nodes finalised. -/
theorem Final.pop_final {g : Graph} {st : State} {u : String} (h : Final g st u) (hne : st.pq ≠ []) :
    Final g { st with pq := (heap.Pop st.pq).2 } u :=
  ⟨h.1, h.2.1, fun hm => h.2.2 ((mem_entries_heapPop st.pq hne _).mpr (Or.inr hm))⟩

/-- After a pop the queue still respects the finalised nodes, the popped node
included when its entry was fresh. -/
theorem FInv.pop_finv {g : Graph} {st : State} (hF : FInv g st) (hQ : QInv st) (hne : st.pq ≠ []) :
    FInv g { st with pq := (heap.Pop st.pq).2 } := by
  intro u hu x hx
  have hx' : x ∈ entries st.pq := (mem_entries_heapPop st.pq hne x).mpr (Or.inr hx)
  by_cases hfin : Final g st u
  · exact hF u hfin x hx'
  · obtain ⟨hk, hlt, hnot⟩ := hu
    have hmem : (u, st.distances.getInt u) ∈ entries st.pq := by
      by_contra hc
      exact hfin ⟨hk, hlt, hc⟩
    rcases (mem_entries_heapPop st.pq hne _).mp hmem with heq | hm
    · have hp : st.distances.getInt u = (heap.Pop st.pq).1.priority := congrArg Prod.snd heq
      show st.distances.getInt u ≤ x.2
      rw [hp]
      exact heapPop_min st.pq hQ.heap hne x hx'
    · exact absurd hm hnot

/-- The node of a fresh entry is finalised by its extraction. -/
theorem Final.of_fresh {g : Graph} {s : String} {st : State} (hI : Inv g s st) (hQ : QInv st)
    (hne : st.pq ≠ [])
    (hfresh : ¬ (heap.Pop st.pq).1.priority > st.distances.getInt (heap.Pop st.pq).1.node) :
    ¬ Final g st (heap.Pop st.pq).1.node ∧
    Final g { st with pq := (heap.Pop st.pq).2 } (heap.Pop st.pq).1.node := by
  have hmem : (heap.Pop st.pq).1.key ∈ entries st.pq :=
    (mem_entries_heapPop st.pq hne _).mpr (Or.inl rfl)
  obtain ⟨hk, hlt⟩ := hI.queue _ hmem
  have heq := (hQ.popped_eq hne hfresh).1
  have hkey : (heap.Pop st.pq).1.key
      = ((heap.Pop st.pq).1.node, st.distances.getInt (heap.Pop st.pq).1.node) := by
    simp only [pqItem.key, heq]
  rw [hkey] at hmem
  refine ⟨fun h => h.2.2 hmem, hk, hlt, ?_⟩
  intro hm
  have hc := hQ.once (heap.Pop st.pq).1.node
  rw [← (heapPop_entries st.pq hne).countP_eq, hkey, List.countP_cons_of_pos _ _ (by simp)] at hc
  have hpos : 0 < (entries (heap.Pop st.pq).2).countP
      (fun x => decide (x = ((heap.Pop st.pq).1.node,
        st.distances.getInt (heap.Pop st.pq).1.node))) :=
    List.countP_pos_iff.mpr ⟨_, hm, by simp⟩
  omega

/-- One iteration of the main loop keeps the invariant and leaves the finalised
nodes as they are. -/
theorem step_good {g : Graph} {s : String} (hnn : NonNeg g) (hH : NoOverflow g s)
    (st : State) (hG : Good g s st) (hne : st.pq ≠ []) :
    Good g s (step g st) ∧
    (∀ u, Final g st u → Final g (step g st) u ∧
      (step g st).distances.getInt u = st.distances.getInt u ∧
      (step g st).previous u = st.previous u) ∧
    (¬ (heap.Pop st.pq).1.priority > st.distances.getInt (heap.Pop st.pq).1.node →
      Final g (step g st) (heap.Pop st.pq).1.node ∧
      (step g st).distances.getInt (heap.Pop st.pq).1.node
        = st.distances.getInt (heap.Pop st.pq).1.node ∧
      (step g st).previous (heap.Pop st.pq).1.node = st.previous (heap.Pop st.pq).1.node) := by
  obtain ⟨hI, hS, hQ, hF⟩ := hG
  obtain ⟨hI', hS'⟩ := step_inv_of hnn hH st ⟨hI, hS⟩ hne
  have hQ' := step_QInv g st hQ hne
  have hI0 := hI.pop hne
  have hF0 := hF.pop_finv hQ hne
  have hit : (heap.Pop st.pq).1.key ∈ entries st.pq :=
    (mem_entries_heapPop st.pq hne _).mpr (Or.inl rfl)
  obtain ⟨huk, huD⟩ := hI.queue _ hit
  simp only [pqItem.key] at huk huD
  by_cases hstale : (heap.Pop st.pq).1.priority > st.distances.getInt (heap.Pop st.pq).1.node
  · have hstep : step g st = { st with pq := (heap.Pop st.pq).2 } := by
      simp only [step]
      rw [if_pos hstale]
    rw [hstep] at hI' hS' hQ' ⊢
    exact ⟨⟨hI', hS', hQ', hF0⟩, fun u hu => ⟨hu.pop_final hne, rfl, rfl⟩, fun h => absurd hstale h⟩
  · obtain ⟨nbrs, hn⟩ : ∃ nbrs, g.lookup (heap.Pop st.pq).1.node = some nbrs := by
      have := (lookup_isSome_iff g _).mpr huk
      cases hl : g.lookup (heap.Pop st.pq).1.node with
      | none => simp [hl] at this
      | some n => exact ⟨n, rfl⟩
    have hstep : step g st
        = nbrs.foldl (relax (heap.Pop st.pq).1.node) { st with pq := (heap.Pop st.pq).2 } := by
      simp only [step]
      rw [if_neg hstale]
      simp only [hn]
    have heq := (hQ.popped_eq hne hstale).1
    have hP0 : Pend g { st with pq := (heap.Pop st.pq).2 } (heap.Pop st.pq).1.node
        (fun _ _ => False) := by
      constructor
      · intro v hv hvD hvu
        rcases hS v hv hvD with hr | hq
        · exact Or.inl hr
        · rcases (mem_entries_heapPop st.pq hne _).mp hq with heq' | hq
          · exact absurd (congrArg Prod.fst heq') hvu
          · exact Or.inr hq
      · intro y w hq; exact hq.elim
    have hK0 : ∀ u, Final g { st with pq := (heap.Pop st.pq).2 } u →
        st.distances.getInt u ≤ st.distances.getInt (heap.Pop st.pq).1.node := by
      intro u hu
      by_cases hfin : Final g st u
      · have := hF u hfin _ hit
        simp only [pqItem.key] at this
        omega
      · obtain ⟨hk, hlt, hnot⟩ := hu
        have hmem : (u, st.distances.getInt u) ∈ entries st.pq := by
          by_contra hc
          exact hfin ⟨hk, hlt, hc⟩
        rcases (mem_entries_heapPop st.pq hne _).mp hmem with heq' | hm
        · have : u = (heap.Pop st.pq).1.node := congrArg Prod.fst heq'
          rw [this]
        · exact absurd hm hnot
    obtain ⟨hF1, hfix⟩ := foldl_relax_fin hnn hH (heap.Pop st.pq).1.node huk nbrs
      (fun e he => ⟨nbrs, hn, he⟩) _ _ hI0 hP0 huD hF0 hK0
    rw [hstep] at hI' hS' hQ' ⊢
    refine ⟨⟨hI', hS', hQ', hF1⟩, fun u hu => hfix u (hu.pop_final hne), fun _ => ?_⟩
    exact hfix _ (Final.of_fresh hI hQ hne hstale).2

theorem initState_good (g : Graph) (s : String) (hs : s ∈ Graph.keys g) :
    Good g s (initState g s) := by
  obtain ⟨hI, hS⟩ := initState_inv g s hs
  refine ⟨hI, hS, initState_QInv g s, ?_⟩
  intro u hu x hx
  obtain ⟨hk, hlt, hnot⟩ := hu
  exfalso
  rcases hS u hk hlt with hr | hq
  · rw [initState_getInt] at hlt
    have hus : u = s := by
      by_contra hne
      simp [hne, hk] at hlt
    subst hus
    apply hnot
    rw [initState_entries, initState_getInt]
    simp
  · exact hnot hq

theorem Steps.good {g : Graph} {s : String} (hnn : NonNeg g) (hH : NoOverflow g s)
    (hs : s ∈ Graph.keys g) {st : State} (h : Steps g (initState g s) st) : Good g s st :=
  Steps.inv (Good g s) (fun st hG hne => (step_good hnn hH st hG hne).1)
    (initState_good g s hs) h

/-- A finalised node stays finalised, with the same distance and predecessor,
at every later loop head. -/
theorem Steps.frozen {g : Graph} {s : String} (hnn : NonNeg g) (hH : NoOverflow g s)
    {st1 st2 : State} (hG : Good g s st1) (h : Steps g st1 st2) (u : String)
    (hu : Final g st1 u) :
    Good g s st2 ∧ Final g st2 u ∧ st2.distances.getInt u = st1.distances.getInt u ∧
      st2.previous u = st1.previous u := by
  induction h with
  | start => exact ⟨hG, hu, rfl, rfl⟩
  | next _ hne ih =>
    obtain ⟨hG2, hu2, hd2, hp2⟩ := ih
    obtain ⟨hG3, hfix, _⟩ := step_good hnn hH _ hG2 hne
    obtain ⟨hu3, hd3, hp3⟩ := hfix u hu2
    exact ⟨hG3, hu3, by rw [hd3, hd2], by rw [hp3, hp2]⟩

/-! ## Counting insertions -/

theorem relax_length (u : String) (st : State) (e : String × Int) :
    (relax u st e).pq.length = st.pq.length +
      (if wrap64 (st.distances.getInt u + e.2) < st.distances.getInt e.1 then 1 else 0) := by
  simp only [relax]
  split
  · exact heapPush_length _ _
  · rfl

theorem foldl_relax_length (u : String) (nbrs : List (String × Int)) (st : State) :
    (nbrs.foldl (relax u) st).pq.length = st.pq.length + pushesInFold u st nbrs := by
  induction nbrs generalizing st with
  | nil => rfl
  | cons e nbrs ih =>
    simp only [List.foldl_cons, pushesInFold]
    rw [ih, relax_length]
    omega

theorem pushesInFold_le (u : String) (nbrs : List (String × Int)) (st : State) :
    pushesInFold u st nbrs ≤ nbrs.length := by
  induction nbrs generalizing st with
  | nil => exact Nat.le_refl _
  | cons e nbrs ih =>
    simp only [pushesInFold, List.length_cons]
    have := ih (relax u st e)
    split <;> omega

/-- Each iteration removes one entry and adds its pushes. -/
theorem step_length (g : Graph) (st : State) (hne : st.pq ≠ []) :
    (step g st).pq.length + 1 = st.pq.length + pushesInStep g st := by
  have hlen : 0 < st.pq.length := List.length_pos.mpr hne
  by_cases hst : (heap.Pop st.pq).1.priority > st.distances.getInt (heap.Pop st.pq).1.node
  · simp only [step, pushesInStep, if_pos hst, heapPop_length]; omega
  · cases hl : g.lookup (heap.Pop st.pq).1.node with
    | none => simp only [step, pushesInStep, if_neg hst, hl, heapPop_length]; omega
    | some nbrs =>
      simp only [step, pushesInStep, if_neg hst, hl, foldl_relax_length, heapPop_length]; omega

theorem pushesInStep_le (g : Graph) (st : State) :
    pushesInStep g st ≤
      if (heap.Pop st.pq).1.priority > st.distances.getInt (heap.Pop st.pq).1.node then 0
      else degree g (heap.Pop st.pq).1.node := by
  simp only [pushesInStep, degree]
  split
  · exact Nat.le_refl _
  · split
    · exact pushesInFold_le _ _ _
    · exact Nat.zero_le _

/-- When the loop ends within `n` iterations, the pushes it made and the entries
it started with are at most `n`. -/
theorem pushesInRun_le (g : Graph) (n : Nat) (st st' : State)
    (h : mainLoop g n st = some st') : pushesInRun g n st + st.pq.length ≤ n := by
  induction n generalizing st with
  | zero =>
    simp only [mainLoop] at h
    split at h
    · simp at h
    · rename_i hz
      simp only [priorityQueue.Len] at hz
      simp only [pushesInRun]
      omega
  | succ n ih =>
    simp only [mainLoop] at h
    simp only [pushesInRun]
    split at h
    · rename_i hpos
      rw [if_pos hpos]
      have hne : st.pq ≠ [] := by
        intro e; simp [priorityQueue.Len, e] at hpos
      have h1 := ih _ h
      have h2 := step_length g st hne
      omega
    · rename_i hz
      rw [if_neg hz]
      simp only [priorityQueue.Len] at hz
      omega

theorem degree_cons_ne (k : String) (n : List (String × Int)) (g : Graph) (x : String)
    (h : x ≠ k) : degree ((k, n) :: g) x = degree g x := by
  have hb : (x == k) = false := by simpa using h
  simp [degree, List.lookup_cons, hb]

theorem degree_cons_self (k : String) (n : List (String × Int)) (g : Graph) :
    degree ((k, n) :: g) k = n.length := by
  simp [degree]

/-- Distinct keys own disjoint parts of the edges. -/
theorem sum_degree_le (g : Graph) (vis : List String) (hnd : vis.Nodup) :
    (vis.map (degree g)).sum ≤ edgeCount g := by
  induction g generalizing vis with
  | nil =>
    have : vis.map (degree []) = vis.map fun _ => 0 := by
      apply List.map_congr_left; intro x _; rfl
    rw [this]
    simp [edgeCount]
  | cons e g ih =>
    obtain ⟨k, n⟩ := e
    have htot : edgeCount ((k, n) :: g) = n.length + edgeCount g := by
      simp [edgeCount]
    rw [htot]
    by_cases hk : k ∈ vis
    · have hp := List.perm_cons_erase hk
      have hs : (vis.map (degree ((k, n) :: g))).sum
          = ((k :: vis.erase k).map (degree ((k, n) :: g))).sum :=
        (hp.map _).sum_eq
      rw [hs, List.map_cons, List.sum_cons, degree_cons_self]
      have hc : (vis.erase k).map (degree ((k, n) :: g)) = (vis.erase k).map (degree g) := by
        apply List.map_congr_left
        intro x hx
        exact degree_cons_ne k n g x ((hnd.mem_erase_iff.mp hx).1)
      rw [hc]
      have := ih (vis.erase k) (hnd.erase k)
      omega
    · have hc : vis.map (degree ((k, n) :: g)) = vis.map (degree g) := by
        apply List.map_congr_left
        intro x hx
        exact degree_cons_ne k n g x (fun e => hk (e ▸ hx))
      rw [hc]
      have := ih vis hnd
      omega

theorem sum_map_drop (l : List String) (f f' : String → Nat) (u : String) (c : Nat)
    (hle : ∀ x ∈ l, f' x ≤ f x) (hu : u ∈ l) (hc : f' u + c ≤ f u) :
    (l.map f').sum + c ≤ (l.map f).sum := by
  induction l with
  | nil => simp at hu
  | cons a l ih =>
    simp only [List.map_cons, List.sum_cons]
    have htail : (l.map f').sum ≤ (l.map f).sum :=
      List.sum_le_sum fun x hx => hle x (List.mem_cons_of_mem _ hx)
    rcases List.mem_cons.mp hu with rfl | hu'
    · omega
    · have := ih (fun x hx => hle x (List.mem_cons_of_mem _ hx)) hu'
      have := hle a (List.mem_cons_self _ _)
      omega

theorem potential_init (g : Graph) (s : String) :
    potential g (initState g s) ≤ 1 + edgeCount g := by
  have hlen : (initState g s).pq.length = 1 := by simp [initState, heapPush_length]
  have h1 : ((Graph.keys g).dedup.map fun u =>
      if Final g (initState g s) u then 0 else degree g u).sum
      ≤ ((Graph.keys g).dedup.map (degree g)).sum := by
    apply List.sum_le_sum
    intro x _
    split
    · exact Nat.zero_le _
    · exact Nat.le_refl _
  have h2 := sum_degree_le g (Graph.keys g).dedup (List.nodup_dedup _)
  simp only [potential, hlen]
  omega

/-- Every iteration lowers the potential. -/
theorem potential_step {g : Graph} {s : String} (hnn : NonNeg g) (hH : NoOverflow g s)
    (st : State) (hG : Good g s st) (hne : st.pq ≠ []) :
    potential g (step g st) + 1 ≤ potential g st := by
  obtain ⟨_, hfix, hnew⟩ := step_good hnn hH st hG hne
  have hlen := step_length g st hne
  have hpush := pushesInStep_le g st
  have hmono : ∀ x ∈ (Graph.keys g).dedup,
      (if Final g (step g st) x then 0 else degree g x) ≤ (if Final g st x then 0 else degree g x) := by
    intro x _
    by_cases hx : Final g st x
    · rw [if_pos hx, if_pos (hfix x hx).1]
    · rw [if_neg hx]
      split
      · exact Nat.zero_le _
      · exact Nat.le_refl _
  simp only [potential]
  by_cases hstale : (heap.Pop st.pq).1.priority > st.distances.getInt (heap.Pop st.pq).1.node
  · rw [if_pos hstale] at hpush
    have := List.sum_le_sum hmono
    omega
  · rw [if_neg hstale] at hpush
    obtain ⟨hnot, hfin0⟩ := Final.of_fresh hG.inv hG.qinv hne hstale
    have hfin := (hnew hstale).1
    have hmem : (heap.Pop st.pq).1.node ∈ (Graph.keys g).dedup := List.mem_dedup.mpr hfin.1
    have := sum_map_drop (Graph.keys g).dedup
      (fun u => if Final g st u then 0 else degree g u)
      (fun u => if Final g (step g st) u then 0 else degree g u)
      (heap.Pop st.pq).1.node (degree g (heap.Pop st.pq).1.node) hmono hmem
      (by simp only [if_pos hfin, if_neg hnot]; omega)
    omega

/-- The loop ends within any number of iterations that bounds a measure which
every iteration lowers. -/
theorem mainLoop_terminates_of (g : Graph) (P : State → Prop) (μ : State → Nat)
    (hstep : ∀ st, P st → st.pq ≠ [] → P (step g st) ∧ μ (step g st) + 1 ≤ μ st)
    (fuel : Nat) (st : State) (hP : P st) (h : μ st ≤ fuel) (hz : μ st = 0 → st.pq = []) :
    ∃ st', mainLoop g fuel st = some st' := by
  induction fuel generalizing st with
  | zero =>
    have : st.pq = [] := hz (by omega)
    exact ⟨st, by simp [mainLoop, priorityQueue.Len, this]⟩
  | succ n ih =>
    simp only [mainLoop]
    split
    · rename_i hpos
      have hne : st.pq ≠ [] := by
        intro e; simp [priorityQueue.Len, e] at hpos
      obtain ⟨hP', hμ⟩ := hstep st hP hne
      refine ih _ hP' (by omega) ?_
      intro h0
      by_contra hne'
      have := (hstep _ hP' hne').2
      omega
    · exact ⟨st, rfl⟩

/-- Without overflow the main loop ends within `1 + edgeCount g` iterations. -/
theorem mainLoop_bounded {g : Graph} {s : String} (hnn : NonNeg g) (hH : NoOverflow g s)
    (hs : s ∈ Graph.keys g) :
    ∃ st', mainLoop g (1 + edgeCount g) (initState g s) = some st' := by
  apply mainLoop_terminates_of g (Good g s) (potential g)
    (fun st hG hne => ⟨(step_good hnn hH st hG hne).1, potential_step hnn hH st hG hne⟩)
    _ _ (initState_good g s hs) (potential_init g s)
  intro h0
  simp only [potential] at h0
  have : (initState g s).pq.length = 0 := by omega
  exact List.length_eq_zero.mp this

/-! ## Predecessors along a run -/

theorem lookup_of_key (g : Graph) (s : String) (hs : s ∈ Graph.keys g) :
    ∃ n, g.lookup s = some n := by
  have := (lookup_isSome_iff g s).mpr hs
  cases h : g.lookup s with
  | none => simp [h] at this
  | some n => exact ⟨n, rfl⟩

/-- A result of `Dijkstra` for a start key is the final state of the main
loop. -/
theorem Dijkstra_run (g : Graph) (s : String) (hs : s ∈ Graph.keys g) (fuel : Nat)
    (d : GoMap Int) (p : GoMap String) (h : Dijkstra fuel g s = some (d, p)) :
    ∃ st', mainLoop g fuel (initState g s) = some st' ∧ st'.distances = d ∧ st'.previous = p := by
  obtain ⟨n, hn⟩ := lookup_of_key g s hs
  simp only [Dijkstra, hn] at h
  cases hm : mainLoop g fuel (initState g s) with
  | none => simp [hm] at h
  | some st' =>
    simp only [hm, Option.map_some', Option.some.injEq, Prod.mk.injEq] at h
    exact ⟨st', rfl, h.1, h.2⟩

theorem Dijkstra_of_run (g : Graph) (s : String) (hs : s ∈ Graph.keys g) (fuel : Nat)
    (st' : State) (h : mainLoop g fuel (initState g s) = some st') :
    Dijkstra fuel g s = some (st'.distances, st'.previous) := by
  obtain ⟨n, hn⟩ := lookup_of_key g s hs
  simp only [Dijkstra, hn, h, Option.map_some']

/-- Relaxing changes a predecessor only together with a strict decrease of the
recorded value. -/
theorem relax_prev (u : String) (st : State) (e : String × Int) (x : String) :
    (relax u st e).previous x = st.previous x ∨
      (relax u st e).distances.getInt x < st.distances.getInt x := by
  simp only [relax]
  split
  · rename_i hlt
    by_cases hx : x = e.1
    · right
      subst hx
      show (st.distances.set e.1 _).getInt e.1 < _
      rw [GoMap.getInt_set_self]
      exact hlt
    · left
      exact GoMap.set_ne _ _ _ _ hx
  · left; rfl

theorem foldl_relax_prev (u : String) (nbrs : List (String × Int)) (st : State) (x : String) :
    (nbrs.foldl (relax u) st).previous x = st.previous x ∨
      (nbrs.foldl (relax u) st).distances.getInt x < st.distances.getInt x := by
  induction nbrs generalizing st with
  | nil => left; rfl
  | cons e nbrs ih =>
    simp only [List.foldl_cons]
    have h1 := relax_prev u st e x
    have h2 := relax_le u st e x
    have h3 := foldl_relax_le u nbrs (relax u st e) x
    rcases ih (relax u st e) with h | h
    · rcases h1 with h1 | h1
      · left; rw [h, h1]
      · right; omega
    · right; omega

theorem step_prev (g : Graph) (st : State) (x : String) :
    (step g st).previous x = st.previous x ∨
      (step g st).distances.getInt x < st.distances.getInt x := by
  simp only [step]
  split
  · left; rfl
  · split
    · exact foldl_relax_prev _ _ _ x
    · left; rfl

/-- The neighbour loop leaves the entries of the nodes it does not name. -/
theorem foldl_relax_other (u : String) (nbrs : List (String × Int)) (st : State) (x : String)
    (h : ∀ e ∈ nbrs, e.1 ≠ x) :
    (nbrs.foldl (relax u) st).distances.getInt x = st.distances.getInt x := by
  induction nbrs generalizing st with
  | nil => rfl
  | cons e nbrs ih =>
    simp only [List.foldl_cons]
    rw [ih _ fun e' he' => h e' (List.mem_cons_of_mem _ he')]
    have hx : x ≠ e.1 := fun hxe => h e (List.mem_cons_self _ _) hxe.symm
    simp only [relax]
    split
    · exact GoMap.getInt_set_ne _ _ _ _ hx
    · rfl

/-- The start node keeps the predecessor `""` at every loop head. -/
theorem Steps.prev_start {g : Graph} {s : String} (hnn : NonNeg g) (hH : NoOverflow g s)
    (hs : s ∈ Graph.keys g) {st : State} (h : Steps g (initState g s) st) :
    st.previous s = some "" := by
  have := Steps.inv (fun st => (Inv g s st ∧ Settled g st) ∧ st.previous s = some "")
    (fun st hP hne => by
      have hI' := step_inv_of hnn hH st hP.1 hne
      refine ⟨hI', ?_⟩
      rcases step_prev g st s with h | h
      · rw [h]; exact hP.2
      · have h1 := hI'.1.start
        have h2 := hP.1.1.start
        omega)
    (show (Inv g s (initState g s) ∧ Settled g (initState g s)) ∧
        (initState g s).previous s = some "" from
      ⟨initState_inv g s hs, by simp only [initState]; rw [initMaps_prev, if_pos hs]⟩) h
  exact this.2

/-- The final maps of a run without overflow: the invariant, and the start node
without predecessor. -/
theorem Dijkstra_final (g : Graph) (s : String) (hnn : NonNeg g)
    (hsum : totalWeight g < MaxInt64) (hs : s ∈ Graph.keys g) :
    ∃ fuel d p, Dijkstra fuel g s = some (d, p) ∧ Post g s d p ∧ p s = some "" := by
  obtain ⟨fuel, d, p, hD, hP⟩ := Dijkstra_post g s hnn hsum hs
  obtain ⟨st', hrun, hd, hp⟩ := Dijkstra_run g s hs fuel d p hD
  have := Steps.prev_start hnn (noOverflow_of_total s hnn hsum) hs (mainLoop_steps g fuel _ _ hrun)
  rw [hp] at this
  exact ⟨fuel, d, p, hD, hP, this⟩

/-! ## Relaxation points -/

/-- At every relaxation, whatever the weights: the recorded value of the
expanded node is at most the priority of the extracted entry, which is below
the sentinel; the two are equal as long as no entry of the node for itself has
been handled. -/
theorem Relaxing.general {g : Graph} {s : String} {st : State} {u : String} {p : Int}
    {pre : List (String × Int)} {e : String × Int} (h : Relaxing g s st u p pre e) :
    st.distances.getInt u ≤ p ∧ p < MaxInt64 ∧
      ((∀ x ∈ pre, x.1 ≠ u) → st.distances.getInt u = p) := by
  obtain ⟨_, st0, post, hsteps, hne, hu, hp, hfresh, _, hst⟩ := h
  subst hu hp hst
  obtain ⟨h1, h2⟩ := (Steps.qinv hsteps).popped_eq hne hfresh
  refine ⟨?_, h2, ?_⟩
  · have := foldl_relax_le (heap.Pop st0.pq).1.node pre
      { st0 with pq := (heap.Pop st0.pq).2 } (heap.Pop st0.pq).1.node
    simp only at this
    omega
  · intro hx
    rw [foldl_relax_other _ _ _ _ hx]
    exact h1.symm

/-- At every relaxation of a run without overflow the invariant holds, and the
recorded value of the expanded node is the priority of the extracted entry. -/
theorem Relaxing.exact {g : Graph} {s : String} (hnn : NonNeg g) (hH : NoOverflow g s)
    {st : State} {u : String} {p : Int} {pre : List (String × Int)} {e : String × Int}
    (h : Relaxing g s st u p pre e) :
    Inv g s st ∧ u ∈ Graph.keys g ∧ Edge g u e.1 e.2 ∧ st.distances.getInt u = p ∧
      p < MaxInt64 := by
  obtain ⟨hs, st0, post, hsteps, hne, hu, hp, hfresh, hl, hst⟩ := h
  subst hu hp hst
  obtain ⟨h1, h2⟩ := (Steps.qinv hsteps).popped_eq hne hfresh
  obtain ⟨hI, hS⟩ := Steps.inv_of hnn hH hs hsteps
  have hI0 := hI.pop hne
  have hit : (heap.Pop st0.pq).1.key ∈ entries st0.pq :=
    (mem_entries_heapPop st0.pq hne _).mpr (Or.inl rfl)
  obtain ⟨huk, huD⟩ := hI.queue _ hit
  simp only [pqItem.key] at huk huD
  have hP0 : Pend g { st0 with pq := (heap.Pop st0.pq).2 } (heap.Pop st0.pq).1.node
      (fun _ _ => False) := by
    constructor
    · intro v hv hvD hvu
      rcases hS v hv hvD with hr | hq
      · exact Or.inl hr
      · rcases (mem_entries_heapPop st0.pq hne _).mp hq with heq | hq
        · exact absurd (congrArg Prod.fst heq) hvu
        · exact Or.inr hq
    · intro y w hq; exact hq.elim
  obtain ⟨hI1, _, hD1⟩ := foldl_relax_inv_of hnn hH (heap.Pop st0.pq).1.node huk pre
    (fun e' he' => ⟨_, hl, List.mem_append_left _ he'⟩) _ _ hI0 hP0 huD
  refine ⟨hI1, huk, ⟨_, hl, by simp⟩, ?_, h2⟩
  rw [hD1]
  exact h1.symm

/-- In a run without overflow no relaxation sum leaves the range from `0` to
`MaxInt64`. -/
theorem Relaxing.sum_bounds {g : Graph} {s : String} (hnn : NonNeg g) (hH : NoOverflow g s)
    {st : State} {u : String} {p : Int} {pre : List (String × Int)} {e : String × Int}
    (h : Relaxing g s st u p pre e) :
    0 ≤ st.distances.getInt u + e.2 ∧ st.distances.getInt u + e.2 ≤ MaxInt64 := by
  obtain ⟨hI, huk, he, hp, hlt⟩ := h.exact hnn hH
  have h0 := hI.nonneg u
  have hw := he.nonneg_weight hnn
  refine ⟨by omega, ?_⟩
  obtain ⟨vis, hvis⟩ := hI.wit u huk (by omega)
  exact hH vis u _ e.1 e.2 hvis.simple he

/-! ## Expansions -/

/-- A finalised node is not expanded again. -/
theorem expansionsInRun_final {g : Graph} {s : String} (hnn : NonNeg g) (hH : NoOverflow g s)
    (u : String) (fuel : Nat) (st : State) (hG : Good g s st) (hu : Final g st u) :
    expansionsInRun g u fuel st = 0 := by
  induction fuel generalizing st with
  | zero => rfl
  | succ n ih =>
    simp only [expansionsInRun]
    split
    · rename_i hpos
      have hne : st.pq ≠ [] := by
        intro e; simp [priorityQueue.Len, e] at hpos
      obtain ⟨hG', hfix, _⟩ := step_good hnn hH st hG hne
      rw [ih _ hG' (hfix u hu).1]
      have : ¬ ((heap.Pop st.pq).1.node = u ∧
          ¬ (heap.Pop st.pq).1.priority > st.distances.getInt (heap.Pop st.pq).1.node) := by
        rintro ⟨h1, h2⟩
        have := (Final.of_fresh hG.inv hG.qinv hne h2).1
        rw [h1] at this
        exact this hu
      rw [if_neg this]
    · rfl

/-- In a run without overflow every node is expanded at most once. -/
theorem expansionsInRun_le_one {g : Graph} {s : String} (hnn : NonNeg g) (hH : NoOverflow g s)
    (u : String) (fuel : Nat) (st : State) (hG : Good g s st) :
    expansionsInRun g u fuel st ≤ 1 := by
  induction fuel generalizing st with
  | zero => exact Nat.zero_le _
  | succ n ih =>
    simp only [expansionsInRun]
    split
    · rename_i hpos
      have hne : st.pq ≠ [] := by
        intro e; simp [priorityQueue.Len, e] at hpos
      obtain ⟨hG', _, hnew⟩ := step_good hnn hH st hG hne
      split
      · rename_i hex
        have hfin := (hnew hex.2).1
        rw [hex.1] at hfin
        rw [expansionsInRun_final hnn hH u n _ hG' hfin]
      · have := ih _ hG'
        omega
    · exact Nat.zero_le _

/-- In a run without overflow the pushes of the loop and the entries still
queued stay within the potential. -/
theorem pushesInRun_le_potential {g : Graph} {s : String} (hnn : NonNeg g)
    (hH : NoOverflow g s) (fuel : Nat) (st : State) (hG : Good g s st) :
    pushesInRun g fuel st + st.pq.length ≤ potential g st := by
  induction fuel generalizing st with
  | zero => simp only [pushesInRun, potential]; omega
  | succ n ih =>
    simp only [pushesInRun]
    split
    · rename_i hpos
      have hne : st.pq ≠ [] := by
        intro e; simp [priorityQueue.Len, e] at hpos
      have h1 := ih _ (step_good hnn hH st hG hne).1
      have h2 := step_length g st hne
      have h3 := potential_step hnn hH st hG hne
      omega
    · simp only [potential]; omega

/-! ## Configurations of the backward walk -/

theorem WalkState.head_ne {p : GoMap String} {s e : String} {path : List String}
    {curr : String} (h : WalkState p s e path curr) : path.head? ≠ some s := by
  cases h with
  | init => simp
  | next _ _ hs _ => simpa using hs

/-- The result computed from a configuration of the walk is the result of
`GetPath`. -/
theorem WalkState.result {p : GoMap String} {s e : String} {path : List String}
    {curr : String} (h : WalkState p s e path curr) (fuel : Nat) (r : List String × Bool)
    (hr : GetPath.loop p s fuel path curr = some r) :
    ∃ fuel', GetPath fuel' p s e = some r := by
  induction h generalizing fuel with
  | init => exact ⟨fuel, hr⟩
  | @next path curr prev _ h0 hs hp ih =>
    apply ih (fuel + 1)
    rw [GetPath.loop_some p s fuel path curr prev h0 hs hp]
    exact hr

/-- A `true` result is returned from a configuration whose current node is the
start node. -/
theorem WalkState.of_true {p : GoMap String} {s e : String} (fuel : Nat) (path : List String)
    (curr : String) (res : List String) (hw : WalkState p s e path curr)
    (h : GetPath.loop p s fuel path curr = some (res, true)) :
    ∃ path', WalkState p s e path' s ∧ s ≠ "" ∧ res = s :: path' := by
  induction fuel generalizing path curr with
  | zero =>
    rw [GetPath.loop_zero] at h
    by_cases hc : curr = ""
    · simp [hc, hw.head_ne] at h
    · simp [hc] at h
  | succ n ih =>
    by_cases hc : curr = ""
    · subst hc
      rw [GetPath.loop_empty] at h
      simp [hw.head_ne] at h
    · by_cases hs : curr = s
      · subst hs
        rw [GetPath.loop_start p curr n path hc] at h
        simp only [Option.some.injEq, Prod.mk.injEq, and_true] at h
        exact ⟨path, hw, hc, h.symm⟩
      · cases hp : p curr with
        | none =>
          rw [GetPath.loop_none p s n path curr hc hs hp] at h
          simp at h
        | some u =>
          rw [GetPath.loop_some p s n path curr u hc hs hp] at h
          exact ih (curr :: path) u (WalkState.next hw hc hs hp) h

/-! ## Shape of a reconstructed path -/

theorem BackChain.path_shape {p : GoMap String} {s c : String} {l : List String}
    (h : BackChain p s c l) :
    l ≠ [] ∧ l.head? = some s ∧ l.getLast? = some c ∧
      List.Chain' (fun a b => p b = some a) l := by
  induction h with
  | base _ => exact ⟨by simp, rfl, rfl, List.chain'_singleton _⟩
  | @step c u l _ _ hp _ ih =>
    obtain ⟨hne, hhead, hlast, hch⟩ := ih
    refine ⟨by simp, ?_, by simp, ?_⟩
    · cases l with
      | nil => exact absurd rfl hne
      | cons b t => simpa using hhead
    · refine List.Chain'.append hch (List.chain'_singleton _) ?_
      intro x hx y hy
      rw [hlast] at hx
      simp only [Option.mem_def, Option.some.injEq] at hx
      simp only [List.head?_cons, Option.mem_def, Option.some.injEq] at hy
      subst hx hy
      exact hp

/-- When the walk runs into a node without an entry before it meets the start
node, the result is the failure. -/
theorem GetPath.loop_missing (p : GoMap String) (s : String) (k : Nat) (e : String)
    (path : List String) (hh : path.head? ≠ some s)
    (hnone : walkNode p (k + 1) e = none) (hns : ∀ j, j ≤ k → walkNode p j e ≠ some s) :
    ∃ fuel, GetPath.loop p s fuel path e = some ([], false) := by
  induction k generalizing e path with
  | zero =>
    have hes : e ≠ s := fun h => hns 0 (Nat.le_refl _) (by simp [walkNode, h])
    by_cases he : e = ""
    · subst he
      exact ⟨0, by rw [GetPath.loop_empty]; simp [hh]⟩
    · have hp : p e = none := by
        cases hp : p e with
        | none => rfl
        | some u => simp [walkNode, hp] at hnone
      exact ⟨1, GetPath.loop_none p s 0 path e he hes hp⟩
  | succ k ih =>
    have hes : e ≠ s := fun h => hns 0 (Nat.zero_le _) (by simp [walkNode, h])
    by_cases he : e = ""
    · subst he
      exact ⟨0, by rw [GetPath.loop_empty]; simp [hh]⟩
    · cases hp : p e with
      | none => exact ⟨1, GetPath.loop_none p s 0 path e he hes hp⟩
      | some u =>
        have h1 : walkNode p (k + 1) u = none := by
          have := hnone
          rw [walkNode, hp] at this
          exact this
        have h2 : ∀ j, j ≤ k → walkNode p j u ≠ some s := by
          intro j hj
          have := hns (j + 1) (by omega)
          rw [walkNode, hp] at this
          exact this
        obtain ⟨fuel, hf⟩ := ih u (e :: path) (by simpa using hes) h1 h2
        exact ⟨fuel + 1, by rw [GetPath.loop_some p s fuel path e u he hes hp]; exact hf⟩

/-! ## Cycles and chains of predecessors -/

/-- On a two-node cycle of predecessors the backward walk uses up any fuel. -/
theorem GetPath.loop_two_cycle (p : GoMap String) (s a b : String) (hab : p a = some b)
    (hba : p b = some a) (ha0 : a ≠ "") (hb0 : b ≠ "") (has : a ≠ s) (hbs : b ≠ s)
    (fuel : Nat) :
    ∀ path, GetPath.loop p s fuel path a = none ∧ GetPath.loop p s fuel path b = none := by
  induction fuel with
  | zero =>
    intro path
    constructor <;> rw [GetPath.loop_zero] <;> simp [ha0, hb0]
  | succ n ih =>
    intro path
    constructor
    · rw [GetPath.loop_some p s n path a b ha0 has hab]
      exact (ih _).2
    · rw [GetPath.loop_some p s n path b a hb0 hbs hba]
      exact (ih _).1

/-- On a two-node cycle the chain of predecessors never reaches `""`. -/
theorem walkNode_two_cycle (p : GoMap String) (a b : String) (hab : p a = some b)
    (hba : p b = some a) (k : Nat) :
    (walkNode p k a = some a ∨ walkNode p k a = some b) ∧
      (walkNode p k b = some a ∨ walkNode p k b = some b) := by
  induction k with
  | zero => exact ⟨Or.inl rfl, Or.inr rfl⟩
  | succ n ih =>
    constructor
    · rw [walkNode, hab]; exact ih.2
    · rw [walkNode, hba]; exact ih.1

theorem walkNode_add (p : GoMap String) (a b : Nat) (v : String) :
    walkNode p (a + b) v = (walkNode p a v).bind (walkNode p b) := by
  induction a generalizing v with
  | zero => simp [walkNode]
  | succ a ih =>
    rw [show a + 1 + b = (a + b) + 1 by omega, walkNode, walkNode]
    cases p v with
    | none => rfl
    | some u => exact ih u

/-- A rooted chain meets the start node for the first time after some number of
steps, and only keys lie on it. -/
theorem Rooted.first_hit {g : Graph} {p : GoMap String} {s v : String} (h : Rooted g p s v)
    (hv : v ∈ Graph.keys g) :
    ∃ k, walkNode p k v = some s ∧ (∀ j, j < k → walkNode p j v ≠ some s) ∧
      ∀ j, j ≤ k → ∃ x, walkNode p j v = some x ∧ x ∈ Graph.keys g := by
  induction h with
  | base =>
    refine ⟨0, rfl, fun j hj => absurd hj (Nat.not_lt_zero _), ?_⟩
    intro j hj
    have : j = 0 := by omega
    subst this
    exact ⟨_, rfl, hv⟩
  | @step v u hvs hp huk _ ih =>
    obtain ⟨k, hk, hmin, hmem⟩ := ih huk
    refine ⟨k + 1, by rw [walkNode, hp]; exact hk, ?_, ?_⟩
    · intro j hj
      cases j with
      | zero => simpa [walkNode] using hvs
      | succ j => rw [walkNode, hp]; exact hmin j (by omega)
    · intro j hj
      cases j with
      | zero => exact ⟨v, rfl, hv⟩
      | succ j => rw [walkNode, hp]; exact hmem j (by omega)

/-- A chain that meets `t` for the first time after `k` steps and stays inside
the list `L` has at most as many nodes as `L` has elements. -/
theorem walk_bound (p : GoMap String) (L : List String) (v t : String) (k : Nat)
    (hk : walkNode p k v = some t) (hmin : ∀ j, j < k → walkNode p j v ≠ some t)
    (hmem : ∀ j, j ≤ k → ∃ x, walkNode p j v = some x ∧ x ∈ L) : k + 1 ≤ L.length := by
  by_contra hlt
  have hcard : L.toFinset.card < (Finset.range (k + 1)).card := by
    have := List.toFinset_card_le L
    rw [Finset.card_range]
    omega
  obtain ⟨i, hi, j, hj, hij, hf⟩ :=
    Finset.exists_ne_map_eq_of_card_lt_of_maps_to hcard
      (f := fun j => (walkNode p j v).getD "")
      (fun j hj => by
        obtain ⟨x, hx, hxL⟩ := hmem j (by simpa [Nat.lt_succ_iff] using hj)
        simp [hx, hxL])
  have key : ∀ i j, i < j → j ≤ k → (walkNode p i v).getD "" = (walkNode p j v).getD "" →
      False := by
    intro i j hlt' hjk hf
    obtain ⟨x, hx, _⟩ := hmem i (by omega)
    obtain ⟨y, hy, _⟩ := hmem j hjk
    rw [hx, hy] at hf
    simp only [Option.getD_some] at hf
    subst hf
    have h1 : walkNode p (k - j) x = some t := by
      have := walkNode_add p j (k - j) v
      rw [show j + (k - j) = k by omega, hk, hy] at this
      exact this.symm
    have h2 : walkNode p (i + (k - j)) v = some t := by
      rw [walkNode_add, hx]
      exact h1
    exact hmin _ (by omega) h2
  have hi' : i ≤ k := by simpa [Nat.lt_succ_iff] using hi
  have hj' : j ≤ k := by simpa [Nat.lt_succ_iff] using hj
  rcases Nat.lt_or_gt_of_ne hij with h | h
  · exact key i j h hj' hf
  · exact key j i h hi' hf.symm

/-- In the final maps the chain of predecessors of a key reaches `""` within as
many steps as the graph has keys. -/
theorem Post.chain_bound {g : Graph} {s : String} {d : GoMap Int} {p : GoMap String}
    (hP : Post g s d p) (hps : p s = some "") (v : String)
    (hv : v ∈ Graph.keys g) :
    ∃ k, k ≤ (Graph.keys g).length ∧ walkNode p k v = some "" := by
  by_cases hlt : d.getInt v < MaxInt64
  · obtain ⟨k, hk, hmin, hmem⟩ := (hP.inv.rooted v hv hlt).first_hit hv
    refine ⟨k + 1, walk_bound p _ v s k hk hmin hmem, ?_⟩
    rw [walkNode_add, hk]
    simp [walkNode, hps]
  · have hb : d.getInt v ≤ MaxInt64 := hP.inv.bounded v hv
    have hp : p v = some "" := hP.inv.untouched v hv (le_antisymm hb (not_lt.mp hlt))
    refine ⟨1, ?_, by simp [walkNode, hp]⟩
    exact List.length_pos_of_mem hv

/-- When the walk meets the start node for the first time after `k` steps,
without passing `""`, the loop returns after `k + 1` iterations the nodes of
the walk in forward order, put before the accumulated path. -/
theorem GetPath.loop_reaches (p : GoMap String) (s : String) (k : Nat) (e : String)
    (path : List String) (hk : walkNode p k e = some s)
    (hmin : ∀ j, j < k → walkNode p j e ≠ some s)
    (h0 : ∀ j, j ≤ k → walkNode p j e ≠ some "") :
    ∃ l, GetPath.loop p s (k + 1) path e = some (l ++ path, true) ∧ l.length = k + 1 ∧
      ∀ i, i ≤ k → l[i]? = walkNode p (k - i) e := by
  induction k generalizing e path with
  | zero =>
    have hes : e = s := by simpa [walkNode] using hk
    have hs0 : s ≠ "" := by
      intro h
      exact h0 0 (Nat.le_refl _) (by rw [hk, h])
    subst hes
    refine ⟨[e], GetPath.loop_start p e 0 path hs0, rfl, ?_⟩
    intro i hi
    have : i = 0 := by omega
    subst this
    rfl
  | succ k ih =>
    have hes : e ≠ s := fun h => hmin 0 (Nat.succ_pos _) (by simp [walkNode, h])
    have he0 : e ≠ "" := fun h => h0 0 (Nat.zero_le _) (by simp [walkNode, h])
    cases hp : p e with
    | none => simp [walkNode, hp] at hk
    | some u =>
      have hwalk : ∀ j, walkNode p (j + 1) e = walkNode p j u := by
        intro j
        rw [walkNode, hp]
      obtain ⟨l, hl, hlen, hget⟩ := ih u (e :: path) (by rw [← hwalk]; exact hk)
        (fun j hj => by rw [← hwalk]; exact hmin (j + 1) (by omega))
        (fun j hj => by rw [← hwalk]; exact h0 (j + 1) (by omega))
      refine ⟨l ++ [e], ?_, by simp [hlen], ?_⟩
      · rw [GetPath.loop_some p s (k + 1) path e u he0 hes hp, hl]
        simp
      · intro i hi
        by_cases hik : i ≤ k
        · rw [List.getElem?_append_left (by omega), hget i hik,
            show k + 1 - i = (k - i) + 1 by omega, hwalk]
        · have : i = k + 1 := by omega
          subst this
          rw [List.getElem?_append_right (by omega), hlen]
          simp [walkNode]

/-! ## The edges and simple paths of `overflowGraph` -/

theorem overflowGraph_edge {u v : String} {w : Int} (h : Edge overflowGraph u v w) :
    (u = "A" ∧ v = "B" ∧ w = 9223372036854775806) ∨ (u = "B" ∧ v = "A" ∧ w = 2) := by
  obtain ⟨nbrs, hl, hm⟩ := h
  simp only [overflowGraph, List.lookup_cons, List.lookup_nil] at hl
  by_cases hA : u = "A"
  · subst hA
    simp only [beq_self_eq_true, Option.some.injEq] at hl
    subst hl
    simp only [List.mem_singleton, Prod.mk.injEq] at hm
    exact Or.inl ⟨rfl, hm.1, hm.2⟩
  · have hA' : (u == "A") = false := by simpa using hA
    simp only [hA'] at hl
    by_cases hB : u = "B"
    · subst hB
      simp only [beq_self_eq_true, Option.some.injEq] at hl
      subst hl
      simp only [List.mem_singleton, Prod.mk.injEq] at hm
      exact Or.inr ⟨rfl, hm.1, hm.2⟩
    · have hB' : (u == "B") = false := by simpa using hB
      simp [hB'] at hl

theorem overflowGraph_simple {s v : String} {vis : List String} {W : Int}
    (h : SimplePath overflowGraph s vis v W) :
    (vis = [s] ∧ v = s ∧ W = 0) ∨ (vis = ["B", "A"] ∧ v = "B" ∧ W = 9223372036854775806) ∨
      (vis = ["A", "B"] ∧ v = "A" ∧ W = 2) := by
  induction h with
  | nil => exact Or.inl ⟨rfl, rfl, rfl⟩
  | @snoc vis u v W w _ he hv ih =>
    rcases overflowGraph_edge he with ⟨hu, hv', hw⟩ | ⟨hu, hv', hw⟩
    · rcases ih with ⟨h1, h2, h3⟩ | ⟨h1, h2, _⟩ | ⟨h1, _, _⟩
      · subst h1 h3 hv' hw
        rw [hu] at h2
        subst h2
        exact Or.inr (Or.inl ⟨rfl, rfl, rfl⟩)
      · rw [hu] at h2; exact absurd h2 (by decide)
      · subst h1 hv'; exact absurd hv (by decide)
    · rcases ih with ⟨h1, h2, h3⟩ | ⟨h1, _, _⟩ | ⟨h1, h2, _⟩
      · subst h1 h3 hv' hw
        rw [hu] at h2
        subst h2
        exact Or.inr (Or.inr ⟨rfl, rfl, rfl⟩)
      · subst h1 hv'; exact absurd hv (by decide)
      · rw [hu] at h2; exact absurd h2 (by decide)

/-- The method `Pop` on its own removes the last slot, which need not hold the
smallest priority; `heap.Pop` moves the root there first and so returns the
minimum. -/
theorem Pop_last_slot :
    (priorityQueue.Pop [{ node := "x", priority := 4, index := 0 },
        { node := "y", priority := 5, index := 1 }]).1
      = { node := "y", priority := 5, index := -1 } ∧
    (heap.Pop [{ node := "x", priority := 4, index := 0 },
        { node := "y", priority := 5, index := 1 }]).1
      = { node := "x", priority := 4, index := -1 } := by
  decide

/-! ## The claims on the queue, overflow and the shape of paths -/

/-- C11: for every queue reached from the empty queue by `heap.Push` and
`heap.Pop`, `heap.Pop` on a non-empty queue returns an item whose priority is at
most the priority of every item of the queue, and the items it leaves are those
of the queue without the returned one (as multisets of node and priority). -/
theorem heapPop_extracts_min (h : priorityQueue) (hr : Reached h) (hne : h ≠ []) :
    (∀ x ∈ entries h, (heap.Pop h).1.priority ≤ x.2) ∧
    ((heap.Pop h).1.key :: entries (heap.Pop h).2).Perm (entries h) :=
  ⟨heapPop_min h hr.isHeap hne, heapPop_entries h hne⟩

/-- Witness of C11: a queue built by two pushes. -/
theorem heapPop_extracts_min_witness :
    (∀ x ∈ entries twoItemQueue, (heap.Pop twoItemQueue).1.priority ≤ x.2) ∧
    ((heap.Pop twoItemQueue).1.key :: entries (heap.Pop twoItemQueue).2).Perm
      (entries twoItemQueue) :=
  heapPop_extracts_min twoItemQueue (Reached.push _ _ (Reached.push _ _ Reached.empty))
    (by decide)

/-- C12, failing as stated: in `overflowGraph` the weights are non-negative and
every simple path weighs less than `MaxInt64`; in the run from `A` the edge from
`B` to `A` is relaxed with `distances[B] = MaxInt64 - 1`, the sum exceeds
`MaxInt64`, and the distance returned for `A` is `-2^63`. -/
theorem simple_paths_below_sentinel_overflow :
    NonNeg overflowGraph ∧
    (∀ s vis v W, SimplePath overflowGraph s vis v W → W < MaxInt64) ∧
    Relaxing overflowGraph "A" overflowState "B" 9223372036854775806 [] ("A", 2) ∧
    overflowState.distances.getInt "B" + 2 > MaxInt64 ∧
    (Dijkstra 10 overflowGraph "A").map (fun r => r.1.getInt "A")
      = some (-9223372036854775808) := by
  refine ⟨by decide, ?_, ?_, by decide, by decide⟩
  · intro s vis v W h
    rcases overflowGraph_simple h with ⟨_, _, h3⟩ | ⟨_, _, h3⟩ | ⟨_, _, h3⟩ <;>
      (subst h3; decide)
  · exact ⟨by decide, step overflowGraph (initState overflowGraph "A"), [],
      Steps.next Steps.start (by decide), by decide, by decide, by decide, by decide, rfl, rfl⟩

/-- C12, amended: when the weights are non-negative and every simple path from
the start node, extended by one more edge out of its last node, weighs at most
`MaxInt64`, every relaxation sum `distances[u] + weight` of the run lies between
`0` and `MaxInt64` (so that it does not wrap), `Dijkstra` returns, and every
distance it returns is non-negative. -/
theorem Dijkstra_no_overflow (g : Graph) (s : String) (hnn : NonNeg g)
    (hH : NoOverflow g s) :
    (∀ st u p pre e, Relaxing g s st u p pre e →
      0 ≤ st.distances.getInt u + e.2 ∧ st.distances.getInt u + e.2 ≤ MaxInt64 ∧
        wrap64 (st.distances.getInt u + e.2) = st.distances.getInt u + e.2) ∧
    ∃ fuel d p, Dijkstra fuel g s = some (d, p) ∧ ∀ v, 0 ≤ d.getInt v := by
  constructor
  · intro st u p pre e h
    obtain ⟨h1, h2⟩ := h.sum_bounds hnn hH
    have hM : MaxInt64 = 9223372036854775807 := rfl
    exact ⟨h1, h2, wrap64_eq _ (by omega) (by omega)⟩
  · by_cases hs : s ∈ Graph.keys g
    · obtain ⟨st', hst'⟩ := mainLoop_bounded hnn hH hs
      have hI := (Steps.inv_of hnn hH hs (mainLoop_steps g _ _ _ hst')).1
      exact ⟨_, _, _, Dijkstra_of_run g s hs _ st' hst', hI.nonneg⟩
    · refine ⟨0, _, _, Dijkstra_of_not_key g s hs 0, ?_⟩
      intro v
      show 0 ≤ ((initMaps g).1 v).getD 0
      rw [initMaps_dist]
      split <;> decide

/-- Witness of the amended C12: the graph of `main` and the start node `A`. -/
theorem Dijkstra_no_overflow_witness :
    (∀ st u p pre e, Relaxing exampleGraph "A" st u p pre e →
      0 ≤ st.distances.getInt u + e.2 ∧ st.distances.getInt u + e.2 ≤ MaxInt64 ∧
        wrap64 (st.distances.getInt u + e.2) = st.distances.getInt u + e.2) ∧
    ∃ fuel d p, Dijkstra fuel exampleGraph "A" = some (d, p) ∧ ∀ v, 0 ≤ d.getInt v :=
  Dijkstra_no_overflow exampleGraph "A" (by decide)
    (noOverflow_of_total "A" (by decide) (by decide))

/-- C13: for every predecessor map, start and end node: when the backward walk
from the end node meets the start node for the first time after `k` steps,
without passing `""`, `GetPath` returns with `true` the `k + 1` nodes of the
walk in forward order; a sequence that `GetPath` returns with `true` is
non-empty, begins with the start node, ends with the end node, and each of its
elements is the predecessor entry of the next one; and when the backward walk
runs into a node without an entry, not having met the start node before,
`GetPath` returns the failure `nil, false`. -/
theorem GetPath_result_shape (previous : GoMap String) (s e : String) :
    (∀ k, walkNode previous k e = some s →
      (∀ j, j < k → walkNode previous j e ≠ some s) →
      (∀ j, j ≤ k → walkNode previous j e ≠ some "") →
      ∃ path, GetPath (k + 1) previous s e = some (path, true) ∧ path.length = k + 1 ∧
        ∀ i, i ≤ k → path[i]? = walkNode previous (k - i) e) ∧
    (∀ fuel path, GetPath fuel previous s e = some (path, true) →
      path ≠ [] ∧ path.head? = some s ∧ path.getLast? = some e ∧
        ∀ i a b, path[i]? = some a → path[i + 1]? = some b → previous b = some a) ∧
    (∀ k, walkNode previous (k + 1) e = none →
      (∀ j, j ≤ k → walkNode previous j e ≠ some s) →
      ∃ fuel, GetPath fuel previous s e = some ([], false)) := by
  refine ⟨?_, ?_, ?_⟩
  · intro k hk hmin h0
    obtain ⟨l, hl, hlen, hget⟩ := GetPath.loop_reaches previous s k e [] hk hmin h0
    rw [List.append_nil] at hl
    exact ⟨l, hl, hlen, hget⟩
  · intro fuel path h
    obtain ⟨l, hl, hres⟩ := GetPath.loop_true previous s fuel [] e path (by simp) h
    rw [List.append_nil] at hres
    subst hres
    obtain ⟨h1, h2, h3, h4⟩ := hl.path_shape
    refine ⟨h1, h2, h3, ?_⟩
    intro i a b ha hb
    obtain ⟨hi', hb'⟩ := List.getElem?_eq_some.mp hb
    obtain ⟨hi, ha'⟩ := List.getElem?_eq_some.mp ha
    have := (List.chain'_iff_get.mp h4) i (by omega)
    simp only [List.get_eq_getElem] at this
    rw [ha', hb'] at this
    exact this
  · intro k hnone hns
    exact GetPath.loop_missing previous s k e [] (by simp) hnone hns

/-- Witness of C13: on the chain `C → B → A` the walk from `C` meets the start
node `A` after two steps, and `GetPath` returns `[A, B, C]` with `true`. -/
theorem GetPath_result_shape_witness :
    GetPath (2 + 1) chainPrev "A" "C" = some (["A", "B", "C"], true) ∧
    ∃ path, GetPath (2 + 1) chainPrev "A" "C" = some (path, true) ∧ path.length = 2 + 1 ∧
      ∀ i, i ≤ 2 → path[i]? = walkNode chainPrev (2 - i) "C" :=
  ⟨by decide,
    (GetPath_result_shape chainPrev "A" "C").1 2 (by decide) (by decide) (by decide)⟩

/-! ## The claims on termination and finality -/

/-- C14, failing as stated: on `overflowGraph` (non-negative weights, two
edges) the run from `A` ends after four iterations; `A` is expanded twice by an
entry that passes the staleness test, and four entries are inserted into the
queue, more than one plus the number of edges. -/
theorem expansion_bound_fails_on_overflow :
    NonNeg overflowGraph ∧ "A" ∈ Graph.keys overflowGraph ∧ edgeCount overflowGraph = 2 ∧
    (mainLoop overflowGraph 4 (initState overflowGraph "A")).isSome = true ∧
    expansionsInRun overflowGraph "A" 4 (initState overflowGraph "A") = 2 ∧
    1 + pushesInRun overflowGraph 4 (initState overflowGraph "A") = 4 := by
  decide

/-- C14, amended: when the weights are non-negative and their sum is below
`MaxInt64`, `Dijkstra` returns within `1 + edgeCount g` iterations of the main
loop; for a start key the loop ends with an empty queue, every node is expanded
by an entry passing the staleness test at most once, and at most
`1 + edgeCount g` entries are inserted (the start entry and the pushes of the
loop). -/
theorem Dijkstra_loop_bound (g : Graph) (s : String) (hnn : NonNeg g)
    (hsum : totalWeight g < MaxInt64) :
    (∃ d p, Dijkstra (1 + edgeCount g) g s = some (d, p)) ∧
    (s ∈ Graph.keys g →
      (∃ st', mainLoop g (1 + edgeCount g) (initState g s) = some st' ∧ st'.pq = []) ∧
      (∀ u fuel, expansionsInRun g u fuel (initState g s) ≤ 1) ∧
      (∀ fuel, 1 + pushesInRun g fuel (initState g s) ≤ 1 + edgeCount g)) := by
  have hH := noOverflow_of_total s hnn hsum
  have main : s ∈ Graph.keys g →
      (∃ st', mainLoop g (1 + edgeCount g) (initState g s) = some st' ∧ st'.pq = []) ∧
      (∀ u fuel, expansionsInRun g u fuel (initState g s) ≤ 1) ∧
      (∀ fuel, 1 + pushesInRun g fuel (initState g s) ≤ 1 + edgeCount g) := by
    intro hs
    obtain ⟨st', hst'⟩ := mainLoop_bounded hnn hH hs
    refine ⟨⟨st', hst', ?_⟩, ?_, ?_⟩
    · exact (mainLoop_inv g (fun _ => True) (fun _ _ _ => trivial) _ _ _ trivial hst').2
    · intro u fuel
      exact expansionsInRun_le_one hnn hH u fuel _ (initState_good g s hs)
    · intro fuel
      have h1 := pushesInRun_le_potential hnn hH fuel _ (initState_good g s hs)
      have h2 := potential_init g s
      have h3 : (initState g s).pq.length = 1 := by simp [initState, heapPush_length]
      omega
  refine ⟨?_, main⟩
  by_cases hs : s ∈ Graph.keys g
  · obtain ⟨⟨st', hst', _⟩, _⟩ := main hs
    exact ⟨_, _, Dijkstra_of_run g s hs _ st' hst'⟩
  · exact ⟨_, _, Dijkstra_of_not_key g s hs _⟩

/-- Witness of the amended C14: the graph of `main` and the start node `A`. -/
theorem Dijkstra_loop_bound_witness :
    (∃ d p, Dijkstra (1 + edgeCount exampleGraph) exampleGraph "A" = some (d, p)) ∧
    ("A" ∈ Graph.keys exampleGraph →
      (∃ st', mainLoop exampleGraph (1 + edgeCount exampleGraph) (initState exampleGraph "A")
          = some st' ∧ st'.pq = []) ∧
      (∀ u fuel, expansionsInRun exampleGraph u fuel (initState exampleGraph "A") ≤ 1) ∧
      (∀ fuel, 1 + pushesInRun exampleGraph fuel (initState exampleGraph "A")
          ≤ 1 + edgeCount exampleGraph)) :=
  Dijkstra_loop_bound exampleGraph "A" (by decide) (by decide)

/-- C15, failing as stated: on `overflowGraph` (non-negative weights) the first
iteration extracts `A` with an entry that passes the staleness test, at
distance `0` and predecessor `""`; two iterations later the recorded distance
of `A` is `-2^63` and its predecessor is `B`. -/
theorem extracted_node_changes_on_overflow :
    NonNeg overflowGraph ∧ "A" ∈ Graph.keys overflowGraph ∧
    (initState overflowGraph "A").pq ≠ [] ∧
    (heap.Pop (initState overflowGraph "A").pq).1.node = "A" ∧
    ¬ (heap.Pop (initState overflowGraph "A").pq).1.priority >
        (initState overflowGraph "A").distances.getInt "A" ∧
    ((initState overflowGraph "A").distances.getInt "A",
      (initState overflowGraph "A").previous "A") = (0, some "") ∧
    ((step overflowGraph (step overflowGraph (initState overflowGraph "A"))).distances.getInt "A",
      (step overflowGraph (step overflowGraph (initState overflowGraph "A"))).previous "A")
      = (-9223372036854775808, some "B") := by
  decide

/-- C15, amended: in every graph no iteration of the main loop and no single
relaxation raises a recorded distance, and a relaxation changes a predecessor
only together with a strict decrease of the distance; when the weights are
non-negative and their sum is below `MaxInt64`, a node extracted at a loop head
of the run with an entry passing the staleness test has the same recorded
distance and predecessor at every later loop head. -/
theorem Dijkstra_extracted_final (g : Graph) (s : String) (hnn : NonNeg g)
    (hsum : totalWeight g < MaxInt64) (hs : s ∈ Graph.keys g) :
    (∀ st x, (step g st).distances.getInt x ≤ st.distances.getInt x) ∧
    (∀ u st e x, (relax u st e).distances.getInt x ≤ st.distances.getInt x ∧
      ((relax u st e).previous x = st.previous x ∨
        (relax u st e).distances.getInt x < st.distances.getInt x)) ∧
    ∀ st, Steps g (initState g s) st → st.pq ≠ [] →
      ¬ (heap.Pop st.pq).1.priority > st.distances.getInt (heap.Pop st.pq).1.node →
      ∀ st', Steps g (step g st) st' →
        st'.distances.getInt (heap.Pop st.pq).1.node
            = st.distances.getInt (heap.Pop st.pq).1.node ∧
          st'.previous (heap.Pop st.pq).1.node = st.previous (heap.Pop st.pq).1.node := by
  have hH := noOverflow_of_total s hnn hsum
  refine ⟨step_le g, fun u st e x => ⟨relax_le u st e x, relax_prev u st e x⟩, ?_⟩
  intro st hst hne hfresh st' hst'
  have hG := Steps.good hnn hH hs hst
  obtain ⟨hG', _, hnew⟩ := step_good hnn hH st hG hne
  obtain ⟨hfin, hd, hp⟩ := hnew hfresh
  obtain ⟨_, _, hd', hp'⟩ := Steps.frozen hnn hH hG' hst' _ hfin
  exact ⟨hd'.trans hd, hp'.trans hp⟩

/-- Witness of the amended C15: the graph of `main` and the start node `A`. -/
theorem Dijkstra_extracted_final_witness :
    (∀ st x, (step exampleGraph st).distances.getInt x ≤ st.distances.getInt x) ∧
    (∀ u st e x, (relax u st e).distances.getInt x ≤ st.distances.getInt x ∧
      ((relax u st e).previous x = st.previous x ∨
        (relax u st e).distances.getInt x < st.distances.getInt x)) ∧
    ∀ st, Steps exampleGraph (initState exampleGraph "A") st → st.pq ≠ [] →
      ¬ (heap.Pop st.pq).1.priority > st.distances.getInt (heap.Pop st.pq).1.node →
      ∀ st', Steps exampleGraph (step exampleGraph st) st' →
        st'.distances.getInt (heap.Pop st.pq).1.node
            = st.distances.getInt (heap.Pop st.pq).1.node ∧
          st'.previous (heap.Pop st.pq).1.node = st.previous (heap.Pop st.pq).1.node :=
  Dijkstra_extracted_final exampleGraph "A" (by decide) (by decide) (by decide)

/-- C16, failing as stated: when the expanded node has an edge to itself that
lowers its own distance, the next relaxation of the same expansion reads a
distance below the priority of the extracted entry. In `selfLoopGraph`
(non-negative weights, the sum `1 + MaxInt64` wraps) `A` is extracted with
priority `1` and the edge to `B` is relaxed with `distances[A] = -2^63`; in
`negLoopGraph` (a negative weight) `A` is extracted with priority `0` and the
edge to `B` is relaxed with `distances[A] = -1`. -/
theorem relax_distance_differs_from_priority :
    (NonNeg selfLoopGraph ∧
      Relaxing selfLoopGraph "S" selfLoopState "A" 1 [("A", 9223372036854775807)] ("B", 1) ∧
      selfLoopState.distances.getInt "A" = -9223372036854775808) ∧
    (Relaxing negLoopGraph "A" negLoopState "A" 0 [("A", -1)] ("B", 1) ∧
      negLoopState.distances.getInt "A" = -1) := by
  refine ⟨⟨by decide, ?_, by decide⟩, ?_, by decide⟩
  · exact ⟨by decide, step selfLoopGraph (initState selfLoopGraph "S"), [],
      Steps.next Steps.start (by decide), by decide, by decide, by decide, by decide, rfl, rfl⟩
  · exact ⟨by decide, initState negLoopGraph "A", [], Steps.start, by decide, by decide,
      by decide, by decide, rfl, rfl⟩

/-- C16, amended: for every graph and start node, at every relaxation
`distances[u]` is below `MaxInt64` and at most the priority of the extracted
entry, and equal to it as long as no entry of `graph[u]` for `u` itself has been
handled in this expansion; when the weights are non-negative and their sum is
below `MaxInt64` it equals the priority at every relaxation. -/
theorem relax_source_below_sentinel (g : Graph) (s : String) :
    (∀ st u p pre e, Relaxing g s st u p pre e →
      st.distances.getInt u < MaxInt64 ∧ st.distances.getInt u ≤ p ∧
        ((∀ x ∈ pre, x.1 ≠ u) → st.distances.getInt u = p)) ∧
    (NonNeg g → totalWeight g < MaxInt64 →
      ∀ st u p pre e, Relaxing g s st u p pre e → st.distances.getInt u = p) := by
  constructor
  · intro st u p pre e h
    obtain ⟨h1, h2, h3⟩ := h.general
    exact ⟨by omega, h1, h3⟩
  · intro hnn hsum st u p pre e h
    exact (h.exact hnn (noOverflow_of_total s hnn hsum)).2.2.2.1

/-! ## The claims on the predecessor map -/

/-- C17, failing as stated: on `overflowGraph` (non-negative weights) the start
node `A` ends with predecessor `B`, and for the one edge from `B` to `A`, of
weight `2`, the distances `-2^63` of `A` and `-2` of `B` do not add up; on
`emptyNameGraph` with start `""` the key `B` is reachable and not the start
node, yet its predecessor entry is `""`. -/
theorem lock_step_fails :
    (NonNeg overflowGraph ∧ "A" ∈ Graph.keys overflowGraph ∧
      (Dijkstra 10 overflowGraph "A").map (fun r => (r.2 "A", r.1.getInt "A", r.1.getInt "B"))
        = some (some "B", -9223372036854775808, -2) ∧
      ∀ w, Edge overflowGraph "B" "A" w → (-9223372036854775808 : Int) ≠ -2 + w) ∧
    (NonNeg emptyNameGraph ∧ "" ∈ Graph.keys emptyNameGraph ∧
      "B" ∈ Graph.keys emptyNameGraph ∧ "B" ≠ "" ∧ Reachable emptyNameGraph "" "B" ∧
      (Dijkstra 10 emptyNameGraph "").map (fun r => r.2 "B") = some (some "")) := by
  refine ⟨⟨by decide, by decide, by decide, ?_⟩, by decide, by decide, by decide, by decide,
    ⟨[""] ++ ["B"], 0 + 1, Path.snoc Path.nil ⟨[("B", 1)], rfl, by decide⟩⟩, by decide⟩
  intro w hw
  rcases overflowGraph_edge hw with ⟨h, _, _⟩ | ⟨_, _, h⟩
  · exact absurd h (by decide)
  · subst h; decide

/-- C17, amended: when the weights are non-negative with sum below `MaxInt64`,
for a start key `Dijkstra` returns maps in which every key `v` with a
predecessor `u` other than `""` has an edge from `u` to `v` whose weight added
to the distance of `u` gives the distance of `v`, so that `graph[u]` is not
empty; and when `""` is not a key reachable from the start node, the
predecessor entry of a key is `""` exactly for the start node and the
unreachable keys. -/
theorem Dijkstra_lock_step (g : Graph) (s : String) (hnn : NonNeg g)
    (hsum : totalWeight g < MaxInt64) (hs : s ∈ Graph.keys g) :
    ∃ fuel d p, Dijkstra fuel g s = some (d, p) ∧
      (∀ v ∈ Graph.keys g, ∀ u, p v = some u → u ≠ "" →
        (∃ w, Edge g u v w ∧ d.getInt v = d.getInt u + w) ∧ g.lookup u ≠ some []) ∧
      (¬ ("" ∈ Graph.keys g ∧ Reachable g s "") →
        ∀ v ∈ Graph.keys g, p v = some "" ↔ (v = s ∨ ¬ Reachable g s v)) := by
  obtain ⟨fuel, d, p, hD, hP, hps⟩ := Dijkstra_final g s hnn hsum hs
  refine ⟨fuel, d, p, hD, ?_, ?_⟩
  · intro v hv u hpv hu
    have hvs : v ≠ s := by
      intro h
      rw [h, hps] at hpv
      exact hu (Option.some.inj hpv).symm
    have hlt : d.getInt v < MaxInt64 := by
      by_contra hlt
      have hb : d.getInt v ≤ MaxInt64 := hP.inv.bounded v hv
      have := hP.inv.untouched v hv (le_antisymm hb (not_lt.mp hlt))
      simp only at this
      rw [this] at hpv
      exact hu (Option.some.inj hpv).symm
    obtain ⟨a, w, hpa, he, _, hd⟩ := hP.lock_eq v hv hvs hlt hnn
    have hau : a = u := by rw [hpv] at hpa; exact (Option.some.inj hpa).symm
    subst hau
    refine ⟨⟨w, he, hd⟩, ?_⟩
    obtain ⟨nbrs, hl, hm⟩ := he
    rw [hl]
    intro h
    rw [Option.some.inj h] at hm
    simp at hm
  · intro hk v hv
    constructor
    · intro hpv
      by_contra hcon
      push_neg at hcon
      obtain ⟨hvs, hr⟩ := hcon
      have hlt := (hP.reach_iff hnn hsum v hv).mpr hr
      obtain ⟨a, w, hpa, he, haD, _⟩ := hP.lock_eq v hv hvs hlt hnn
      have ha : a = "" := by rw [hpv] at hpa; exact (Option.some.inj hpa).symm
      subst ha
      exact hk ⟨he.src_key, (hP.reach_iff hnn hsum "" he.src_key).mp haD⟩
    · rintro (h | h)
      · rw [h]; exact hps
      · have hlt := (hP.reach_iff hnn hsum v hv).not.mpr h
        have hb : d.getInt v ≤ MaxInt64 := hP.inv.bounded v hv
        exact hP.inv.untouched v hv (le_antisymm hb (not_lt.mp hlt))

/-- Witness of the amended C17: the graph of `main` and the start node `A`. -/
theorem Dijkstra_lock_step_witness :
    ∃ fuel d p, Dijkstra fuel exampleGraph "A" = some (d, p) ∧
      (∀ v ∈ Graph.keys exampleGraph, ∀ u, p v = some u → u ≠ "" →
        (∃ w, Edge exampleGraph u v w ∧ d.getInt v = d.getInt u + w) ∧
          exampleGraph.lookup u ≠ some []) ∧
      (¬ ("" ∈ Graph.keys exampleGraph ∧ Reachable exampleGraph "A" "") →
        ∀ v ∈ Graph.keys exampleGraph,
          p v = some "" ↔ (v = "A" ∨ ¬ Reachable exampleGraph "A" v)) :=
  Dijkstra_lock_step exampleGraph "A" (by decide) (by decide) (by decide)

/-- C18, failing as stated: on `overflowGraph` (non-negative weights) with start
`A` the returned predecessor map holds the cycle `A → B → A`; following it from
`A` never reaches `""`, and `GetPath` with start node `C` and end node `A` does
not return for any fuel. -/
theorem previous_cycle_on_overflow :
    NonNeg overflowGraph ∧ "A" ∈ Graph.keys overflowGraph ∧
    ∃ d p, Dijkstra 10 overflowGraph "A" = some (d, p) ∧
      p "A" = some "B" ∧ p "B" = some "A" ∧
      (∀ k, walkNode p k "A" ≠ some "") ∧
      ¬ ∃ fuel r, GetPath fuel p "C" "A" = some r := by
  refine ⟨by decide, by decide, ?_⟩
  have hA : (Dijkstra 10 overflowGraph "A").map (fun r => r.2 "A") = some (some "B") := by
    decide
  have hB : (Dijkstra 10 overflowGraph "A").map (fun r => r.2 "B") = some (some "A") := by
    decide
  cases h : Dijkstra 10 overflowGraph "A" with
  | none => rw [h] at hA; cases hA
  | some r =>
    obtain ⟨d, p⟩ := r
    rw [h] at hA hB
    simp only [Option.map_some', Option.some.injEq] at hA hB
    refine ⟨d, p, rfl, hA, hB, ?_, ?_⟩
    · intro k hk
      rcases (walkNode_two_cycle p "A" "B" hA hB k).1 with h1 | h1
      · rw [h1] at hk; exact absurd hk (by decide)
      · rw [h1] at hk; exact absurd hk (by decide)
    · rintro ⟨fuel, r, hr⟩
      rw [GetPath, (GetPath.loop_two_cycle p "C" "A" "B" hA hB (by decide) (by decide)
        (by decide) (by decide) fuel []).1] at hr
      cases hr

/-- C18, amended: when the weights are non-negative with sum below `MaxInt64`,
for a start key `Dijkstra` returns a predecessor map in which following the
entries from any key reaches `""` after at most as many steps as the graph has
keys, and on which `GetPath` returns for every start and end node. -/
theorem Dijkstra_previous_acyclic (g : Graph) (s : String) (hnn : NonNeg g)
    (hsum : totalWeight g < MaxInt64) (hs : s ∈ Graph.keys g) :
    ∃ fuel d p, Dijkstra fuel g s = some (d, p) ∧
      (∀ v ∈ Graph.keys g, ∃ k, k ≤ (Graph.keys g).length ∧ walkNode p k v = some "") ∧
      ∀ s' e, ∃ fuel' r, GetPath fuel' p s' e = some r := by
  obtain ⟨fuel, d, p, hD, hP, hps⟩ := Dijkstra_final g s hnn hsum hs
  refine ⟨fuel, d, p, hD, fun v hv => hP.chain_bound hps v hv, ?_⟩
  intro s' e
  by_cases he : e ∈ Graph.keys g
  · obtain ⟨k, _, hk⟩ := hP.chain_bound hps e he
    exact GetPath.loop_of_ends p s' k e (Or.inr (Or.inl hk)) []
  · have hn : p e = none := by
      have := (hP.inv.prevKeys e).not.mpr he
      simp only at this
      cases hp : p e with
      | none => rfl
      | some x => simp [hp] at this
    exact GetPath.loop_of_ends p s' 1 e (Or.inl (by simp [walkNode, hn])) []

/-- Witness of the amended C18: the graph of `main` and the start node `A`. -/
theorem Dijkstra_previous_acyclic_witness :
    ∃ fuel d p, Dijkstra fuel exampleGraph "A" = some (d, p) ∧
      (∀ v ∈ Graph.keys exampleGraph,
        ∃ k, k ≤ (Graph.keys exampleGraph).length ∧ walkNode p k v = some "") ∧
      ∀ s' e, ∃ fuel' r, GetPath fuel' p s' e = some r :=
  Dijkstra_previous_acyclic exampleGraph "A" (by decide) (by decide) (by decide)

/-- C19, failing as stated: in `danglingGraph` (non-negative weights) `Z` is not
a key; in the run from `A` the sum `MaxInt64 - 1 + 5` wraps below `0`, the value
read for the missing key, and the returned maps hold a distance and the
predecessor `B` for `Z`. -/
theorem dangling_target_gets_entries :
    NonNeg danglingGraph ∧ "A" ∈ Graph.keys danglingGraph ∧ "Z" ∉ Graph.keys danglingGraph ∧
    (Dijkstra 10 danglingGraph "A").map (fun r => (r.1 "Z", r.2 "Z"))
      = some (some (-9223372036854775805), some "B") := by
  decide

/-- C19, amended: when the weights are non-negative with sum below `MaxInt64`,
for every start node `Dijkstra` returns maps whose key sets are both exactly
the key set of the graph. -/
theorem Dijkstra_key_sets (g : Graph) (s : String) (hnn : NonNeg g)
    (hsum : totalWeight g < MaxInt64) :
    ∃ fuel d p, Dijkstra fuel g s = some (d, p) ∧
      ∀ v, ((d v).isSome = true ↔ v ∈ Graph.keys g) ∧
        ((p v).isSome = true ↔ v ∈ Graph.keys g) := by
  by_cases hs : s ∈ Graph.keys g
  · obtain ⟨fuel, d, p, hD, hP⟩ := Dijkstra_post g s hnn hsum hs
    exact ⟨fuel, d, p, hD, fun v => ⟨hP.inv.distKeys v, hP.inv.prevKeys v⟩⟩
  · refine ⟨0, (initMaps g).1, (initMaps g).2, Dijkstra_of_not_key g s hs 0, ?_⟩
    intro v
    rw [initMaps_dist, initMaps_prev]
    constructor <;> split <;> simp [*]

/-- Witness of the amended C19: the graph of `main` and the start node `A`. -/
theorem Dijkstra_key_sets_witness :
    ∃ fuel d p, Dijkstra fuel exampleGraph "A" = some (d, p) ∧
      ∀ v, ((d v).isSome = true ↔ v ∈ Graph.keys exampleGraph) ∧
        ((p v).isSome = true ↔ v ∈ Graph.keys exampleGraph) :=
  Dijkstra_key_sets exampleGraph "A" (by decide) (by decide)

/-- C20: for every predecessor map, start and end node: whenever the loop of
`GetPath` is left with the current node `""`, the test
`len(path) == 0 || path[0] != startNode` holds and the result is the failure
`nil, false`, so the final `return path, true` is never reached; every result
with `true` is returned inside the loop, from a configuration whose current
node is the start node; and the result computed from any configuration of the
walk is the result of `GetPath`. -/
theorem GetPath_final_return_dead (previous : GoMap String) (s e : String) :
    (∀ path, WalkState previous s e path "" →
      (path.length = 0 ∨ path.head? ≠ some s) ∧
        ∀ fuel, GetPath.loop previous s fuel path "" = some ([], false)) ∧
    (∀ fuel res, GetPath fuel previous s e = some (res, true) →
      ∃ path, WalkState previous s e path s ∧ s ≠ "" ∧ res = s :: path) ∧
    (∀ path curr, WalkState previous s e path curr →
      ∀ fuel r, GetPath.loop previous s fuel path curr = some r →
        ∃ fuel', GetPath fuel' previous s e = some r) := by
  refine ⟨?_, ?_, ?_⟩
  · intro path hw
    refine ⟨Or.inr hw.head_ne, ?_⟩
    intro fuel
    rw [GetPath.loop_empty]
    simp [hw.head_ne]
  · intro fuel res h
    exact WalkState.of_true fuel [] e res WalkState.init h
  · intro path curr hw fuel r hr
    exact hw.result fuel r hr

end DijkstraGo
